import Mathlib

/-!
Shallow embedding of the reactive state engine in src/app/core/statemanager.ts
(createState / createComputedState / createHybridState, the shared pending-set
scheduler processPendingStates, and dispose), together with theorems settling
the specification claims.

Modelling conventions:
* JavaScript values are `JVal`: undefined, a primitive number, or a reference
  into an explicit heap of flat objects (field name, primitive value).  The
  strict equality test x !== y of the source is exactly inequality of `JVal`
  (two references are identical iff they are the same address).
  structuredClone of a reference allocates a fresh address with a copy of the
  referenced object; cloning a primitive or undefined is the identity.
* A JS Set is an insertion-ordered duplicate-free list: add appends when
  absent, delete filters the element out, iteration follows the list order.
* A compute function is a `CExp`: a tree of reads of other nodes (each read
  performs the dependency-capturing get of the source) ending in either an
  existing value or a fresh object literal (allocated anew on every run, as a
  JS object literal is).
* Subscribers are identifiers; a notification appends a `Note` (node,
  subscriber, value passed) to a global log, mirroring a call of the
  subscriber callback.
-/

namespace Kraai

/-- Heap addresses of object values. -/
abbrev Addr := Nat

/-- Node identifiers (index into the node store, in creation order). -/
abbrev NodeId := Nat

/-- Object field keys (field names, coded as naturals). -/
abbrev Key := Nat

/-- A flat JS object: an association list of fields holding primitives. -/
abbrev Obj := List (Key × Int)

/-- A JavaScript value: undefined, a primitive, or an object reference. -/
inductive JVal where
  | undef : JVal
  | prim : Int → JVal
  | ref : Addr → JVal
deriving DecidableEq, Repr

/-- Kind of a node: plain (createState), computed (createComputedState) or
hybrid (createHybridState). -/
inductive NodeKind where
  | plain
  | computed
  | hybrid
deriving DecidableEq, Repr

/-- A compute function: a finite tree of dependency-capturing reads ending in
a result.  lit allocates a fresh object on every run (a JS object literal),
ret returns an already existing value (such as a value just read). -/
inductive CExp where
  | ret : JVal → CExp
  | lit : Obj → CExp
  | read : NodeId → (JVal → CExp) → CExp

/-- One reactive node, as held by the closures of the source factories. -/
structure Node where
  kind : NodeKind
  value : JVal
  subscribers : List Nat
  dependents : List NodeId
  dependencies : List NodeId
  lastDeps : List NodeId
  manualOverride : Option Obj
  compute : CExp

/-- A record of one subscriber invocation: node whose loop called it, the
subscriber, and the value it was passed. -/
structure Note where
  node : NodeId
  sub : Nat
  value : JVal
deriving DecidableEq, Repr

/-- The whole engine state: the nodes, the object heap, the module-level
pending set and isProcessingPending flag, and the log of subscriber calls. -/
structure Sys where
  nodes : List Node
  heap : List Obj
  pending : List NodeId
  isProcessing : Bool
  log : List Note

/-- The empty engine state at module load. -/
def initSys : Sys :=
  { nodes := [], heap := [], pending := [], isProcessing := false, log := [] }

/-! Insertion-ordered set operations (JS Set.add / Set.delete). -/

/-- JS Set.add on an insertion-ordered list. -/
def setAdd (l : List Nat) (x : Nat) : List Nat :=
  if x ∈ l then l else l ++ [x]

/-- JS Set.delete on an insertion-ordered list. -/
def setRemove (l : List Nat) (x : Nat) : List Nat :=
  l.filter (fun y => y ≠ x)

/-- Replace the element at an index by the image under f (identity when out
of range). -/
def listModify {α : Type} : List α → Nat → (α → α) → List α
  | [], _, _ => []
  | x :: xs, 0, f => f x :: xs
  | x :: xs, n + 1, f => x :: listModify xs n f

/-! Field lookup and JS object spread. -/

/-- First binding of a key in a flat object. -/
def lookupKey : Obj → Key → Option Int
  | [], _ => none
  | kv :: rest, k => if kv.1 = k then some kv.2 else lookupKey rest k

/-- Whether a flat object has a binding for a key. -/
def hasKey (o : Obj) (k : Key) : Bool :=
  (lookupKey o k).isSome

/-- JS object spread of two objects: base fields in order with values
overridden by the patch where present, then the patch fields absent from the
base in patch order. -/
def mergeFields (base patch : Obj) : Obj :=
  base.map (fun kv =>
    match lookupKey patch kv.1 with
    | some v => (kv.1, v)
    | none => kv)
  ++ patch.filter (fun kv => !(hasKey base kv.1))

/-! Heap access, allocation and structuredClone. -/

/-- Contents of the heap at an address (empty object when unallocated). -/
def heapAt (s : Sys) (a : Addr) : Obj :=
  (s.heap[a]?).getD []

/-- Fields of a value: the referenced object for a reference, none for a
primitive or undefined (the spread of a non-object contributes no fields). -/
def contentOf (s : Sys) (v : JVal) : Obj :=
  match v with
  | .ref a => heapAt s a
  | _ => []

/-- Allocate one fresh object at the end of the heap. -/
def allocObj (s : Sys) (o : Obj) : Sys :=
  { s with heap := s.heap ++ [o] }

/-- structuredClone: a primitive or undefined is returned as is, an object is
copied to a fresh address. -/
def cloneVal (s : Sys) (v : JVal) : Sys × JVal :=
  match v with
  | .ref a => (allocObj s (heapAt s a), .ref s.heap.length)
  | w => (s, w)

/-! Node store access. -/

/-- Node at an identifier. -/
def getN (s : Sys) (i : NodeId) : Option Node :=
  s.nodes[i]?

/-- Update the node at an identifier. -/
def updN (s : Sys) (i : NodeId) (f : Node → Node) : Sys :=
  { s with nodes := listModify s.nodes i f }

/-- Overwrite the node at an identifier. -/
def setN (s : Sys) (i : NodeId) (n : Node) : Sys :=
  updN s i (fun _ => n)

/-! The per-node addDependency / removeDependency methods of the source.  The
plain-state variant operates on the dependents set (as written in the
source); the computed and hybrid variants operate on the dependencies set. -/

/-- addDependency method of a node. -/
def addDependencyOp (n : Node) (d : NodeId) : Node :=
  match n.kind with
  | .plain => { n with dependents := setAdd n.dependents d }
  | _ => { n with dependencies := setAdd n.dependencies d }

/-- removeDependency method of a node. -/
def removeDependencyOp (n : Node) (d : NodeId) : Node :=
  match n.kind with
  | .plain => { n with dependents := setRemove n.dependents d }
  | _ => { n with dependencies := setRemove n.dependencies d }

/-- Dependency capture of get under an active computation c reading node i:
currentlyComputing.addDependency(state) then addDependent(dependents,
currentlyComputing), in source order. -/
def captureDep (s : Sys) (c i : NodeId) : Sys :=
  let s1 := updN s c (fun n => addDependencyOp n i)
  updN s1 i (fun n => { n with dependents := setAdd n.dependents c })

/-- The get method of node i under an optional active computation.  A plain
node captures whenever a computation is active; a computed or hybrid node
additionally requires the active computation to be a different node. -/
def getOp (s : Sys) (cc : Option NodeId) (i : NodeId) : Sys × JVal :=
  match getN s i with
  | none => (s, .undef)
  | some n =>
    match cc with
    | none => (s, n.value)
    | some c =>
      if n.kind = .plain ∨ c ≠ i then (captureDep s c i, n.value)
      else (s, n.value)

/-- Run a compute function with node cc installed as the active computation:
every read performs the capturing get of the target node, lit allocates a
fresh object, ret yields its value. -/
def runCExp (s : Sys) (cc : NodeId) : CExp → Sys × JVal
  | .ret v => (s, v)
  | .lit o => (allocObj s o, .ref s.heap.length)
  | .read i k =>
    let p := getOp s (some cc) i
    runCExp p.1 cc (k p.2)

/-- scheduleProcessing: set the isProcessingPending flag (the deferred flush
callback itself is invoked explicitly in this model). -/
def schedule (s : Sys) : Sys :=
  if s.isProcessing then s else { s with isProcessing := true }

/-- The shared tail of set and recompute: overwrite the node, add it to the
pending set, and call scheduleProcessing. -/
def storeMark (s : Sys) (i : NodeId) (m : Node) : Sys :=
  schedule { setN s i m with pending := setAdd (setN s i m).pending i }

/-- Edge teardown at the start of recompute: remove this node from the
dependents of every previous dependency, then clear its dependencies. -/
def teardownDeps (s : Sys) (i : NodeId) : Sys :=
  match getN s i with
  | none => s
  | some n =>
    let s1 := n.dependencies.foldl
      (fun acc d => updN acc d (fun m => { m with dependents := setRemove m.dependents i })) s
    updN s1 i (fun m => { m with dependencies := [] })

/-- The shared first half of recompute: edge teardown, then the compute
function run under this node as the active computation.  Returns the state
after the run (holding the freshly captured dependencies) and the raw result
of the compute function. -/
def computePass (s : Sys) (i : NodeId) (c : CExp) : Sys × JVal :=
  runCExp (teardownDeps s i) i c

/-- recompute of a computed node: teardown and rerun, then the
dependency-sequence gate (adopt a clone of the fresh result and update the
snapshot only when the captured dependency sequence differs from the last
one), then the final identity check adopting a clone of the fresh result and
marking the node pending whenever the stored value is not reference-identical
to the raw result. -/
def recomputeC (s : Sys) (i : NodeId) : Sys :=
  match getN s i with
  | none => s
  | some n0 =>
    let p := computePass s i n0.compute
    let s2 := p.1
    let newValue := p.2
    let n2 := (getN s2 i).getD n0
    let nextDeps := n2.dependencies
    let gate : Sys × Node :=
      if n2.lastDeps = nextDeps then (s2, n2)
      else
        let q := cloneVal s2 newValue
        (q.1, { n2 with value := q.2, lastDeps := nextDeps })
    let s3 := gate.1
    let n3 := gate.2
    if n3.value = newValue then setN s3 i n3
    else
      let q2 := cloneVal s3 newValue
      storeMark q2.1 i { n3 with value := q2.2 }

/-- recompute of a hybrid node: teardown and rerun, snapshot update with no
value gate, then the stored value unconditionally becomes a clone of the
fresh base with the accumulated manual override spread on top when one
exists, and the node is unconditionally marked pending. -/
def recomputeH (s : Sys) (i : NodeId) : Sys :=
  match getN s i with
  | none => s
  | some n0 =>
    let p := computePass s i n0.compute
    let s2 := p.1
    let newValue := p.2
    let n2 := (getN s2 i).getD n0
    let nextDeps := n2.dependencies
    let n3 := if n2.lastDeps = nextDeps then n2 else { n2 with lastDeps := nextDeps }
    let r : Sys × JVal :=
      match n3.manualOverride with
      | some ov =>
        let q := cloneVal s2 newValue
        (allocObj q.1 (mergeFields (contentOf q.1 q.2) ov), .ref q.1.heap.length)
      | none => cloneVal s2 newValue
    storeMark r.1 i { n3 with value := r.2 }

/-- recompute dispatch as the flush performs it (only computed and hybrid
nodes have a recompute method). -/
def recomputeOp (s : Sys) (i : NodeId) : Sys :=
  match getN s i with
  | none => s
  | some n =>
    match n.kind with
    | .computed => recomputeC s i
    | .hybrid => recomputeH s i
    | .plain => s

/-- The set method of a plain node: a no-op when the new value is
reference-identical to the stored one, otherwise store a clone and mark
pending. -/
def plainSet (s : Sys) (i : NodeId) (v : JVal) : Sys :=
  match getN s i with
  | none => s
  | some n =>
    if n.value = v then s
    else
      let q := cloneVal s v
      storeMark q.1 i { n with value := q.2 }

/-- The set method of a hybrid node: spread the patch into the accumulated
manual override, store a fresh object made of a clone of the current value
with the new override spread on top, and mark pending. -/
def hybridSet (s : Sys) (i : NodeId) (patch : Obj) : Sys :=
  match getN s i with
  | none => s
  | some n =>
    let ov := mergeFields (n.manualOverride.getD []) patch
    let q := cloneVal s n.value
    storeMark (allocObj q.1 (mergeFields (contentOf q.1 q.2) ov)) i
      { n with manualOverride := some ov, value := .ref q.1.heap.length }

/-- Argument of a set call: a whole value (plain nodes) or a partial patch
(hybrid nodes). -/
inductive SetArg where
  | val : JVal → SetArg
  | patch : Obj → SetArg

/-- The set entry point, dispatched on the kind of the node the caller holds:
the computed-state set method throws (Cannot set value of a computed state)
and leaves the state untouched. -/
def setOp (s : Sys) (i : NodeId) (a : SetArg) : Sys × Except String Unit :=
  match getN s i with
  | none => (s, .ok ())
  | some n =>
    match n.kind, a with
    | .plain, .val v => (plainSet s i v, .ok ())
    | .computed, _ => (s, .error "Cannot set value of a computed state")
    | .hybrid, .patch p => (hybridSet s i p, .ok ())
    | _, _ => (s, .ok ())

/-- subscribe: add the callback to the subscriber set and invoke it
immediately with the current value. -/
def subscribeOp (s : Sys) (i : NodeId) (sb : Nat) : Sys :=
  match getN s i with
  | none => s
  | some n =>
    let s1 := setN s i { n with subscribers := setAdd n.subscribers sb }
    { s1 with log := s1.log ++ [{ node := i, sub := sb, value := n.value }] }

/-- dispose: clear the subscribers, tell every dependent to drop its edge
back to this node, clear the dependents. -/
def disposeOp (s : Sys) (i : NodeId) : Sys :=
  match getN s i with
  | none => s
  | some n =>
    let s1 := setN s i { n with subscribers := [] }
    let s2 := n.dependents.foldl (fun acc d => updN acc d (fun m => removeDependencyOp m i)) s1
    updN s2 i (fun m => { m with dependents := [] })

/-- The unsubscribe closure returned by subscribe: remove the callback, and
dispose the node when it is left with no subscribers and no edges (plain
nodes check subscribers and dependents; computed and hybrid nodes also
require no dependencies). -/
def unsubscribeOp (s : Sys) (i : NodeId) (sb : Nat) : Sys :=
  match getN s i with
  | none => s
  | some n =>
    let n1 := { n with subscribers := setRemove n.subscribers sb }
    let s1 := setN s i n1
    let gone :=
      match n.kind with
      | .plain => n1.subscribers.isEmpty && n1.dependents.isEmpty
      | _ => n1.subscribers.isEmpty && n1.dependencies.isEmpty && n1.dependents.isEmpty
    if gone then disposeOp s1 i else s1

/-- createState: store a clone of the initial value in a fresh plain node. -/
def createStateOp (s : Sys) (v : JVal) : Sys × NodeId :=
  let q := cloneVal s v
  let node : Node :=
    { kind := .plain, value := q.2, subscribers := [], dependents := [],
      dependencies := [], lastDeps := [], manualOverride := none,
      compute := .ret .undef }
  ({ q.1 with nodes := q.1.nodes ++ [node] }, s.nodes.length)

/-- createComputedState: a fresh computed node with uninitialized (undefined)
value, immediately recomputed once. -/
def createComputedOp (s : Sys) (c : CExp) : Sys × NodeId :=
  let i := s.nodes.length
  let node : Node :=
    { kind := .computed, value := .undef, subscribers := [], dependents := [],
      dependencies := [], lastDeps := [], manualOverride := none, compute := c }
  (recomputeC { s with nodes := s.nodes ++ [node] } i, i)

/-- createHybridState: a fresh hybrid node whose value starts as a clone of
the initial object, immediately recomputed once. -/
def createHybridOp (s : Sys) (c : CExp) (initial : Obj) : Sys × NodeId :=
  let i := s.nodes.length
  let s1 := { s with heap := s.heap ++ [initial] }
  let node : Node :=
    { kind := .hybrid, value := .ref s.heap.length, subscribers := [], dependents := [],
      dependencies := [], lastDeps := [], manualOverride := none, compute := c }
  (recomputeH { s1 with nodes := s1.nodes ++ [node] } i, i)

/-! The flush: processPendingStates. -/

/-- Invoke every current subscriber of a node with its current value (the
value is obtained by get with no active computation). -/
def notifyAll (s : Sys) (i : NodeId) : Sys :=
  match getN s i with
  | none => s
  | some n =>
    { s with log := s.log ++ n.subscribers.map (fun sb => { node := i, sub := sb, value := n.value }) }

/-- Whether the node object has a recompute method. -/
def hasRecompute (s : Sys) (i : NodeId) : Bool :=
  match getN s i with
  | some n => n.kind ≠ NodeKind.plain
  | none => false

/-- Loop body of phase A: a not-yet-processed node with a recompute method
is marked processed, recomputed, and its subscribers are invoked with the
resulting value. -/
def stepA (acc : Sys × List NodeId) (i : NodeId) : Sys × List NodeId :=
  if i ∈ acc.2 then acc
  else if hasRecompute acc.1 i then
    (notifyAll (recomputeOp acc.1 i) i, acc.2 ++ [i])
  else acc

/-- Loop body of phase B: a not-yet-processed node without a recompute
method is marked processed and its subscribers are invoked with the current
value. -/
def stepB (acc : Sys × List NodeId) (i : NodeId) : Sys × List NodeId :=
  if i ∈ acc.2 then acc
  else if hasRecompute acc.1 i then acc
  else (notifyAll acc.1 i, acc.2 ++ [i])

/-- Phase A of a wave: the phase-A body over the snapshot. -/
def phaseA (snapshot : List NodeId) (start : Sys × List NodeId) : Sys × List NodeId :=
  snapshot.foldl stepA start

/-- Phase B of a wave: the phase-B body over the snapshot. -/
def phaseB (snapshot : List NodeId) (start : Sys × List NodeId) : Sys × List NodeId :=
  snapshot.foldl stepB start

/-- Final step of a wave: for every processed node, add each of its
dependents not yet processed to the pending set. -/
def enqueueDependents (s : Sys) (processed : List NodeId) : Sys :=
  processed.foldl
    (fun acc p =>
      match getN acc p with
      | none => acc
      | some n =>
        n.dependents.foldl
          (fun acc2 d => if d ∈ processed then acc2
            else { acc2 with pending := setAdd acc2.pending d }) acc)
    s

/-- One wave of the flush: snapshot and clear the pending set, run phase A
then phase B over the snapshot, then enqueue the dependents of all processed
nodes. -/
def wave (s : Sys) (processed : List NodeId) : Sys × List NodeId :=
  let snapshot := s.pending
  let start := ({ s with pending := [] }, processed)
  let afterA := phaseA snapshot start
  let afterB := phaseB snapshot afterA
  (enqueueDependents afterB.1 afterB.2, afterB.2)

/-- The wave loop of processPendingStates, with explicit fuel bounding the
number of iterations. -/
def flushLoop : Nat → Sys → List NodeId → Sys × List NodeId
  | 0, s, pr => (s, pr)
  | fuel + 1, s, pr =>
    if s.pending.isEmpty then (s, pr)
    else
      let w := wave s pr
      flushLoop fuel w.1 w.2

/-- processPendingStates: clear the isProcessingPending flag, then run waves
until the pending set is empty (or the fuel runs out). -/
def processPendingStates (fuel : Nat) (s : Sys) : Sys :=
  (flushLoop fuel { s with isProcessing := false } []).1

/-! Observation helpers used by the claim statements. -/

/-- Kind of the node at an identifier. -/
def kindOf (s : Sys) (i : NodeId) : Option NodeKind :=
  (getN s i).map Node.kind

/-- Stored value of the node at an identifier. -/
def valueOf (s : Sys) (i : NodeId) : Option JVal :=
  (getN s i).map Node.value

/-- Subscriber list of the node at an identifier. -/
def subsOf (s : Sys) (i : NodeId) : List Nat :=
  ((getN s i).map Node.subscribers).getD []

/-- Dependents list of the node at an identifier. -/
def dependentsOf (s : Sys) (i : NodeId) : List NodeId :=
  ((getN s i).map Node.dependents).getD []

/-- Dependencies list of the node at an identifier. -/
def dependenciesOf (s : Sys) (i : NodeId) : List NodeId :=
  ((getN s i).map Node.dependencies).getD []

/-- The value an external get returns (no computation active). -/
def obsGet (s : Sys) (i : NodeId) : JVal :=
  (getOp s none i).2

/-- The object fields an external caller observes through get. -/
def obsContent (s : Sys) (i : NodeId) : Obj :=
  contentOf s (obsGet s i)

/-- The notes of the log emitted by node i. -/
def notesFrom (l : List Note) (i : NodeId) : List Note :=
  l.filter (fun e => e.node == i)

/-- Number of calls of subscriber sb made by node i recorded in a log. -/
def callCount (l : List Note) (i : NodeId) (sb : Nat) : Nat :=
  (l.filter (fun e => e.node == i && e.sub == sb)).length

/-- The fields of a node untouched by edge bookkeeping. -/
def coreOf (n : Node) : NodeKind × JVal × Option Obj × List Nat × List NodeId :=
  (n.kind, n.value, n.manualOverride, n.subscribers, n.lastDeps)

/-- Core fields of the node at an identifier. -/
def nodeCore (s : Sys) (j : NodeId) : Option (NodeKind × JVal × Option Obj × List Nat × List NodeId) :=
  (getN s j).map coreOf

/-- The heap of the second state extends the heap of the first. -/
def heapExtends (s s' : Sys) : Prop :=
  ∃ t, s'.heap = s.heap ++ t

/-- Doubling of a primitive, used as a test compute function. -/
def timesTwo (v : JVal) : JVal :=
  match v with
  | .prim n => .prim (2 * n)
  | _ => (JVal.undef)

/-- Addition of primitives, used as a test compute function. -/
def jAdd (a b : JVal) : JVal :=
  match a, b with
  | .prim x, .prim y => .prim (x + y)
  | _, _ => (JVal.undef)

/-- External mutation of an object through a held reference: the JS
assignment o.k = v performed by caller code on a value obtained from the
engine (caller-side semantics, not an engine operation). -/
def heapWrite (s : Sys) (a : Addr) (k : Key) (v : Int) : Sys :=
  { s with heap := listModify s.heap a (fun o =>
      o.map (fun kv => if kv.1 = k then (kv.1, v) else kv)) }

/-- Engine state with one plain node 0 holding 2. -/
def sysA : Sys × NodeId := createStateOp initSys (.prim 2)

/-- The compute function of the test computed node: two times node 0. -/
def cexpA : CExp := .read 0 (fun v => .ret (timesTwo v))

/-- sysA extended with computed node 1 deriving two times node 0. -/
def sysAC : Sys × NodeId := createComputedOp sysA.1 cexpA

/-- sysAC after the write set(7) to plain node 0 (node 1 not yet flushed). -/
def sysASet : Sys := plainSet sysAC.1 0 (.prim 7)

/-- Hybrid fixture: base object {x:1, y:2} (keys 0 and 1) both as compute
literal and initial value. -/
def sysH : Sys × NodeId := createHybridOp initSys (.lit [(0, 1), (1, 2)]) [(0, 1), (1, 2)]

/-- sysH after the partial write set({y:5}). -/
def sysHSet : Sys := hybridSet sysH.1 0 [(1, 5)]

/-- Caller-side state: the heap holds the caller object {a:1} at address 0
before the engine is used. -/
def sysPre : Sys :=
  { initSys with heap := [[(0, 1)]] }

/-- sysPre after createState was handed the caller object: plain node 0
stores a clone of it (address 1). -/
def sysP : Sys × NodeId := createStateOp sysPre (.ref 0)

/-- sysP after the caller mutates the object obtained from get() of node 0,
setting its field 0 to 99 through the returned reference (address 1). -/
def sysPMut : Sys := heapWrite sysP.1 1 0 99

/-- Log, pending set and node count left unchanged by an operation. -/
def Frame (s s' : Sys) : Prop :=
  s'.log = s.log ∧ s'.pending = s.pending ∧ s'.nodes.length = s.nodes.length

/-- Kind, subscriber list and manual override of a node: the fields no
operation of the flush ever changes. -/
def obsKSO (s : Sys) (i : NodeId) : Option (NodeKind × List Nat × Option Obj) :=
  (getN s i).map (fun n => (n.kind, n.subscribers, n.manualOverride))

/-- All fields of a node except its dependents. -/
def nodeSolid (n : Node) :
    NodeKind × JVal × Option Obj × List Nat × List NodeId × List NodeId :=
  (n.kind, n.value, n.manualOverride, n.subscribers, n.lastDeps, n.dependencies)

/-- All fields except dependents of the node at an identifier. -/
def obsSolid (s : Sys) (i : NodeId) :
    Option (NodeKind × JVal × Option Obj × List Nat × List NodeId × List NodeId) :=
  (getN s i).map nodeSolid

/-- The block of notes node i appends when its subscriber loop runs. -/
def noteBatch (i : NodeId) (L : List Nat) (v : JVal) : List Note :=
  L.map (fun sb => { node := i, sub := sb, value := v })

/-- Invariant carried through one flush, watching node i with subscriber
list L and the log as it was when the flush started: either i has not been
processed and has emitted nothing, or it has been processed and has emitted
exactly one batch — one call per subscriber — and, when i is a plain node,
the batch value is the value i still stores. -/
def noteInv (i : NodeId) (L : List Nat) (log0 : List Note) (x : Sys × List NodeId) : Prop :=
  subsOf x.1 i = L ∧
  ∃ t, x.1.log = log0 ++ t ∧
    ((i ∉ x.2 ∧ notesFrom t i = []) ∨
     (i ∈ x.2 ∧ ∃ v, notesFrom t i = noteBatch i L v ∧
        (kindOf x.1 i = some NodeKind.plain → valueOf x.1 i = some v)))

/-- Compute functions of the diamond: node 1 is node 0 plus 1, node 2 is
node 0 plus 2, node 3 is node 1 plus node 2. -/
def cexpD1 : CExp := .read 0 (fun v => .ret (jAdd v (.prim 1)))

/-- Second branch of the diamond. -/
def cexpD2 : CExp := .read 0 (fun v => .ret (jAdd v (.prim 2)))

/-- Join of the diamond. -/
def cexpD3 : CExp := .read 1 (fun a => .read 2 (fun b => .ret (jAdd a b)))

/-- Diamond fixture, step 1: plain root 0 holding 1. -/
def sysD0 : Sys × NodeId := createStateOp initSys (.prim 1)

/-- Diamond fixture, step 2: computed node 1 over the root. -/
def sysD1 : Sys × NodeId := createComputedOp sysD0.1 cexpD1

/-- Diamond fixture, step 3: computed node 2 over the root. -/
def sysD2 : Sys × NodeId := createComputedOp sysD1.1 cexpD2

/-- Diamond fixture, step 4: computed node 3 over nodes 1 and 2. -/
def sysD3 : Sys × NodeId := createComputedOp sysD2.1 cexpD3

/-- Diamond fixture with subscriber 100 on the join node 3. -/
def sysDSub : Sys := subscribeOp sysD3.1 3 100

/-- Diamond fixture after the single write set(5) to the root. -/
def sysDSet : Sys := plainSet sysDSub 0 (.prim 5)

/-- Diamond fixture after the flush following the single write. -/
def sysDFl : Sys := processPendingStates 10 sysDSet

/-- Notification fixture: plain node 0 holding 0 with subscriber 7. -/
def sysN : Sys × NodeId := createStateOp initSys (.prim 0)

/-- Notification fixture after subscribing 7. -/
def sysNSub : Sys := subscribeOp sysN.1 0 7

/-- Notification fixture after the write set(3). -/
def sysNSet : Sys := plainSet sysNSub 0 (.prim 3)


/-- Wave-loop termination measure: twice the number of not-yet-processed
nodes, plus one while the pending set is stalled (every pending node is
already processed). -/
def flushMeasure (N : Nat) (s : Sys) (pr : List NodeId) : Nat :=
  2 * (N + 1 - pr.length) + (if ∀ x ∈ s.pending, x ∈ pr then 1 else 0)


/-- The hybrid node at an identifier carries a manual override mapping key k
to value v, both in its accumulated override patch and in its stored object,
whose address is live on the heap. -/
def HasOverride (s : Sys) (i : NodeId) (k : Key) (v : Int) : Prop :=
  ∃ n, getN s i = some n ∧ n.kind = NodeKind.hybrid ∧
    (∃ ov, n.manualOverride = some ov ∧ lookupKey ov k = some v) ∧
    (∃ a, n.value = JVal.ref a ∧ a < s.heap.length ∧
      lookupKey (heapAt s a) k = some v)


/-- Edge symmetry of the dependency graph: a node is among the dependencies
of another exactly when the latter is among its dependents. -/
def EdgeSym (s : Sys) : Prop :=
  ∀ a b, a ∈ dependenciesOf s b ↔ b ∈ dependentsOf s a

/-- Well-formedness of the dependency graph carried through every operation:
edge symmetry, plain nodes have no dependencies, every dependent is a
non-plain node, and every edge endpoint is a real node. -/
def GraphWF (s : Sys) : Prop :=
  EdgeSym s ∧
  (∀ j, kindOf s j = some NodeKind.plain → dependenciesOf s j = []) ∧
  (∀ j d, d ∈ dependentsOf s j → kindOf s d ≠ some NodeKind.plain) ∧
  (∀ j d, d ∈ dependentsOf s j → d < s.nodes.length) ∧
  (∀ j d, d ∈ dependenciesOf s j → d < s.nodes.length)

/-- The engine states reachable through the public API from the empty module
state. -/
inductive Reachable : Sys → Prop
  | init : Reachable initSys
  | createState (s : Sys) (v : JVal) : Reachable s → Reachable (createStateOp s v).1
  | createComputed (s : Sys) (c : CExp) : Reachable s →
      Reachable (createComputedOp s c).1
  | createHybrid (s : Sys) (c : CExp) (o : Obj) : Reachable s →
      Reachable (createHybridOp s c o).1
  | get (s : Sys) (i : NodeId) : Reachable s → Reachable (getOp s none i).1
  | set (s : Sys) (i : NodeId) (a : SetArg) : Reachable s → Reachable (setOp s i a).1
  | subscribe (s : Sys) (i : NodeId) (sb : Nat) : Reachable s →
      Reachable (subscribeOp s i sb)
  | unsubscribe (s : Sys) (i : NodeId) (sb : Nat) : Reachable s →
      Reachable (unsubscribeOp s i sb)
  | flush (s : Sys) (fuel : Nat) : Reachable s → Reachable (processPendingStates fuel s)

/-! Basic lemmas about the list-coded JS sets and the node store. -/

theorem mem_setAdd {l : List Nat} {x y : Nat} :
    y ∈ setAdd l x ↔ y ∈ l ∨ y = x := by
  unfold setAdd
  by_cases h : x ∈ l
  · simp only [if_pos h]
    constructor
    · exact fun hy => Or.inl hy
    · rintro (hy | rfl)
      · exact hy
      · exact h
  · simp [if_neg h]

theorem mem_of_mem_setAdd_base {l : List Nat} {x y : Nat} (h : y ∈ l) :
    y ∈ setAdd l x :=
  mem_setAdd.mpr (Or.inl h)

theorem self_mem_setAdd {l : List Nat} {x : Nat} : x ∈ setAdd l x :=
  mem_setAdd.mpr (Or.inr rfl)

theorem setAdd_nodup {l : List Nat} {x : Nat} (h : l.Nodup) :
    (setAdd l x).Nodup := by
  unfold setAdd
  by_cases hx : x ∈ l
  · simpa [if_pos hx]
  · rw [if_neg hx]
    simpa [List.nodup_append] using ⟨h, hx⟩

theorem mem_setRemove {l : List Nat} {x y : Nat} :
    y ∈ setRemove l x ↔ y ∈ l ∧ y ≠ x := by
  simp [setRemove]

theorem length_listModify {α : Type} (l : List α) (i : Nat) (f : α → α) :
    (listModify l i f).length = l.length := by
  induction l generalizing i with
  | nil => rfl
  | cons x xs ih =>
    cases i with
    | zero => rfl
    | succ n => simp [listModify, ih]

theorem getElem?_listModify_self {α : Type} (l : List α) (i : Nat) (f : α → α) :
    (listModify l i f)[i]? = (l[i]?).map f := by
  induction l generalizing i with
  | nil => cases i <;> rfl
  | cons x xs ih =>
    cases i with
    | zero => simp [listModify]
    | succ n => simpa [listModify] using ih n

theorem getElem?_listModify_ne {α : Type} (l : List α) (i j : Nat) (f : α → α)
    (h : j ≠ i) : (listModify l i f)[j]? = l[j]? := by
  induction l generalizing i j with
  | nil => cases i <;> rfl
  | cons x xs ih =>
    cases i with
    | zero =>
      cases j with
      | zero => exact absurd rfl h
      | succ m => simp [listModify]
    | succ n =>
      cases j with
      | zero => simp [listModify]
      | succ m =>
        simpa [listModify] using ih n m (fun hc => h (by simp [hc]))

theorem getN_updN_self (s : Sys) (i : NodeId) (f : Node → Node) :
    getN (updN s i f) i = (getN s i).map f :=
  getElem?_listModify_self s.nodes i f

theorem getN_updN_ne (s : Sys) (i j : NodeId) (f : Node → Node) (h : j ≠ i) :
    getN (updN s i f) j = getN s j :=
  getElem?_listModify_ne s.nodes i j f h

theorem updN_nodes_length (s : Sys) (i : NodeId) (f : Node → Node) :
    (updN s i f).nodes.length = s.nodes.length :=
  length_listModify s.nodes i f

/-- A generic invariant lemma for left folds. -/
theorem foldl_inv {α β : Type} {P : α → Prop} (f : α → β → α) :
    ∀ (l : List β) (a : α), P a → (∀ x b, b ∈ l → P x → P (f x b)) → P (l.foldl f a) := by
  intro l
  induction l with
  | nil => intro a ha _; exact ha
  | cons b bs ih =>
    intro a ha hstep
    exact ih (f a b) (hstep a b (List.mem_cons_self b bs) ha)
      (fun x c hc hx => hstep x c (List.mem_cons_of_mem b hc) hx)

/-! Core-field preservation: a computation pass (edge teardown plus the
dependency-capturing run of the compute function) rewires dependency and
dependent edges but never touches the kind, stored value, manual override,
subscriber list or dependency snapshot of any node. -/

theorem coreOf_addDependencyOp (n : Node) (d : NodeId) :
    coreOf (addDependencyOp n d) = coreOf n := by
  cases hk : n.kind <;> simp [addDependencyOp, hk, coreOf]

theorem coreOf_removeDependencyOp (n : Node) (d : NodeId) :
    coreOf (removeDependencyOp n d) = coreOf n := by
  cases hk : n.kind <;> simp [removeDependencyOp, hk, coreOf]

theorem nodeCore_updN (s : Sys) (i : NodeId) (f : Node → Node)
    (hf : ∀ n, coreOf (f n) = coreOf n) (j : NodeId) :
    nodeCore (updN s i f) j = nodeCore s j := by
  by_cases h : j = i
  · subst h
    unfold nodeCore
    rw [getN_updN_self]
    cases getN s j with
    | none => rfl
    | some n => simp [hf]
  · unfold nodeCore
    rw [getN_updN_ne s i j f h]

theorem nodeCore_captureDep (s : Sys) (c i j : NodeId) :
    nodeCore (captureDep s c i) j = nodeCore s j := by
  unfold captureDep
  rw [nodeCore_updN _ _ _ (fun n => by simp [coreOf]) j,
    nodeCore_updN _ _ _ (fun n => coreOf_addDependencyOp n i) j]

theorem nodeCore_getOp (s : Sys) (cc : Option NodeId) (i j : NodeId) :
    nodeCore (getOp s cc i).1 j = nodeCore s j := by
  unfold getOp
  cases hg : getN s i with
  | none => rfl
  | some n =>
    cases cc with
    | none => rfl
    | some c =>
      by_cases hcap : n.kind = NodeKind.plain ∨ c ≠ i
      · simp only [if_pos hcap]
        exact nodeCore_captureDep s c i j
      · simp only [if_neg hcap]

theorem nodeCore_teardownDeps (s : Sys) (i j : NodeId) :
    nodeCore (teardownDeps s i) j = nodeCore s j := by
  unfold teardownDeps
  cases hg : getN s i with
  | none => rfl
  | some n =>
    have hfold : ∀ j', nodeCore
        (n.dependencies.foldl
          (fun acc d => updN acc d (fun m => { m with dependents := setRemove m.dependents i })) s) j'
        = nodeCore s j' := by
      intro j'
      have := foldl_inv
        (P := fun acc : Sys => ∀ j'', nodeCore acc j'' = nodeCore s j'')
        (fun acc d => updN acc d (fun m => { m with dependents := setRemove m.dependents i }))
        n.dependencies s (fun _ => rfl)
        (fun x b _ hx j'' => by
          rw [nodeCore_updN x b _ (fun m => by simp [coreOf]) j'']
          exact hx j'')
      exact this j'
    rw [nodeCore_updN _ _ _ (fun m => by simp [coreOf]) j]
    exact hfold j

theorem nodeCore_runCExp (cc : NodeId) (e : CExp) :
    ∀ (s : Sys) (j : NodeId), nodeCore (runCExp s cc e).1 j = nodeCore s j := by
  induction e with
  | ret v => intro s j; rfl
  | lit o => intro s j; rfl
  | read i k ih =>
    intro s j
    show nodeCore (runCExp (getOp s (some cc) i).1 cc (k (getOp s (some cc) i).2)).1 j = nodeCore s j
    rw [ih (getOp s (some cc) i).2 (getOp s (some cc) i).1 j, nodeCore_getOp]

theorem nodeCore_computePass (s : Sys) (i : NodeId) (c : CExp) (j : NodeId) :
    nodeCore (computePass s i c).1 j = nodeCore s j := by
  unfold computePass
  rw [nodeCore_runCExp, nodeCore_teardownDeps]

/-- Projections of a preserved node core. -/
theorem core_proj {s s' : Sys} {j : NodeId} (h : nodeCore s' j = nodeCore s j) :
    kindOf s' j = kindOf s j ∧ valueOf s' j = valueOf s j ∧
    (getN s' j).map Node.manualOverride = (getN s j).map Node.manualOverride ∧
    (getN s' j).map Node.subscribers = (getN s j).map Node.subscribers ∧
    (getN s' j).map Node.lastDeps = (getN s j).map Node.lastDeps := by
  unfold nodeCore at h
  unfold kindOf valueOf
  cases h1 : getN s' j <;> cases h2 : getN s j <;> rw [h1, h2] at h <;>
    simp_all [coreOf]

/-- Decompose a preserved node core at an existing node. -/
theorem core_step {s s' : Sys} {i : NodeId} {n : Node}
    (hg : getN s i = some n) (h : nodeCore s' i = nodeCore s i) :
    ∃ m, getN s' i = some m ∧ coreOf m = coreOf n := by
  unfold nodeCore at h
  rw [hg] at h
  cases h' : getN s' i with
  | none => rw [h'] at h; exact Option.noConfusion h
  | some m =>
    rw [h'] at h
    refine ⟨m, rfl, ?_⟩
    simpa using h

/-! Heap growth: every operation only appends to the heap, so the contents of
an already allocated address never change. -/

theorem heapExtends_refl (s : Sys) : heapExtends s s :=
  ⟨[], by simp⟩

theorem heapExtends_trans {s1 s2 s3 : Sys} (h1 : heapExtends s1 s2)
    (h2 : heapExtends s2 s3) : heapExtends s1 s3 := by
  obtain ⟨t1, e1⟩ := h1
  obtain ⟨t2, e2⟩ := h2
  exact ⟨t1 ++ t2, by rw [e2, e1, List.append_assoc]⟩

theorem heapAt_of_extends {s s' : Sys} (h : heapExtends s s') {a : Addr}
    (ha : a < s.heap.length) : heapAt s' a = heapAt s a := by
  obtain ⟨t, e⟩ := h
  unfold heapAt
  rw [e, List.getElem?_append, if_pos ha]

theorem getElem?_concat_len {α : Type} (l : List α) (o : α) :
    (l ++ [o])[l.length]? = some o := by
  induction l with
  | nil => rfl
  | cons x xs ih => simp [ih]

theorem getN_allocObj (s : Sys) (o : Obj) (i : NodeId) :
    getN (allocObj s o) i = getN s i := rfl

theorem pending_allocObj (s : Sys) (o : Obj) : (allocObj s o).pending = s.pending := rfl

theorem log_allocObj (s : Sys) (o : Obj) : (allocObj s o).log = s.log := rfl

/-- The freshly allocated object is read back at the old heap length. -/
theorem heapAt_allocObj_last (s : Sys) (o : Obj) :
    heapAt (allocObj s o) s.heap.length = o := by
  unfold heapAt allocObj
  simp [getElem?_concat_len]

/-- The freshly allocated object observed through its reference. -/
theorem contentOf_allocObj_last (s : Sys) (o : Obj) :
    contentOf (allocObj s o) (JVal.ref s.heap.length) = o :=
  heapAt_allocObj_last s o

theorem allocObj_heapExtends (s : Sys) (o : Obj) : heapExtends s (allocObj s o) :=
  ⟨[o], rfl⟩

theorem cloneVal_heapExtends (s : Sys) (v : JVal) :
    heapExtends s (cloneVal s v).1 := by
  cases v with
  | undef => exact heapExtends_refl s
  | prim n => exact heapExtends_refl s
  | ref a => exact ⟨[heapAt s a], rfl⟩

/-- A clone has the same fields as the original. -/
theorem contentOf_cloneVal (s : Sys) (v : JVal) :
    contentOf (cloneVal s v).1 (cloneVal s v).2 = contentOf s v := by
  cases v with
  | undef => rfl
  | prim n => rfl
  | ref a => exact heapAt_allocObj_last s (heapAt s a)

/-! Lookup through a JS object spread. -/

theorem lookupKey_append (xs ys : Obj) (k : Key) :
    lookupKey (xs ++ ys) k =
      match lookupKey xs k with
      | some w => some w
      | none => lookupKey ys k := by
  induction xs with
  | nil => rfl
  | cons kv rest ih =>
    by_cases h : kv.1 = k
    · simp [lookupKey, h]
    · simpa [lookupKey, h] using ih

theorem lookupKey_map_override (b p : Obj) (k : Key) :
    lookupKey (b.map (fun kv =>
      match lookupKey p kv.1 with
      | some v => (kv.1, v)
      | none => kv)) k =
      match lookupKey b k with
      | some v =>
        some (match lookupKey p k with
          | some w => w
          | none => v)
      | none => none := by
  induction b with
  | nil => rfl
  | cons kv rest ih =>
    by_cases h : kv.1 = k
    · subst h
      cases hp : lookupKey p kv.1 <;> simp [lookupKey, hp]
    · cases hp : lookupKey p kv.1 <;> simpa [lookupKey, hp, h] using ih

theorem lookupKey_filter_absent (b p : Obj) (k : Key) :
    lookupKey (p.filter (fun kv => !(hasKey b kv.1))) k =
      if hasKey b k then none else lookupKey p k := by
  induction p with
  | nil => simp [lookupKey]
  | cons kv rest ih =>
    by_cases h : kv.1 = k
    · subst h
      by_cases hb : hasKey b kv.1
      · simpa [List.filter, hb, lookupKey] using ih
      · simp [List.filter, hb, lookupKey]
    · by_cases hb : hasKey b kv.1
      · simpa [List.filter, hb, lookupKey, h] using ih
      · simpa [List.filter, hb, lookupKey, h] using ih

/-- Field lookup through a spread: the patch wins where it has the key,
otherwise the base answers. -/
theorem lookupKey_mergeFields (b p : Obj) (k : Key) :
    lookupKey (mergeFields b p) k =
      match lookupKey p k with
      | some w => some w
      | none => lookupKey b k := by
  unfold mergeFields
  rw [lookupKey_append, lookupKey_map_override, lookupKey_filter_absent]
  cases hb : lookupKey b k <;> cases hp : lookupKey p k <;>
    simp [hasKey, hb, hp]

/-! Transport lemmas for the state components each operation leaves alone. -/

theorem schedule_pending (s : Sys) : (schedule s).pending = s.pending := by
  unfold schedule; split <;> rfl

theorem schedule_heap (s : Sys) : (schedule s).heap = s.heap := by
  unfold schedule; split <;> rfl

theorem schedule_log (s : Sys) : (schedule s).log = s.log := by
  unfold schedule; split <;> rfl

theorem getN_schedule (s : Sys) (i : NodeId) : getN (schedule s) i = getN s i := by
  unfold schedule; split <;> rfl

theorem heapAt_schedule (s : Sys) (a : Addr) : heapAt (schedule s) a = heapAt s a := by
  unfold heapAt
  rw [schedule_heap]

theorem getN_cloneVal (s : Sys) (v : JVal) (i : NodeId) :
    getN (cloneVal s v).1 i = getN s i := by
  cases v <;> rfl

theorem cloneVal_pending (s : Sys) (v : JVal) : (cloneVal s v).1.pending = s.pending := by
  cases v <;> rfl

theorem cloneVal_log (s : Sys) (v : JVal) : (cloneVal s v).1.log = s.log := by
  cases v <;> rfl

theorem getN_some_lt {s : Sys} {i : NodeId} {n : Node} (h : getN s i = some n) :
    i < s.nodes.length := by
  by_contra hlt
  rw [getN, List.getElem?_eq_none (Nat.le_of_not_lt hlt)] at h
  exact Option.noConfusion h

/-- Value an external get returns when the node exists. -/
theorem obsGet_eq {s : Sys} {i : NodeId} {n : Node} (hg : getN s i = some n) :
    obsGet s i = n.value := by
  simp [obsGet, getOp, hg]

/-- Observed fields through the stored value of an existing node. -/
theorem obsContent_eq {s : Sys} {i : NodeId} {n : Node} (hg : getN s i = some n) :
    obsContent s i = contentOf s n.value := by
  unfold obsContent
  rw [obsGet_eq hg]

theorem schedule_nodes (s : Sys) : (schedule s).nodes = s.nodes := by
  unfold schedule; split <;> rfl

/-! Transport lemmas for the shared store-and-mark tail of set and
recompute. -/

theorem getN_storeMark_self (s : Sys) (i : NodeId) (m : Node) {n0 : Node}
    (h : getN s i = some n0) : getN (storeMark s i m) i = some m := by
  unfold storeMark
  rw [getN_schedule]
  show getN (setN s i m) i = some m
  unfold setN
  rw [getN_updN_self, h]
  rfl

theorem getN_storeMark_ne (s : Sys) (i : NodeId) (m : Node) (j : NodeId) (hj : j ≠ i) :
    getN (storeMark s i m) j = getN s j := by
  unfold storeMark
  rw [getN_schedule]
  show getN (setN s i m) j = getN s j
  unfold setN
  exact getN_updN_ne s i j _ hj

theorem heap_storeMark (s : Sys) (i : NodeId) (m : Node) :
    (storeMark s i m).heap = s.heap := by
  unfold storeMark
  rw [schedule_heap]
  rfl

theorem pending_storeMark (s : Sys) (i : NodeId) (m : Node) :
    (storeMark s i m).pending = setAdd s.pending i := by
  unfold storeMark
  rw [schedule_pending]
  rfl

theorem log_storeMark (s : Sys) (i : NodeId) (m : Node) :
    (storeMark s i m).log = s.log := by
  unfold storeMark
  rw [schedule_log]
  rfl

theorem heapAt_storeMark (s : Sys) (i : NodeId) (m : Node) (a : Addr) :
    heapAt (storeMark s i m) a = heapAt s a := by
  unfold heapAt
  rw [heap_storeMark]

theorem contentOf_storeMark (s : Sys) (i : NodeId) (m : Node) (v : JVal) :
    contentOf (storeMark s i m) v = contentOf s v := by
  cases v with
  | undef => rfl
  | prim k => rfl
  | ref a => exact heapAt_storeMark s i m a

theorem mem_pending_storeMark (s : Sys) (i : NodeId) (m : Node) :
    i ∈ (storeMark s i m).pending := by
  rw [pending_storeMark]
  exact self_mem_setAdd

theorem getN_heapWrite (s : Sys) (a : Addr) (k : Key) (w : Int) (i : NodeId) :
    getN (heapWrite s a k w) i = getN s i := rfl

/-! Frame lemmas: the computation pass changes only edges and the heap. -/

theorem map_getN_updN {β : Type} (g : Node → β) (s : Sys) (k : NodeId) (f : Node → Node)
    (hf : ∀ n, g (f n) = g n) (i : NodeId) :
    (getN (updN s k f) i).map g = (getN s i).map g := by
  by_cases h : i = k
  · subst h
    rw [getN_updN_self]
    cases getN s i <;> simp [hf]
  · rw [getN_updN_ne s k i f h]

theorem Frame_refl (s : Sys) : Frame s s :=
  ⟨rfl, rfl, rfl⟩

theorem Frame_trans {s1 s2 s3 : Sys} (h1 : Frame s1 s2) (h2 : Frame s2 s3) :
    Frame s1 s3 :=
  ⟨h2.1.trans h1.1, h2.2.1.trans h1.2.1, h2.2.2.trans h1.2.2⟩

theorem Frame_updN (s : Sys) (k : NodeId) (f : Node → Node) :
    Frame s (updN s k f) :=
  ⟨rfl, rfl, updN_nodes_length s k f⟩

theorem Frame_captureDep (s : Sys) (c i : NodeId) :
    Frame s (captureDep s c i) :=
  Frame_trans (Frame_updN s c _) (Frame_updN (updN s c _) i _)

theorem Frame_getOp (s : Sys) (cc : Option NodeId) (i : NodeId) :
    Frame s (getOp s cc i).1 := by
  unfold getOp
  cases hg : getN s i with
  | none => exact Frame_refl s
  | some n =>
    cases cc with
    | none => exact Frame_refl s
    | some c =>
      by_cases hcap : n.kind = NodeKind.plain ∨ c ≠ i
      · simp only [if_pos hcap]
        exact Frame_captureDep s c i
      · simp only [if_neg hcap]
        exact Frame_refl s

theorem Frame_allocObj (s : Sys) (o : Obj) : Frame s (allocObj s o) :=
  ⟨rfl, rfl, rfl⟩

theorem Frame_cloneVal (s : Sys) (v : JVal) : Frame s (cloneVal s v).1 := by
  cases v <;> exact ⟨rfl, rfl, rfl⟩

theorem Frame_runCExp (cc : NodeId) (e : CExp) :
    ∀ s : Sys, Frame s (runCExp s cc e).1 := by
  induction e with
  | ret v => intro s; exact Frame_refl s
  | lit o => intro s; exact Frame_allocObj s o
  | read i k ih =>
    intro s
    exact Frame_trans (Frame_getOp s (some cc) i)
      (ih (getOp s (some cc) i).2 (getOp s (some cc) i).1)

theorem Frame_teardownDeps (s : Sys) (i : NodeId) :
    Frame s (teardownDeps s i) := by
  unfold teardownDeps
  cases hg : getN s i with
  | none => exact Frame_refl s
  | some n =>
    refine Frame_trans ?_ (Frame_updN _ i _)
    exact foldl_inv
      (P := fun acc : Sys => Frame s acc)
      (fun acc d => updN acc d (fun m => { m with dependents := setRemove m.dependents i }))
      n.dependencies s (Frame_refl s)
      (fun x b _ hx => Frame_trans hx (Frame_updN x b _))

theorem Frame_computePass (s : Sys) (i : NodeId) (c : CExp) :
    Frame s (computePass s i c).1 :=
  Frame_trans (Frame_teardownDeps s i) (Frame_runCExp i c (teardownDeps s i))

/-! Heap extension through the computation pass. -/

theorem heapExtends_updN (s : Sys) (k : NodeId) (f : Node → Node) :
    heapExtends s (updN s k f) :=
  ⟨[], by simp [updN]⟩

theorem heapExtends_captureDep (s : Sys) (c i : NodeId) :
    heapExtends s (captureDep s c i) :=
  heapExtends_trans (heapExtends_updN s c _) (heapExtends_updN _ i _)

theorem heapExtends_getOp (s : Sys) (cc : Option NodeId) (i : NodeId) :
    heapExtends s (getOp s cc i).1 := by
  unfold getOp
  cases hg : getN s i with
  | none => exact heapExtends_refl s
  | some n =>
    cases cc with
    | none => exact heapExtends_refl s
    | some c =>
      by_cases hcap : n.kind = NodeKind.plain ∨ c ≠ i
      · simp only [if_pos hcap]
        exact heapExtends_captureDep s c i
      · simp only [if_neg hcap]
        exact heapExtends_refl s

theorem heapExtends_runCExp (cc : NodeId) (e : CExp) :
    ∀ s : Sys, heapExtends s (runCExp s cc e).1 := by
  induction e with
  | ret v => intro s; exact heapExtends_refl s
  | lit o => intro s; exact allocObj_heapExtends s o
  | read i k ih =>
    intro s
    exact heapExtends_trans (heapExtends_getOp s (some cc) i)
      (ih (getOp s (some cc) i).2 (getOp s (some cc) i).1)

theorem heapExtends_teardownDeps (s : Sys) (i : NodeId) :
    heapExtends s (teardownDeps s i) := by
  unfold teardownDeps
  cases hg : getN s i with
  | none => exact heapExtends_refl s
  | some n =>
    refine heapExtends_trans ?_ (heapExtends_updN _ i _)
    exact foldl_inv
      (P := fun acc : Sys => heapExtends s acc)
      (fun acc d => updN acc d (fun m => { m with dependents := setRemove m.dependents i }))
      n.dependencies s (heapExtends_refl s)
      (fun x b _ hx => heapExtends_trans hx (heapExtends_updN x b _))

theorem heapExtends_computePass (s : Sys) (i : NodeId) (c : CExp) :
    heapExtends s (computePass s i c).1 :=
  heapExtends_trans (heapExtends_teardownDeps s i) (heapExtends_runCExp i c _)

theorem heapExtends_storeMark (s : Sys) (i : NodeId) (m : Node) :
    heapExtends s (storeMark s i m) :=
  ⟨[], by rw [heap_storeMark, List.append_nil]⟩

/-! Fields other than dependents are untouched at every node other than the
active computation. -/

theorem obsSolid_updN_dependents (s : Sys) (k : NodeId) (f : Node → Node)
    (hf : ∀ n, nodeSolid (f n) = nodeSolid n) (i : NodeId) :
    obsSolid (updN s k f) i = obsSolid s i :=
  map_getN_updN nodeSolid s k f hf i

theorem obsSolid_captureDep_ne (s : Sys) (c i j : NodeId) (hj : j ≠ c) :
    obsSolid (captureDep s c i) j = obsSolid s j := by
  unfold captureDep
  rw [obsSolid_updN_dependents _ i _ (fun n => by simp [nodeSolid]) j]
  unfold obsSolid
  rw [getN_updN_ne s c j _ hj]

theorem obsSolid_getOp_ne (s : Sys) (c i j : NodeId) (hj : j ≠ c) :
    obsSolid (getOp s (some c) i).1 j = obsSolid s j := by
  unfold getOp
  cases hg : getN s i with
  | none => rfl
  | some n =>
    by_cases hcap : n.kind = NodeKind.plain ∨ c ≠ i
    · simp only [if_pos hcap]
      exact obsSolid_captureDep_ne s c i j hj
    · simp only [if_neg hcap]

theorem obsSolid_runCExp_ne (cc : NodeId) (e : CExp) :
    ∀ (s : Sys) (j : NodeId), j ≠ cc → obsSolid (runCExp s cc e).1 j = obsSolid s j := by
  induction e with
  | ret v => intro s j _; rfl
  | lit o => intro s j _; rfl
  | read i k ih =>
    intro s j hj
    show obsSolid (runCExp (getOp s (some cc) i).1 cc (k (getOp s (some cc) i).2)).1 j = _
    rw [ih (getOp s (some cc) i).2 (getOp s (some cc) i).1 j hj]
    exact obsSolid_getOp_ne s cc i j hj

theorem obsSolid_teardownDeps_ne (s : Sys) (i j : NodeId) (hj : j ≠ i) :
    obsSolid (teardownDeps s i) j = obsSolid s j := by
  unfold teardownDeps
  cases hg : getN s i with
  | none => rfl
  | some n =>
    have hfold : obsSolid
        (n.dependencies.foldl
          (fun acc d => updN acc d (fun m => { m with dependents := setRemove m.dependents i })) s) j
        = obsSolid s j := by
      exact foldl_inv
        (P := fun acc : Sys => obsSolid acc j = obsSolid s j)
        (fun acc d => updN acc d (fun m => { m with dependents := setRemove m.dependents i }))
        n.dependencies s rfl
        (fun x b _ hx => by
          show obsSolid (updN x b (fun m => { m with dependents := setRemove m.dependents i })) j
            = obsSolid s j
          rw [obsSolid_updN_dependents x b _ (fun m => by simp [nodeSolid]) j]
          exact hx)
    unfold obsSolid
    rw [getN_updN_ne _ i j _ hj]
    exact hfold

theorem obsSolid_computePass_ne (s : Sys) (i : NodeId) (c : CExp) (j : NodeId)
    (hj : j ≠ i) : obsSolid (computePass s i c).1 j = obsSolid s j := by
  unfold computePass
  rw [obsSolid_runCExp_ne i c _ j hj, obsSolid_teardownDeps_ne s i j hj]

/-! Dependent edges gain at most the active computation during a pass. -/

theorem dependentsOf_updN_of (s : Sys) (k : NodeId) (f : Node → Node)
    (hf : ∀ n, (f n).dependents = n.dependents) (i : NodeId) :
    dependentsOf (updN s k f) i = dependentsOf s i := by
  unfold dependentsOf
  rw [map_getN_updN Node.dependents s k f hf i]

theorem deps_gain_updN (s : Sys) (k : NodeId) (f : Node → Node) (g : NodeId)
    (hf : ∀ n, getN s k = some n → ∀ x ∈ (f n).dependents, x ∈ n.dependents ∨ x = g) :
    ∀ i d, d ∈ dependentsOf (updN s k f) i → d ∈ dependentsOf s i ∨ d = g := by
  intro i d hd
  by_cases hik : i = k
  · subst hik
    unfold dependentsOf at hd ⊢
    rw [getN_updN_self] at hd
    cases hg : getN s i with
    | none =>
      rw [hg] at hd
      simp at hd
    | some n =>
      rw [hg] at hd
      simp only [Option.map_map, Option.map_some, Option.getD_some] at hd ⊢
      exact hf n hg d hd
  · have : dependentsOf (updN s k f) i = dependentsOf s i := by
      unfold dependentsOf
      rw [getN_updN_ne s k i f hik]
    rw [this] at hd
    exact Or.inl hd

theorem kindOf_of_core {s s' : Sys} {j : NodeId} (h : nodeCore s' j = nodeCore s j) :
    kindOf s' j = kindOf s j :=
  (core_proj h).1

theorem obsKSO_of_core {s s' : Sys} {j : NodeId} (h : nodeCore s' j = nodeCore s j) :
    obsKSO s' j = obsKSO s j := by
  unfold nodeCore at h
  unfold obsKSO
  cases h1 : getN s' j <;> cases h2 : getN s j <;> rw [h1, h2] at h <;>
    simp_all [coreOf]

theorem dependents_addDependencyOp (n : Node) (i : NodeId) (hk : n.kind ≠ NodeKind.plain) :
    (addDependencyOp n i).dependents = n.dependents := by
  unfold addDependencyOp
  cases hnk : n.kind with
  | plain => exact absurd hnk hk
  | computed => rfl
  | hybrid => rfl

theorem deps_captureDep (s : Sys) (c i : NodeId) (hc : kindOf s c ≠ some NodeKind.plain) :
    ∀ k d, d ∈ dependentsOf (captureDep s c i) k → d ∈ dependentsOf s k ∨ d = c := by
  intro k d hd
  unfold captureDep at hd
  have h2 := deps_gain_updN (updN s c (fun n => addDependencyOp n i)) i
    (fun n => { n with dependents := setAdd n.dependents c }) c
    (fun n _ x hx => by
      simp only at hx
      exact mem_setAdd.mp hx) k d hd
  rcases h2 with h2 | h2
  · refine (deps_gain_updN s c (fun n => addDependencyOp n i) c ?_ k d h2)
    intro n hn x hx
    have hkind : n.kind ≠ NodeKind.plain := by
      intro hp
      refine hc ?_
      unfold kindOf
      rw [hn]
      simp [hp]
    have hx' : x ∈ (addDependencyOp n i).dependents := hx
    rw [dependents_addDependencyOp n i hkind] at hx'
    exact Or.inl hx'
  · exact Or.inr h2

theorem deps_getOp (s : Sys) (c i : NodeId) (hc : kindOf s c ≠ some NodeKind.plain) :
    ∀ k d, d ∈ dependentsOf (getOp s (some c) i).1 k → d ∈ dependentsOf s k ∨ d = c := by
  intro k d hd
  unfold getOp at hd
  cases hg : getN s i with
  | none =>
    rw [hg] at hd
    exact Or.inl hd
  | some n =>
    rw [hg] at hd
    by_cases hcap : n.kind = NodeKind.plain ∨ c ≠ i
    · simp only [if_pos hcap] at hd
      exact deps_captureDep s c i hc k d hd
    · simp only [if_neg hcap] at hd
      exact Or.inl hd

theorem deps_runCExp (cc : NodeId) (e : CExp) :
    ∀ s : Sys, kindOf s cc ≠ some NodeKind.plain →
      ∀ k d, d ∈ dependentsOf (runCExp s cc e).1 k → d ∈ dependentsOf s k ∨ d = cc := by
  induction e with
  | ret v => intro s _ k d hd; exact Or.inl hd
  | lit o => intro s _ k d hd; exact Or.inl hd
  | read i kont ih =>
    intro s hcc k d hd
    have hcc' : kindOf (getOp s (some cc) i).1 cc ≠ some NodeKind.plain := by
      rw [kindOf_of_core (nodeCore_getOp s (some cc) i cc)]
      exact hcc
    rcases ih (getOp s (some cc) i).2 (getOp s (some cc) i).1 hcc' k d hd with h | h
    · exact deps_getOp s cc i hcc k d h
    · exact Or.inr h

theorem deps_remove_updN (x : Sys) (b j k' d' : NodeId)
    (hd' : d' ∈ dependentsOf
      (updN x b (fun m => { m with dependents := setRemove m.dependents j })) k') :
    d' ∈ dependentsOf x k' := by
  by_cases hkb : k' = b
  · subst hkb
    unfold dependentsOf at hd' ⊢
    rw [getN_updN_self] at hd'
    cases hgx : getN x k' with
    | none =>
      rw [hgx] at hd'
      exact absurd (show d' ∈ ([] : List NodeId) from hd') (List.not_mem_nil d')
    | some m =>
      rw [hgx] at hd'
      have h3 : d' ∈ setRemove m.dependents j := hd'
      exact (mem_setRemove.mp h3).1
  · have heq : dependentsOf
        (updN x b (fun m => { m with dependents := setRemove m.dependents j })) k'
        = dependentsOf x k' := by
      unfold dependentsOf
      rw [getN_updN_ne x b k' _ hkb]
    rw [heq] at hd'
    exact hd'

theorem deps_teardownDeps (s : Sys) (j : NodeId) :
    ∀ k d, d ∈ dependentsOf (teardownDeps s j) k → d ∈ dependentsOf s k := by
  intro k d hd
  unfold teardownDeps at hd
  cases hg : getN s j with
  | none =>
    rw [hg] at hd
    exact hd
  | some n =>
    rw [hg] at hd
    have hupd : dependentsOf (updN
        (n.dependencies.foldl
          (fun acc d' => updN acc d' (fun m => { m with dependents := setRemove m.dependents j })) s)
        j (fun m => { m with dependencies := [] })) k
        = dependentsOf
          (n.dependencies.foldl
            (fun acc d' => updN acc d' (fun m => { m with dependents := setRemove m.dependents j })) s) k :=
      dependentsOf_updN_of _ j (fun m => { m with dependencies := [] }) (fun m => rfl) k
    rw [hupd] at hd
    have := foldl_inv
      (P := fun acc : Sys => ∀ k' d', d' ∈ dependentsOf acc k' → d' ∈ dependentsOf s k')
      (fun acc d' => updN acc d' (fun m => { m with dependents := setRemove m.dependents j }))
      n.dependencies s (fun _ _ h => h)
      (fun x b _ hx k' d' hd' => hx k' d' (deps_remove_updN x b j k' d' hd'))
    exact this k d hd

theorem deps_computePass (s : Sys) (j : NodeId) (c : CExp)
    (hk : kindOf s j ≠ some NodeKind.plain) :
    ∀ k d, d ∈ dependentsOf (computePass s j c).1 k → d ∈ dependentsOf s k ∨ d = j := by
  intro k d hd
  unfold computePass at hd
  have hk' : kindOf (teardownDeps s j) j ≠ some NodeKind.plain := by
    rw [kindOf_of_core (nodeCore_teardownDeps s j j)]
    exact hk
  rcases deps_runCExp j c (teardownDeps s j) hk' k d hd with h | h
  · exact Or.inl (deps_teardownDeps s j k d h)
  · exact Or.inr h

theorem obsKSO_cloneVal (s : Sys) (v : JVal) (i : NodeId) :
    obsKSO (cloneVal s v).1 i = obsKSO s i := by
  unfold obsKSO
  rw [getN_cloneVal]

theorem obsSolid_cloneVal (s : Sys) (v : JVal) (i : NodeId) :
    obsSolid (cloneVal s v).1 i = obsSolid s i := by
  unfold obsSolid
  rw [getN_cloneVal]

theorem dependentsOf_cloneVal (s : Sys) (v : JVal) (k : NodeId) :
    dependentsOf (cloneVal s v).1 k = dependentsOf s k := by
  unfold dependentsOf
  rw [getN_cloneVal]

/-- What the final setN store of a recompute leaves of the whole state. -/
theorem tame_setN_final {s X : Sys} {j : NodeId} {m nX n0 : Node}
    (hgs : getN s j = some n0) (hgX : getN X j = some nX)
    (hFr : Frame s X) (hHX : heapExtends s X)
    (hKSOa : ∀ i, obsKSO X i = obsKSO s i)
    (hSol : ∀ i, i ≠ j → obsSolid X i = obsSolid s i)
    (hdeps : ∀ k d, d ∈ dependentsOf X k → d ∈ dependentsOf s k ∨ d = j)
    (hmk : m.kind = n0.kind) (hms : m.subscribers = n0.subscribers)
    (hmo : m.manualOverride = n0.manualOverride) (hmd : m.dependents = nX.dependents) :
    (setN X j m).log = s.log ∧
    (setN X j m).nodes.length = s.nodes.length ∧
    ((setN X j m).pending = s.pending ∨ (setN X j m).pending = setAdd s.pending j) ∧
    heapExtends s (setN X j m) ∧
    (∀ i, obsKSO (setN X j m) i = obsKSO s i) ∧
    (∀ i, i ≠ j → obsSolid (setN X j m) i = obsSolid s i) ∧
    (∀ k d, d ∈ dependentsOf (setN X j m) k → d ∈ dependentsOf s k ∨ d = j) := by
  refine ⟨hFr.1, ?_, Or.inl hFr.2.1, heapExtends_trans hHX (heapExtends_updN X j _), ?_, ?_, ?_⟩
  · show (updN X j _).nodes.length = s.nodes.length
    rw [updN_nodes_length]
    exact hFr.2.2
  · intro i
    by_cases hij : i = j
    · subst hij
      unfold obsKSO setN
      rw [getN_updN_self, hgX, hgs]
      simp [hmk, hms, hmo]
    · unfold obsKSO setN
      rw [getN_updN_ne X j i _ hij]
      exact hKSOa i
  · intro i hij
    unfold obsSolid setN
    rw [getN_updN_ne X j i _ hij]
    exact hSol i hij
  · intro k d hd
    by_cases hkj : k = j
    · subst hkj
      unfold dependentsOf setN at hd
      rw [getN_updN_self, hgX] at hd
      have hdm : d ∈ nX.dependents := by
        rw [← hmd]
        exact hd
      refine hdeps k d ?_
      unfold dependentsOf
      rw [hgX]
      exact hdm
    · have : dependentsOf (setN X j m) k = dependentsOf X k := by
        unfold dependentsOf setN
        rw [getN_updN_ne X j k _ hkj]
      rw [this] at hd
      exact hdeps k d hd

/-- What the final store-and-mark of a recompute leaves of the whole
state. -/
theorem tame_storeMark_final {s X : Sys} {j : NodeId} {m nX n0 : Node}
    (hgs : getN s j = some n0) (hgX : getN X j = some nX)
    (hFr : Frame s X) (hHX : heapExtends s X)
    (hKSOa : ∀ i, obsKSO X i = obsKSO s i)
    (hSol : ∀ i, i ≠ j → obsSolid X i = obsSolid s i)
    (hdeps : ∀ k d, d ∈ dependentsOf X k → d ∈ dependentsOf s k ∨ d = j)
    (hmk : m.kind = n0.kind) (hms : m.subscribers = n0.subscribers)
    (hmo : m.manualOverride = n0.manualOverride) (hmd : m.dependents = nX.dependents) :
    (storeMark X j m).log = s.log ∧
    (storeMark X j m).nodes.length = s.nodes.length ∧
    ((storeMark X j m).pending = s.pending ∨ (storeMark X j m).pending = setAdd s.pending j) ∧
    heapExtends s (storeMark X j m) ∧
    (∀ i, obsKSO (storeMark X j m) i = obsKSO s i) ∧
    (∀ i, i ≠ j → obsSolid (storeMark X j m) i = obsSolid s i) ∧
    (∀ k d, d ∈ dependentsOf (storeMark X j m) k → d ∈ dependentsOf s k ∨ d = j) := by
  refine ⟨?_, ?_, ?_, ?_, ?_, ?_, ?_⟩
  · rw [log_storeMark]
    exact hFr.1
  · show (storeMark X j m).nodes.length = s.nodes.length
    unfold storeMark
    rw [schedule_nodes]
    show (setN X j m).nodes.length = s.nodes.length
    unfold setN
    rw [updN_nodes_length]
    exact hFr.2.2
  · right
    rw [pending_storeMark, hFr.2.1]
  · exact heapExtends_trans hHX (heapExtends_storeMark X j m)
  · intro i
    by_cases hij : i = j
    · subst hij
      unfold obsKSO
      rw [getN_storeMark_self X i m hgX, hgs]
      simp [hmk, hms, hmo]
    · unfold obsKSO
      rw [getN_storeMark_ne X j m i hij]
      exact hKSOa i
  · intro i hij
    unfold obsSolid
    rw [getN_storeMark_ne X j m i hij]
    exact hSol i hij
  · intro k d hd
    by_cases hkj : k = j
    · subst hkj
      unfold dependentsOf at hd
      rw [getN_storeMark_self X k m hgX] at hd
      have hdm : d ∈ nX.dependents := by
        rw [← hmd]
        exact hd
      refine hdeps k d ?_
      unfold dependentsOf
      rw [hgX]
      exact hdm
    · have : dependentsOf (storeMark X j m) k = dependentsOf X k := by
        unfold dependentsOf
        rw [getN_storeMark_ne X j m k hkj]
      rw [this] at hd
      exact hdeps k d hd

/-- recompute of a computed node never changes the log or the node count,
at most adds the node itself to the pending set, only appends to the heap,
never changes any kind, subscriber list or manual override, changes solid
fields of no other node, and adds only itself as a new dependent. -/
theorem tame_recomputeC (s : Sys) (j : NodeId) (n0 : Node)
    (hg : getN s j = some n0) (hk : n0.kind ≠ NodeKind.plain) :
    (recomputeC s j).log = s.log ∧
    (recomputeC s j).nodes.length = s.nodes.length ∧
    ((recomputeC s j).pending = s.pending ∨ (recomputeC s j).pending = setAdd s.pending j) ∧
    heapExtends s (recomputeC s j) ∧
    (∀ i, obsKSO (recomputeC s j) i = obsKSO s i) ∧
    (∀ i, i ≠ j → obsSolid (recomputeC s j) i = obsSolid s i) ∧
    (∀ k d, d ∈ dependentsOf (recomputeC s j) k → d ∈ dependentsOf s k ∨ d = j) := by
  obtain ⟨n2, hn2, hcore⟩ := core_step hg (nodeCore_computePass s j n0.compute j)
  have hkOf : kindOf s j ≠ some NodeKind.plain := by
    intro hc
    unfold kindOf at hc
    rw [hg] at hc
    simp at hc
    exact hk hc
  have hk2 : n2.kind = n0.kind := by
    have := congrArg (fun t => t.1) hcore
    simpa [coreOf] using this
  have hs2 : n2.subscribers = n0.subscribers := by
    have := congrArg (fun t => t.2.2.2.1) hcore
    simpa [coreOf] using this
  have ho2 : n2.manualOverride = n0.manualOverride := by
    have := congrArg (fun t => t.2.2.1) hcore
    simpa [coreOf] using this
  have hFr : Frame s (computePass s j n0.compute).1 := Frame_computePass s j n0.compute
  have hHX : heapExtends s (computePass s j n0.compute).1 := heapExtends_computePass s j n0.compute
  have hKSOa : ∀ i, obsKSO (computePass s j n0.compute).1 i = obsKSO s i :=
    fun i => obsKSO_of_core (nodeCore_computePass s j n0.compute i)
  have hSol : ∀ i, i ≠ j → obsSolid (computePass s j n0.compute).1 i = obsSolid s i :=
    fun i hij => obsSolid_computePass_ne s j n0.compute i hij
  have hdeps : ∀ k d, d ∈ dependentsOf (computePass s j n0.compute).1 k →
      d ∈ dependentsOf s k ∨ d = j := deps_computePass s j n0.compute hkOf
  simp only [recomputeC, hg, hn2, Option.getD_some]
  by_cases hgate : n2.lastDeps = n2.dependencies
  · simp only [if_pos hgate]
    by_cases hveq : n2.value = (computePass s j n0.compute).2
    · simp only [if_pos hveq]
      exact tame_setN_final hg hn2 hFr hHX hKSOa hSol hdeps hk2 hs2 ho2 rfl
    · simp only [if_neg hveq]
      refine tame_storeMark_final hg
        (show getN (cloneVal (computePass s j n0.compute).1 (computePass s j n0.compute).2).1 j
            = some n2 from (getN_cloneVal _ _ j).trans hn2)
        (Frame_trans hFr (Frame_cloneVal _ _))
        (heapExtends_trans hHX (cloneVal_heapExtends _ _))
        (fun i => (obsKSO_cloneVal _ _ i).trans (hKSOa i))
        (fun i hij => (obsSolid_cloneVal _ _ i).trans (hSol i hij))
        (fun k d hd => hdeps k d (by rw [dependentsOf_cloneVal] at hd; exact hd))
        hk2 hs2 ho2 rfl
  · simp only [if_neg hgate]
    by_cases hveq : (cloneVal (computePass s j n0.compute).1 (computePass s j n0.compute).2).2
        = (computePass s j n0.compute).2
    · simp only [if_pos hveq]
      exact tame_setN_final hg
        ((getN_cloneVal _ _ j).trans hn2)
        (Frame_trans hFr (Frame_cloneVal _ _))
        (heapExtends_trans hHX (cloneVal_heapExtends _ _))
        (fun i => (obsKSO_cloneVal _ _ i).trans (hKSOa i))
        (fun i hij => (obsSolid_cloneVal _ _ i).trans (hSol i hij))
        (fun k d hd => hdeps k d (by rw [dependentsOf_cloneVal] at hd; exact hd))
        hk2 hs2 ho2 rfl
    · simp only [if_neg hveq]
      refine tame_storeMark_final hg
        (show getN (cloneVal (cloneVal (computePass s j n0.compute).1
              (computePass s j n0.compute).2).1 (computePass s j n0.compute).2).1 j
            = some n2 from (getN_cloneVal _ _ j).trans ((getN_cloneVal _ _ j).trans hn2))
        (Frame_trans (Frame_trans hFr (Frame_cloneVal _ _)) (Frame_cloneVal _ _))
        (heapExtends_trans (heapExtends_trans hHX (cloneVal_heapExtends _ _))
          (cloneVal_heapExtends _ _))
        (fun i => (obsKSO_cloneVal _ _ i).trans ((obsKSO_cloneVal _ _ i).trans (hKSOa i)))
        (fun i hij => (obsSolid_cloneVal _ _ i).trans
          ((obsSolid_cloneVal _ _ i).trans (hSol i hij)))
        (fun k d hd => hdeps k d (by rw [dependentsOf_cloneVal, dependentsOf_cloneVal] at hd; exact hd))
        hk2 hs2 ho2 rfl

theorem obsKSO_allocObj (s : Sys) (o : Obj) (i : NodeId) :
    obsKSO (allocObj s o) i = obsKSO s i := rfl

theorem obsSolid_allocObj (s : Sys) (o : Obj) (i : NodeId) :
    obsSolid (allocObj s o) i = obsSolid s i := rfl

theorem dependentsOf_allocObj (s : Sys) (o : Obj) (k : NodeId) :
    dependentsOf (allocObj s o) k = dependentsOf s k := rfl

/-- recompute of a hybrid node: same frame as the computed case. -/
theorem tame_recomputeH (s : Sys) (j : NodeId) (n0 : Node)
    (hg : getN s j = some n0) (hk : n0.kind ≠ NodeKind.plain) :
    (recomputeH s j).log = s.log ∧
    (recomputeH s j).nodes.length = s.nodes.length ∧
    ((recomputeH s j).pending = s.pending ∨ (recomputeH s j).pending = setAdd s.pending j) ∧
    heapExtends s (recomputeH s j) ∧
    (∀ i, obsKSO (recomputeH s j) i = obsKSO s i) ∧
    (∀ i, i ≠ j → obsSolid (recomputeH s j) i = obsSolid s i) ∧
    (∀ k d, d ∈ dependentsOf (recomputeH s j) k → d ∈ dependentsOf s k ∨ d = j) := by
  obtain ⟨n2, hn2, hcore⟩ := core_step hg (nodeCore_computePass s j n0.compute j)
  have hkOf : kindOf s j ≠ some NodeKind.plain := by
    intro hc
    unfold kindOf at hc
    rw [hg] at hc
    simp at hc
    exact hk hc
  have hk2 : n2.kind = n0.kind := by
    have := congrArg (fun t => t.1) hcore
    simpa [coreOf] using this
  have hs2 : n2.subscribers = n0.subscribers := by
    have := congrArg (fun t => t.2.2.2.1) hcore
    simpa [coreOf] using this
  have ho2 : n2.manualOverride = n0.manualOverride := by
    have := congrArg (fun t => t.2.2.1) hcore
    simpa [coreOf] using this
  have hFr : Frame s (computePass s j n0.compute).1 := Frame_computePass s j n0.compute
  have hHX : heapExtends s (computePass s j n0.compute).1 := heapExtends_computePass s j n0.compute
  have hKSOa : ∀ i, obsKSO (computePass s j n0.compute).1 i = obsKSO s i :=
    fun i => obsKSO_of_core (nodeCore_computePass s j n0.compute i)
  have hSol : ∀ i, i ≠ j → obsSolid (computePass s j n0.compute).1 i = obsSolid s i :=
    fun i hij => obsSolid_computePass_ne s j n0.compute i hij
  have hdeps : ∀ k d, d ∈ dependentsOf (computePass s j n0.compute).1 k →
      d ∈ dependentsOf s k ∨ d = j := deps_computePass s j n0.compute hkOf
  have hXclone : getN (cloneVal (computePass s j n0.compute).1 (computePass s j n0.compute).2).1 j
      = some n2 := (getN_cloneVal _ _ j).trans hn2
  have hFrClone : Frame s (cloneVal (computePass s j n0.compute).1 (computePass s j n0.compute).2).1 :=
    Frame_trans hFr (Frame_cloneVal _ _)
  have hHXClone : heapExtends s (cloneVal (computePass s j n0.compute).1 (computePass s j n0.compute).2).1 :=
    heapExtends_trans hHX (cloneVal_heapExtends _ _)
  have hKSOClone : ∀ i, obsKSO (cloneVal (computePass s j n0.compute).1 (computePass s j n0.compute).2).1 i
      = obsKSO s i := fun i => (obsKSO_cloneVal _ _ i).trans (hKSOa i)
  have hSolClone : ∀ i, i ≠ j →
      obsSolid (cloneVal (computePass s j n0.compute).1 (computePass s j n0.compute).2).1 i
        = obsSolid s i := fun i hij => (obsSolid_cloneVal _ _ i).trans (hSol i hij)
  have hdepsClone : ∀ k d,
      d ∈ dependentsOf (cloneVal (computePass s j n0.compute).1 (computePass s j n0.compute).2).1 k →
        d ∈ dependentsOf s k ∨ d = j :=
    fun k d hd => hdeps k d (by rw [dependentsOf_cloneVal] at hd; exact hd)
  simp only [recomputeH, hg, hn2, Option.getD_some]
  by_cases hgate : n2.lastDeps = n2.dependencies
  · simp only [if_pos hgate]
    cases hov : n2.manualOverride with
    | none =>
      simp only [hov]
      exact tame_storeMark_final hg hXclone hFrClone hHXClone hKSOClone hSolClone hdepsClone
        hk2 hs2 (hov.symm.trans ho2) rfl
    | some ov =>
      simp only [hov]
      exact tame_storeMark_final hg
        (show getN (allocObj (cloneVal (computePass s j n0.compute).1 (computePass s j n0.compute).2).1
            (mergeFields (contentOf
              (cloneVal (computePass s j n0.compute).1 (computePass s j n0.compute).2).1
              (cloneVal (computePass s j n0.compute).1 (computePass s j n0.compute).2).2) ov)) j
          = some n2 from hXclone)
        (Frame_trans hFrClone (Frame_allocObj _ _))
        (heapExtends_trans hHXClone (allocObj_heapExtends _ _))
        (fun i => hKSOClone i)
        (fun i hij => hSolClone i hij)
        (fun k d hd => hdepsClone k d hd)
        hk2 hs2 (hov.symm.trans ho2) rfl
  · simp only [if_neg hgate]
    cases hov : n2.manualOverride with
    | none =>
      simp only [hov]
      exact tame_storeMark_final hg hXclone hFrClone hHXClone hKSOClone hSolClone hdepsClone
        hk2 hs2 (hov.symm.trans ho2) rfl
    | some ov =>
      simp only [hov]
      exact tame_storeMark_final hg
        (show getN (allocObj (cloneVal (computePass s j n0.compute).1 (computePass s j n0.compute).2).1
            (mergeFields (contentOf
              (cloneVal (computePass s j n0.compute).1 (computePass s j n0.compute).2).1
              (cloneVal (computePass s j n0.compute).1 (computePass s j n0.compute).2).2) ov)) j
          = some n2 from hXclone)
        (Frame_trans hFrClone (Frame_allocObj _ _))
        (heapExtends_trans hHXClone (allocObj_heapExtends _ _))
        (fun i => hKSOClone i)
        (fun i hij => hSolClone i hij)
        (fun k d hd => hdepsClone k d hd)
        hk2 hs2 (hov.symm.trans ho2) rfl

/-- The recompute dispatch of the flush has the same frame for every node. -/
theorem tame_recomputeOp (s : Sys) (j : NodeId) :
    (recomputeOp s j).log = s.log ∧
    (recomputeOp s j).nodes.length = s.nodes.length ∧
    ((recomputeOp s j).pending = s.pending ∨ (recomputeOp s j).pending = setAdd s.pending j) ∧
    heapExtends s (recomputeOp s j) ∧
    (∀ i, obsKSO (recomputeOp s j) i = obsKSO s i) ∧
    (∀ i, i ≠ j → obsSolid (recomputeOp s j) i = obsSolid s i) ∧
    (∀ k d, d ∈ dependentsOf (recomputeOp s j) k → d ∈ dependentsOf s k ∨ d = j) := by
  unfold recomputeOp
  cases hg : getN s j with
  | none =>
    exact ⟨rfl, rfl, Or.inl rfl, heapExtends_refl s, fun i => rfl, fun i _ => rfl,
      fun k d hd => Or.inl hd⟩
  | some n =>
    cases hkind : n.kind with
    | plain =>
      simp only [hkind]
      refine ⟨trivial, trivial, Or.inl trivial, heapExtends_refl s, fun i => trivial,
        fun i _ => trivial, fun k d hd => Or.inl hd⟩
    | computed =>
      simp only [hkind]
      exact tame_recomputeC s j n hg (by rw [hkind]; intro h; exact NodeKind.noConfusion h)
    | hybrid =>
      simp only [hkind]
      exact tame_recomputeH s j n hg (by rw [hkind]; intro h; exact NodeKind.noConfusion h)

/-- C8: for every value and every Computed node, set throws the
InvalidOperation error (Cannot set value of a computed state) rather than
returning silently, and the engine state — stored value, dependency edges,
pending set — is returned exactly as it was. -/
theorem computed_set_throws (s : Sys) (i : NodeId)
    (h : kindOf s i = some NodeKind.computed) (a : SetArg) :
    setOp s i a = (s, Except.error "Cannot set value of a computed state") := by
  unfold kindOf at h
  cases hg : getN s i with
  | none => rw [hg] at h; exact Option.noConfusion h
  | some n =>
    rw [hg] at h
    have hk : n.kind = NodeKind.computed := by
      simpa using h
    simp only [setOp, hg, hk]

/-- Witness for C8 at a concrete computed node. -/
theorem computed_set_throws_witness :
    kindOf sysAC.1 1 = some NodeKind.computed ∧
    setOp sysAC.1 1 (SetArg.val (JVal.prim 3))
      = (sysAC.1, Except.error "Cannot set value of a computed state") :=
  ⟨by decide, computed_set_throws sysAC.1 1 (by decide) (SetArg.val (JVal.prim 3))⟩

/-- C6: for every Hybrid node, set(partialPatch) spreads the patch into the
accumulated override (later patches win on overlapping fields, other fields
untouched) and updates the stored value synchronously: with no flush in
between, get already observes the current value with the accumulated
override applied on top, and the node is marked pending. -/
theorem hybrid_set_merge_sync (s : Sys) (i : NodeId) (p : Obj) (n : Node)
    (hg : getN s i = some n) (_hk : n.kind = NodeKind.hybrid) :
    i ∈ (hybridSet s i p).pending ∧
    (getN (hybridSet s i p) i).map Node.manualOverride
      = some (some (mergeFields (n.manualOverride.getD []) p)) ∧
    obsContent (hybridSet s i p) i
      = mergeFields (contentOf s n.value) (mergeFields (n.manualOverride.getD []) p) := by
  have heq : hybridSet s i p
      = storeMark (allocObj (cloneVal s n.value).1
          (mergeFields (contentOf (cloneVal s n.value).1 (cloneVal s n.value).2)
            (mergeFields (n.manualOverride.getD []) p))) i
        { n with
          manualOverride := some (mergeFields (n.manualOverride.getD []) p)
          value := JVal.ref (cloneVal s n.value).1.heap.length } := by
    simp only [hybridSet, hg]
  have hbase : getN (allocObj (cloneVal s n.value).1
      (mergeFields (contentOf (cloneVal s n.value).1 (cloneVal s n.value).2)
        (mergeFields (n.manualOverride.getD []) p))) i = some n := by
    rw [getN_allocObj, getN_cloneVal]
    exact hg
  have hgfin := getN_storeMark_self _ i
    { n with
      manualOverride := some (mergeFields (n.manualOverride.getD []) p)
      value := JVal.ref (cloneVal s n.value).1.heap.length } hbase
  refine ⟨?_, ?_, ?_⟩
  · rw [heq]
    exact mem_pending_storeMark _ _ _
  · rw [heq, hgfin]
    rfl
  · have hval : obsGet (hybridSet s i p) i
        = JVal.ref (cloneVal s n.value).1.heap.length := by
      rw [heq, obsGet_eq hgfin]
    unfold obsContent
    rw [hval, heq, contentOf_storeMark, contentOf_allocObj_last, contentOf_cloneVal]

/-- Witness for C6: base {x:1,y:2}, set({y:5}) gives get() = {x:1,y:5} with
no flush, override {y:5} recorded, and the node pending. -/
theorem hybrid_set_merge_sync_witness :
    (getN sysH.1 0).map Node.kind = some NodeKind.hybrid ∧
    (0 ∈ sysHSet.pending ∧
      (getN sysHSet 0).map Node.manualOverride = some (some [(1, 5)]) ∧
      obsContent sysHSet 0 = [(0, 1), (1, 5)]) := by
  refine ⟨by decide, ?_⟩
  have h := hybrid_set_merge_sync sysH.1 0 [(1, 5)]
    { kind := NodeKind.hybrid, value := .ref 2, subscribers := [], dependents := [],
      dependencies := [], lastDeps := [], manualOverride := none,
      compute := .lit [(0, 1), (1, 2)] } rfl rfl
  refine ⟨h.1, ?_, ?_⟩
  · have := h.2.1
    simpa using this
  · have := h.2.2
    simpa using this

/-! Pending-set preservation through a computation pass. -/

theorem pending_captureDep (s : Sys) (c i : NodeId) :
    (captureDep s c i).pending = s.pending := rfl

theorem pending_getOp (s : Sys) (cc : Option NodeId) (i : NodeId) :
    (getOp s cc i).1.pending = s.pending := by
  unfold getOp
  cases hg : getN s i with
  | none => rfl
  | some n =>
    cases cc with
    | none => rfl
    | some c =>
      by_cases hcap : n.kind = NodeKind.plain ∨ c ≠ i
      · simp only [if_pos hcap]
        rfl
      · simp only [if_neg hcap]

theorem pending_runCExp (cc : NodeId) (e : CExp) :
    ∀ s : Sys, (runCExp s cc e).1.pending = s.pending := by
  induction e with
  | ret v => intro s; rfl
  | lit o => intro s; rfl
  | read i k ih =>
    intro s
    show (runCExp (getOp s (some cc) i).1 cc (k (getOp s (some cc) i).2)).1.pending = s.pending
    rw [ih (getOp s (some cc) i).2 (getOp s (some cc) i).1, pending_getOp]

theorem pending_teardownDeps (s : Sys) (i : NodeId) :
    (teardownDeps s i).pending = s.pending := by
  unfold teardownDeps
  cases hg : getN s i with
  | none => rfl
  | some n =>
    show (updN _ i _).pending = s.pending
    have := foldl_inv
      (P := fun acc : Sys => acc.pending = s.pending)
      (fun acc d => updN acc d (fun m => { m with dependents := setRemove m.dependents i }))
      n.dependencies s rfl (fun x b _ hx => hx)
    exact this

theorem pending_computePass (s : Sys) (i : NodeId) (c : CExp) :
    (computePass s i c).1.pending = s.pending := by
  unfold computePass
  rw [pending_runCExp, pending_teardownDeps]

/-- C1 (amended): when a recompute of a Computed node captures a dependency
sequence identical to the previous snapshot, the previously stored value is
kept only if the raw compute result is reference-identical to it (in which
case the node is also not marked pending); when the raw result differs, the
node adopts a clone of the fresh result and is marked pending even though
the dependency sequence is unchanged — the dependency-identity gate does not
by itself preserve the old value. -/
theorem computed_recompute_dep_gate (s : Sys) (i : NodeId) (n : Node)
    (hg : getN s i = some n) (_hk : n.kind = NodeKind.computed)
    (hdeps : ((getN (computePass s i n.compute).1 i).getD n).dependencies = n.lastDeps) :
    ((computePass s i n.compute).2 = n.value →
      valueOf (recomputeC s i) i = some n.value ∧
      (recomputeC s i).pending = s.pending) ∧
    ((computePass s i n.compute).2 ≠ n.value →
      valueOf (recomputeC s i) i
        = some (cloneVal (computePass s i n.compute).1 (computePass s i n.compute).2).2 ∧
      i ∈ (recomputeC s i).pending) := by
  obtain ⟨n2, hn2, hcore⟩ := core_step hg (nodeCore_computePass s i n.compute i)
  have hval2 : n2.value = n.value := by
    have := congrArg (fun t => t.2.1) hcore
    simpa [coreOf] using this
  have hlast2 : n2.lastDeps = n.lastDeps := by
    have := congrArg (fun t => t.2.2.2.2) hcore
    simpa [coreOf] using this
  have hdeps2 : n2.dependencies = n.lastDeps := by
    rw [hn2] at hdeps
    simpa using hdeps
  have hgate : n2.lastDeps = n2.dependencies := by rw [hlast2, hdeps2]
  constructor
  · intro hsame
    have hvn2 : n2.value = (computePass s i n.compute).2 := by rw [hval2, hsame]
    simp only [recomputeC, hg, hn2, Option.getD_some, if_pos hgate, if_pos hvn2]
    constructor
    · unfold valueOf setN
      rw [getN_updN_self, hn2]
      simp [hval2]
    · show (updN _ i _).pending = s.pending
      show (computePass s i n.compute).1.pending = s.pending
      exact pending_computePass s i n.compute
  · intro hdiff
    have hvn2 : ¬ n2.value = (computePass s i n.compute).2 := by
      rw [hval2]
      exact fun hc => hdiff hc.symm
    simp only [recomputeC, hg, hn2, Option.getD_some, if_pos hgate, if_neg hvn2]
    constructor
    · unfold valueOf
      rw [getN_storeMark_self _ i _
        ((getN_cloneVal (computePass s i n.compute).1 (computePass s i n.compute).2 i).trans hn2)]
      rfl
    · exact mem_pending_storeMark _ _ _

/-- Witness for the amended C1 at the concrete scenario: node 0 was set to 7
while computed node 1 still holds 4 with snapshot [0]; the recompute reads
[0] again, its raw result 14 differs from the stored 4, and the node adopts
14 and goes pending. -/
theorem computed_recompute_dep_gate_witness :
    ((getN (computePass sysASet 1 cexpA).1 1).getD
        { kind := NodeKind.computed, value := .prim 4, subscribers := [], dependents := [],
          dependencies := [0], lastDeps := [0], manualOverride := none,
          compute := cexpA }).dependencies = [0] ∧
    (computePass sysASet 1 cexpA).2 ≠ JVal.prim 4 ∧
    (valueOf (recomputeC sysASet 1) 1
        = some (cloneVal (computePass sysASet 1 cexpA).1 (computePass sysASet 1 cexpA).2).2 ∧
      1 ∈ (recomputeC sysASet 1).pending) := by
  refine ⟨by decide, by decide, ?_⟩
  exact (computed_recompute_dep_gate sysASet 1
    { kind := NodeKind.computed, value := .prim 4, subscribers := [], dependents := [],
      dependencies := [0], lastDeps := [0], manualOverride := none,
      compute := cexpA } rfl rfl (by decide)).2 (by decide)

/-- C1 counterexample: in the concrete scenario the recompute of computed
node 1 captures the dependency sequence [0], identical to its previous
snapshot [0]; the compute function's raw result is 14 while the previously
stored value was 4; yet the externally observed value after the recompute is
14, not the kept 4 — refuting memoization by dependency identity. -/
theorem computed_memoization_counterexample :
    (getN sysASet 1).map Node.lastDeps = some [0] ∧
    (getN (recomputeC sysASet 1) 1).map Node.dependencies = some [0] ∧
    (computePass sysASet 1 cexpA).2 = JVal.prim 14 ∧
    valueOf sysASet 1 = some (JVal.prim 4) ∧
    valueOf (recomputeC sysASet 1) 1 = some (JVal.prim 14) := by
  decide

/-- C2 (amended): for a plain node, set stores an isolated deep copy of the
caller's object — the stored reference is fresh (distinct from the caller's),
its fields equal the caller object's fields, and later caller-side mutation
of the original object does not change what get observes — but get returns
the internal stored reference itself, not a copy. -/
theorem plain_set_clones_but_get_aliases (s : Sys) (i : NodeId) (n : Node) (a : Addr)
    (hg : getN s i = some n) (ha : a < s.heap.length) (hne : n.value ≠ JVal.ref a) :
    valueOf (plainSet s i (JVal.ref a)) i = some (JVal.ref s.heap.length) ∧
    JVal.ref s.heap.length ≠ JVal.ref a ∧
    obsContent (plainSet s i (JVal.ref a)) i = heapAt s a ∧
    (∀ k w, obsContent (heapWrite (plainSet s i (JVal.ref a)) a k w) i
      = obsContent (plainSet s i (JVal.ref a)) i) ∧
    obsGet (plainSet s i (JVal.ref a)) i = JVal.ref s.heap.length := by
  have hanel : a ≠ s.heap.length := Nat.ne_of_lt ha
  have heq : plainSet s i (JVal.ref a)
      = storeMark (allocObj s (heapAt s a)) i { n with value := JVal.ref s.heap.length } := by
    simp only [plainSet, hg, if_neg hne]
    rfl
  have hbase : getN (allocObj s (heapAt s a)) i = some n := by
    rw [getN_allocObj]
    exact hg
  have hgfin := getN_storeMark_self _ i { n with value := JVal.ref s.heap.length } hbase
  have hval : obsGet (plainSet s i (JVal.ref a)) i = JVal.ref s.heap.length := by
    rw [heq, obsGet_eq hgfin]
  refine ⟨?_, ?_, ?_, ?_, ?_⟩
  · unfold valueOf
    rw [heq, hgfin]
    rfl
  · intro hc
    exact hanel (JVal.ref.inj hc).symm
  · unfold obsContent
    rw [hval, heq, contentOf_storeMark, contentOf_allocObj_last]
  · intro k w
    have hgw : getN (heapWrite (plainSet s i (JVal.ref a)) a k w) i
        = some { n with value := JVal.ref s.heap.length } := by
      rw [getN_heapWrite, heq]
      exact hgfin
    unfold obsContent
    rw [obsGet_eq hgw, hval]
    show heapAt (heapWrite (plainSet s i (JVal.ref a)) a k w) s.heap.length
      = heapAt (plainSet s i (JVal.ref a)) s.heap.length
    unfold heapWrite heapAt
    show (listModify (plainSet s i (JVal.ref a)).heap a _)[s.heap.length]?.getD []
      = (plainSet s i (JVal.ref a)).heap[s.heap.length]?.getD []
    rw [getElem?_listModify_ne _ a s.heap.length _ (fun hc => hanel hc.symm)]
  · exact hval

/-- Witness for the amended C2: in the concrete scenario the caller object
{a:1} lives at address 0, the node stores the copy at address 1, and later
mutation of address 0 does not change what get observes. -/
theorem plain_set_clones_but_get_aliases_witness :
    (JVal.ref 0 ≠ JVal.ref 0 → False) ∧
    (valueOf (plainSet sysP.1 0 (JVal.ref 0)) 0 = some (JVal.ref 2) ∧
      obsContent (plainSet sysP.1 0 (JVal.ref 0)) 0 = [(0, 1)] ∧
      obsContent (heapWrite (plainSet sysP.1 0 (JVal.ref 0)) 0 0 42) 0
        = obsContent (plainSet sysP.1 0 (JVal.ref 0)) 0 ∧
      obsGet (plainSet sysP.1 0 (JVal.ref 0)) 0 = JVal.ref 2) := by
  refine ⟨fun hc => hc rfl, ?_⟩
  have h := plain_set_clones_but_get_aliases sysP.1 0
    { kind := NodeKind.plain, value := .ref 1, subscribers := [], dependents := [],
      dependencies := [], lastDeps := [], manualOverride := none,
      compute := .ret .undef } 0 rfl (by decide) (by decide)
  refine ⟨?_, ?_, h.2.2.2.1 0 42, ?_⟩
  · simpa using h.1
  · have := h.2.2.1
    simpa using this
  · simpa using h.2.2.2.2

/-- C2 counterexample: get hands out the internal reference (address 1), and
mutating the object obtained from get changes the result of a later get on
the same node from {a:1} to {a:99}. -/
theorem get_aliasing_counterexample :
    obsGet sysP.1 0 = JVal.ref 1 ∧
    obsContent sysP.1 0 = [(0, 1)] ∧
    obsGet sysPMut 0 = JVal.ref 1 ∧
    obsContent sysPMut 0 = [(0, 99)] := by
  decide

/-- C7: for every Hybrid node, recompute unconditionally adopts the freshly
computed base — with the accumulated override spread on top when one exists,
a plain clone of the base otherwise — and unconditionally marks the node
pending afterward; no dependency-set gate and no value gate guard either
step, so the conclusions need no hypothesis about the captured dependency
sequence or the new and old values. -/
theorem hybrid_recompute_unconditional (s : Sys) (i : NodeId) (n : Node)
    (hg : getN s i = some n) (_hk : n.kind = NodeKind.hybrid) :
    i ∈ (recomputeH s i).pending ∧
    (∀ ov, n.manualOverride = some ov →
      obsContent (recomputeH s i) i
        = mergeFields (contentOf (computePass s i n.compute).1 (computePass s i n.compute).2) ov) ∧
    (n.manualOverride = none →
      valueOf (recomputeH s i) i
        = some (cloneVal (computePass s i n.compute).1 (computePass s i n.compute).2).2) := by
  obtain ⟨n2, hn2, hcore⟩ := core_step hg (nodeCore_computePass s i n.compute i)
  have hov2 : n2.manualOverride = n.manualOverride := by
    have := congrArg (fun t => t.2.2.1) hcore
    simpa [coreOf] using this
  simp only [recomputeH, hg, hn2, Option.getD_some]
  set P := computePass s i n.compute with hP
  set n3 : Node := if n2.lastDeps = n2.dependencies then n2
    else { n2 with lastDeps := n2.dependencies } with hn3
  have hov3 : n3.manualOverride = n.manualOverride := by
    rw [hn3]
    split <;> simpa using hov2
  refine ⟨?_, ?_, ?_⟩
  · exact mem_pending_storeMark _ _ _
  · intro ov hov
    rw [hov] at hov3
    simp only [hov3]
    have hbase : getN (allocObj (cloneVal P.1 P.2).1
        (mergeFields (contentOf (cloneVal P.1 P.2).1 (cloneVal P.1 P.2).2) ov)) i
        = some n2 := by
      rw [getN_allocObj, getN_cloneVal]
      exact hn2
    have hgfin := getN_storeMark_self _ i
      { n3 with
        value := JVal.ref (cloneVal P.1 P.2).1.heap.length
        manualOverride := some ov } hbase
    rw [obsContent_eq hgfin, contentOf_storeMark]
    show contentOf _ (JVal.ref (cloneVal P.1 P.2).1.heap.length) = _
    rw [contentOf_allocObj_last, contentOf_cloneVal]
  · intro hov
    rw [hov] at hov3
    simp only [hov3]
    have hbase : getN (cloneVal P.1 P.2).1 i = some n2 :=
      (getN_cloneVal P.1 P.2 i).trans hn2
    unfold valueOf
    rw [getN_storeMark_self _ i
      { n3 with
        value := (cloneVal P.1 P.2).2
        manualOverride := none } hbase]
    rfl

/-- Witness for C7: recomputing the hybrid node while the override {y:5} is
in place marks it pending and rebuilds the value as base with the override
on top. -/
theorem hybrid_recompute_unconditional_witness :
    0 ∈ (recomputeH sysHSet 0).pending ∧
    obsContent (recomputeH sysHSet 0) 0 = [(0, 1), (1, 5)] := by
  have h := hybrid_recompute_unconditional sysHSet 0
    { kind := NodeKind.hybrid, value := .ref 4, subscribers := [], dependents := [],
      dependencies := [], lastDeps := [], manualOverride := some [(1, 5)],
      compute := .lit [(0, 1), (1, 2)] } rfl rfl
  refine ⟨h.1, ?_⟩
  have h2 := h.2.1 [(1, 5)] rfl
  rw [h2]
  decide

/-! Notes bookkeeping for the flush. -/

theorem notesFrom_append (l1 l2 : List Note) (i : NodeId) :
    notesFrom (l1 ++ l2) i = notesFrom l1 i ++ notesFrom l2 i := by
  unfold notesFrom
  rw [List.filter_append]

theorem notesFrom_batch_self (i : NodeId) (L : List Nat) (v : JVal) :
    notesFrom (noteBatch i L v) i = noteBatch i L v := by
  unfold notesFrom noteBatch
  induction L with
  | nil => rfl
  | cons x xs ih => simp_all [List.filter]

theorem notesFrom_batch_ne (i j : NodeId) (L : List Nat) (v : JVal) (h : i ≠ j) :
    notesFrom (noteBatch j L v) i = [] := by
  unfold notesFrom noteBatch
  induction L with
  | nil => rfl
  | cons x xs ih =>
    have hji : (j == i) = false := by
      simp [Ne.symm h]
    simpa [List.filter, hji] using ih

theorem getN_notifyAll (s : Sys) (j i : NodeId) : getN (notifyAll s j) i = getN s i := by
  unfold notifyAll
  cases hg : getN s j <;> rfl

theorem pending_notifyAll (s : Sys) (j : NodeId) : (notifyAll s j).pending = s.pending := by
  unfold notifyAll
  cases hg : getN s j <;> rfl

theorem heap_notifyAll (s : Sys) (j : NodeId) : (notifyAll s j).heap = s.heap := by
  unfold notifyAll
  cases hg : getN s j <;> rfl

theorem nodes_notifyAll (s : Sys) (j : NodeId) : (notifyAll s j).nodes = s.nodes := by
  unfold notifyAll
  cases hg : getN s j <;> rfl

theorem notifyAll_log (s : Sys) (j : NodeId) :
    (notifyAll s j).log = s.log ++ noteBatch j (subsOf s j) (obsGet s j) := by
  unfold notifyAll
  cases hg : getN s j with
  | none => simp [subsOf, hg, noteBatch, obsGet, getOp]
  | some n => simp [subsOf, hg, noteBatch, obsGet, getOp]

/-! Projections of preserved observation tuples. -/

theorem subsOf_of_KSO {s s' : Sys} {i : NodeId} (h : obsKSO s' i = obsKSO s i) :
    subsOf s' i = subsOf s i := by
  unfold obsKSO at h
  unfold subsOf
  cases h1 : getN s' i <;> cases h2 : getN s i <;> rw [h1, h2] at h <;> simp_all

theorem kindOf_of_KSO {s s' : Sys} {i : NodeId} (h : obsKSO s' i = obsKSO s i) :
    kindOf s' i = kindOf s i := by
  unfold obsKSO at h
  unfold kindOf
  cases h1 : getN s' i <;> cases h2 : getN s i <;> rw [h1, h2] at h <;> simp_all

theorem valueOf_of_solid {s s' : Sys} {i : NodeId} (h : obsSolid s' i = obsSolid s i) :
    valueOf s' i = valueOf s i := by
  unfold obsSolid at h
  unfold valueOf
  cases h1 : getN s' i <;> cases h2 : getN s i <;> rw [h1, h2] at h <;>
    simp_all [nodeSolid]

theorem hasRecompute_of_KSO {s s' : Sys} {i : NodeId} (h : obsKSO s' i = obsKSO s i) :
    hasRecompute s' i = hasRecompute s i := by
  unfold obsKSO at h
  unfold hasRecompute
  cases h1 : getN s' i <;> cases h2 : getN s i <;> rw [h1, h2] at h <;> simp_all

theorem hasRecompute_true_kind {s : Sys} {j : NodeId} (h : hasRecompute s j = true) :
    kindOf s j ≠ some NodeKind.plain := by
  unfold hasRecompute at h
  unfold kindOf
  cases hg : getN s j with
  | none => rw [hg] at h; exact absurd h (by simp)
  | some n =>
    rw [hg] at h
    intro hc
    have hp : n.kind = NodeKind.plain := by simpa using hc
    have h2 : decide (n.kind ≠ NodeKind.plain) = true := h
    rw [hp] at h2
    simp at h2

theorem recomputeOp_plain {s : Sys} {j : NodeId} (hk : kindOf s j = some NodeKind.plain) :
    recomputeOp s j = s := by
  unfold recomputeOp
  unfold kindOf at hk
  cases hg : getN s j with
  | none => rfl
  | some n =>
    rw [hg] at hk
    have : n.kind = NodeKind.plain := by simpa using hk
    simp [this]

/-! The phase bodies preserve kind, subscribers, override and the value of
plain nodes everywhere. -/

theorem obsKSO_stepA (acc : Sys × List NodeId) (j i' : NodeId) :
    obsKSO (stepA acc j).1 i' = obsKSO acc.1 i' := by
  unfold stepA
  by_cases h1 : j ∈ acc.2
  · rw [if_pos h1]
  · rw [if_neg h1]
    by_cases h2 : hasRecompute acc.1 j
    · rw [if_pos h2]
      show obsKSO (notifyAll (recomputeOp acc.1 j) j) i' = _
      have h3 : getN (notifyAll (recomputeOp acc.1 j) j) i' = getN (recomputeOp acc.1 j) i' :=
        getN_notifyAll _ j i'
      unfold obsKSO
      rw [h3]
      exact (tame_recomputeOp acc.1 j).2.2.2.2.1 i'
    · rw [if_neg h2]

theorem obsKSO_stepB (acc : Sys × List NodeId) (j i' : NodeId) :
    obsKSO (stepB acc j).1 i' = obsKSO acc.1 i' := by
  unfold stepB
  by_cases h1 : j ∈ acc.2
  · rw [if_pos h1]
  · rw [if_neg h1]
    by_cases h2 : hasRecompute acc.1 j
    · rw [if_pos h2]
    · rw [if_neg h2]
      show obsKSO (notifyAll acc.1 j) i' = _
      unfold obsKSO
      rw [getN_notifyAll]

theorem plainVal_stepA (acc : Sys × List NodeId) (j i' : NodeId)
    (hk : kindOf acc.1 i' = some NodeKind.plain) :
    valueOf (stepA acc j).1 i' = valueOf acc.1 i' := by
  unfold stepA
  by_cases h1 : j ∈ acc.2
  · rw [if_pos h1]
  · rw [if_neg h1]
    by_cases h2 : hasRecompute acc.1 j
    · rw [if_pos h2]
      show valueOf (notifyAll (recomputeOp acc.1 j) j) i' = _
      have h3 : getN (notifyAll (recomputeOp acc.1 j) j) i' = getN (recomputeOp acc.1 j) i' :=
        getN_notifyAll _ j i'
      unfold valueOf
      rw [h3]
      by_cases hij : i' = j
      · subst hij
        rw [recomputeOp_plain hk]
      · exact valueOf_of_solid ((tame_recomputeOp acc.1 j).2.2.2.2.2.1 i' hij)
    · rw [if_neg h2]

theorem plainVal_stepB (acc : Sys × List NodeId) (j i' : NodeId) :
    valueOf (stepB acc j).1 i' = valueOf acc.1 i' := by
  unfold stepB
  by_cases h1 : j ∈ acc.2
  · rw [if_pos h1]
  · rw [if_neg h1]
    by_cases h2 : hasRecompute acc.1 j
    · rw [if_pos h2]
    · rw [if_neg h2]
      show valueOf (notifyAll acc.1 j) i' = _
      unfold valueOf
      rw [getN_notifyAll]

theorem kindOf_notifyAll (s : Sys) (j i : NodeId) :
    kindOf (notifyAll s j) i = kindOf s i := by
  unfold kindOf
  rw [getN_notifyAll]

theorem valueOf_notifyAll (s : Sys) (j i : NodeId) :
    valueOf (notifyAll s j) i = valueOf s i := by
  unfold valueOf
  rw [getN_notifyAll]

theorem subsOf_notifyAll (s : Sys) (j i : NodeId) :
    subsOf (notifyAll s j) i = subsOf s i := by
  unfold subsOf
  rw [getN_notifyAll]

theorem valueOf_eq_obsGet {s : Sys} {i : NodeId} {n : Node} (hg : getN s i = some n) :
    valueOf s i = some (obsGet s i) := by
  unfold valueOf
  rw [hg, obsGet_eq hg]
  rfl

theorem kindOf_some_getN {s : Sys} {i : NodeId} {k : NodeKind}
    (h : kindOf s i = some k) : ∃ n, getN s i = some n := by
  unfold kindOf at h
  cases hg : getN s i with
  | none => rw [hg] at h; exact Option.noConfusion h
  | some n => exact ⟨n, rfl⟩

/-- One phase-A body application keeps the per-node note invariant. -/
theorem noteInv_stepA (i : NodeId) (L : List Nat) (log0 : List Note)
    (acc : Sys × List NodeId) (j : NodeId) (h : noteInv i L log0 acc) :
    noteInv i L log0 (stepA acc j) := by
  obtain ⟨hsubs, t, hlog, hbr⟩ := h
  unfold stepA
  by_cases h1 : j ∈ acc.2
  · rw [if_pos h1]
    exact ⟨hsubs, t, hlog, hbr⟩
  · rw [if_neg h1]
    by_cases h2 : hasRecompute acc.1 j
    · rw [if_pos h2]
      have hKSO : ∀ i', obsKSO (recomputeOp acc.1 j) i' = obsKSO acc.1 i' :=
        (tame_recomputeOp acc.1 j).2.2.2.2.1
      have hlogR : (recomputeOp acc.1 j).log = acc.1.log := (tame_recomputeOp acc.1 j).1
      refine ⟨?_, t ++ noteBatch j (subsOf (recomputeOp acc.1 j) j)
        (obsGet (recomputeOp acc.1 j) j), ?_, ?_⟩
      · show subsOf (notifyAll (recomputeOp acc.1 j) j) i = L
        rw [subsOf_notifyAll, subsOf_of_KSO (hKSO i), hsubs]
      · show (notifyAll (recomputeOp acc.1 j) j).log = _
        rw [notifyAll_log, hlogR, hlog, List.append_assoc]
      · by_cases hij : i = j
        · subst hij
          rcases hbr with ⟨_, hempty⟩ | ⟨hin, _⟩
          · right
            refine ⟨List.mem_append_right _ (by simp), obsGet (recomputeOp acc.1 i) i, ?_, ?_⟩
            · rw [notesFrom_append, hempty, List.nil_append, subsOf_of_KSO (hKSO i), hsubs,
                notesFrom_batch_self]
            · intro hkp
              rw [kindOf_notifyAll, kindOf_of_KSO (hKSO i)] at hkp
              exact absurd hkp (hasRecompute_true_kind h2)
          · exact absurd hin h1
        · rcases hbr with ⟨hnotin, hempty⟩ | ⟨hin, v, hbatch, hval⟩
          · left
            refine ⟨?_, ?_⟩
            · intro hmem
              rcases List.mem_append.mp hmem with hm | hm
              · exact hnotin hm
              · exact hij (List.mem_singleton.mp hm)
            · rw [notesFrom_append, hempty, notesFrom_batch_ne i j _ _ hij]
              rfl
          · right
            refine ⟨List.mem_append_left _ hin, v, ?_, ?_⟩
            · rw [notesFrom_append, hbatch, notesFrom_batch_ne i j _ _ hij, List.append_nil]
            · intro hkp
              rw [kindOf_notifyAll, kindOf_of_KSO (hKSO i)] at hkp
              have hv := hval hkp
              show valueOf (notifyAll (recomputeOp acc.1 j) j) i = some v
              rw [valueOf_notifyAll, valueOf_of_solid ((tame_recomputeOp acc.1 j).2.2.2.2.2.1 i hij)]
              exact hv
    · rw [if_neg h2]
      exact ⟨hsubs, t, hlog, hbr⟩

/-- One phase-B body application keeps the per-node note invariant. -/
theorem noteInv_stepB (i : NodeId) (L : List Nat) (log0 : List Note)
    (acc : Sys × List NodeId) (j : NodeId) (h : noteInv i L log0 acc) :
    noteInv i L log0 (stepB acc j) := by
  obtain ⟨hsubs, t, hlog, hbr⟩ := h
  unfold stepB
  by_cases h1 : j ∈ acc.2
  · rw [if_pos h1]
    exact ⟨hsubs, t, hlog, hbr⟩
  · rw [if_neg h1]
    by_cases h2 : hasRecompute acc.1 j
    · rw [if_pos h2]
      exact ⟨hsubs, t, hlog, hbr⟩
    · rw [if_neg h2]
      refine ⟨?_, t ++ noteBatch j (subsOf acc.1 j) (obsGet acc.1 j), ?_, ?_⟩
      · show subsOf (notifyAll acc.1 j) i = L
        rw [subsOf_notifyAll, hsubs]
      · show (notifyAll acc.1 j).log = _
        rw [notifyAll_log, hlog, List.append_assoc]
      · by_cases hij : i = j
        · subst hij
          rcases hbr with ⟨_, hempty⟩ | ⟨hin, _⟩
          · right
            refine ⟨List.mem_append_right _ (by simp), obsGet acc.1 i, ?_, ?_⟩
            · rw [notesFrom_append, hempty, List.nil_append, hsubs, notesFrom_batch_self]
            · intro hkp
              rw [kindOf_notifyAll] at hkp
              obtain ⟨n, hgn⟩ := kindOf_some_getN hkp
              rw [valueOf_notifyAll]
              exact valueOf_eq_obsGet hgn
          · exact absurd hin h1
        · rcases hbr with ⟨hnotin, hempty⟩ | ⟨hin, v, hbatch, hval⟩
          · left
            refine ⟨?_, ?_⟩
            · intro hmem
              rcases List.mem_append.mp hmem with hm | hm
              · exact hnotin hm
              · exact hij (List.mem_singleton.mp hm)
            · rw [notesFrom_append, hempty, notesFrom_batch_ne i j _ _ hij]
              rfl
          · right
            refine ⟨List.mem_append_left _ hin, v, ?_, ?_⟩
            · rw [notesFrom_append, hbatch, notesFrom_batch_ne i j _ _ hij, List.append_nil]
            · intro hkp
              rw [kindOf_notifyAll] at hkp
              rw [valueOf_notifyAll]
              exact hval hkp

/-- The invariant only looks at nodes, log and processed list. -/
theorem noteInv_of_eq {i : NodeId} {L : List Nat} {log0 : List Note}
    {x y : Sys × List NodeId} (hn : y.1.nodes = x.1.nodes) (hl : y.1.log = x.1.log)
    (hpr : y.2 = x.2) (h : noteInv i L log0 x) : noteInv i L log0 y := by
  obtain ⟨hsubs, t, hlog, hbr⟩ := h
  have hg : ∀ k, getN y.1 k = getN x.1 k := by
    intro k
    unfold getN
    rw [hn]
  refine ⟨?_, t, ?_, ?_⟩
  · unfold subsOf
    rw [hg i]
    exact hsubs
  · rw [hl, hlog]
  · rw [hpr]
    rcases hbr with ⟨hnotin, hempty⟩ | ⟨hin, v, hbatch, hval⟩
    · exact Or.inl ⟨hnotin, hempty⟩
    · refine Or.inr ⟨hin, v, hbatch, ?_⟩
      intro hkp
      unfold kindOf at hkp
      rw [hg i] at hkp
      unfold valueOf
      rw [hg i]
      exact hval hkp

/-- The dependent-enqueue step touches only the pending set. -/
theorem enqueue_frame (s : Sys) (pr : List NodeId) :
    (enqueueDependents s pr).nodes = s.nodes ∧ (enqueueDependents s pr).log = s.log ∧
      (enqueueDependents s pr).heap = s.heap := by
  unfold enqueueDependents
  refine foldl_inv
    (P := fun acc : Sys => acc.nodes = s.nodes ∧ acc.log = s.log ∧ acc.heap = s.heap)
    _ pr s ⟨rfl, rfl, rfl⟩ ?_
  intro x p _ hx
  show (match getN x p with
    | none => x
    | some n => n.dependents.foldl
        (fun acc2 d => if d ∈ pr then acc2
          else { acc2 with pending := setAdd acc2.pending d }) x).nodes = s.nodes ∧ _
  cases hg : getN x p with
  | none => exact hx
  | some n =>
    refine foldl_inv
      (P := fun acc : Sys => acc.nodes = s.nodes ∧ acc.log = s.log ∧ acc.heap = s.heap)
      _ n.dependents x hx ?_
    intro y d _ hy
    by_cases hd : d ∈ pr
    · show (if d ∈ pr then y else { y with pending := setAdd y.pending d }).nodes = _ ∧ _
      rw [if_pos hd]
      exact hy
    · show (if d ∈ pr then y else { y with pending := setAdd y.pending d }).nodes = _ ∧ _
      rw [if_neg hd]
      exact hy

/-- One wave keeps the per-node note invariant. -/
theorem noteInv_wave (i : NodeId) (L : List Nat) (log0 : List Note)
    (s : Sys) (pr : List NodeId) (h : noteInv i L log0 (s, pr)) :
    noteInv i L log0 (wave s pr) := by
  unfold wave
  have h0 : noteInv i L log0 ({ s with pending := [] }, pr) :=
    noteInv_of_eq rfl rfl rfl h
  have hA : noteInv i L log0 (phaseA s.pending ({ s with pending := [] }, pr)) := by
    unfold phaseA
    exact foldl_inv (P := noteInv i L log0) stepA s.pending _ h0
      (fun x b _ hx => noteInv_stepA i L log0 x b hx)
  have hB : noteInv i L log0 (phaseB s.pending (phaseA s.pending ({ s with pending := [] }, pr))) := by
    unfold phaseB
    exact foldl_inv (P := noteInv i L log0) stepB s.pending _ hA
      (fun x b _ hx => noteInv_stepB i L log0 x b hx)
  set out := phaseB s.pending (phaseA s.pending ({ s with pending := [] }, pr)) with hout
  exact noteInv_of_eq (enqueue_frame out.1 out.2).1 (enqueue_frame out.1 out.2).2.1 rfl hB

/-- The whole wave loop keeps the per-node note invariant. -/
theorem noteInv_flushLoop (i : NodeId) (L : List Nat) (log0 : List Note) :
    ∀ (fuel : Nat) (s : Sys) (pr : List NodeId), noteInv i L log0 (s, pr) →
      noteInv i L log0 (flushLoop fuel s pr) := by
  intro fuel
  induction fuel with
  | zero => intro s pr h; exact h
  | succ f ih =>
    intro s pr h
    show noteInv i L log0 (if s.pending.isEmpty then (s, pr) else
      flushLoop f (wave s pr).1 (wave s pr).2)
    by_cases hp : s.pending.isEmpty
    · rw [if_pos hp]
      exact h
    · rw [if_neg hp]
      exact ih (wave s pr).1 (wave s pr).2 (noteInv_wave i L log0 s pr h)

/-! The processed list only grows, every snapshot member ends processed, and
the whole-system observations are stable across waves. -/

theorem pr_stepA_mono (acc : Sys × List NodeId) (j x : NodeId) (hx : x ∈ acc.2) :
    x ∈ (stepA acc j).2 := by
  unfold stepA
  by_cases h1 : j ∈ acc.2
  · rw [if_pos h1]; exact hx
  · rw [if_neg h1]
    by_cases h2 : hasRecompute acc.1 j
    · rw [if_pos h2]
      exact List.mem_append_left _ hx
    · rw [if_neg h2]; exact hx

theorem pr_stepB_mono (acc : Sys × List NodeId) (j x : NodeId) (hx : x ∈ acc.2) :
    x ∈ (stepB acc j).2 := by
  unfold stepB
  by_cases h1 : j ∈ acc.2
  · rw [if_pos h1]; exact hx
  · rw [if_neg h1]
    by_cases h2 : hasRecompute acc.1 j
    · rw [if_pos h2]; exact hx
    · rw [if_neg h2]
      exact List.mem_append_left _ hx

theorem pr_phaseA_mono (snap : List NodeId) (start : Sys × List NodeId) (x : NodeId)
    (hx : x ∈ start.2) : x ∈ (phaseA snap start).2 := by
  unfold phaseA
  exact foldl_inv (P := fun acc : Sys × List NodeId => x ∈ acc.2) stepA snap start hx
    (fun a b _ ha => pr_stepA_mono a b x ha)

theorem pr_phaseB_mono (snap : List NodeId) (start : Sys × List NodeId) (x : NodeId)
    (hx : x ∈ start.2) : x ∈ (phaseB snap start).2 := by
  unfold phaseB
  exact foldl_inv (P := fun acc : Sys × List NodeId => x ∈ acc.2) stepB snap start hx
    (fun a b _ ha => pr_stepB_mono a b x ha)

theorem pr_wave_mono (s : Sys) (pr : List NodeId) (x : NodeId) (hx : x ∈ pr) :
    x ∈ (wave s pr).2 := by
  unfold wave
  exact pr_phaseB_mono _ _ x (pr_phaseA_mono _ _ x hx)

theorem pr_flushLoop_mono :
    ∀ (fuel : Nat) (s : Sys) (pr : List NodeId) (x : NodeId), x ∈ pr →
      x ∈ (flushLoop fuel s pr).2 := by
  intro fuel
  induction fuel with
  | zero => intro s pr x hx; exact hx
  | succ f ih =>
    intro s pr x hx
    show x ∈ (if s.pending.isEmpty then (s, pr) else
      flushLoop f (wave s pr).1 (wave s pr).2).2
    by_cases hp : s.pending.isEmpty
    · rw [if_pos hp]; exact hx
    · rw [if_neg hp]
      exact ih _ _ x (pr_wave_mono s pr x hx)

theorem obsKSO_phaseA (snap : List NodeId) (start : Sys × List NodeId) (i' : NodeId) :
    obsKSO (phaseA snap start).1 i' = obsKSO start.1 i' := by
  unfold phaseA
  exact foldl_inv
    (P := fun acc : Sys × List NodeId => obsKSO acc.1 i' = obsKSO start.1 i')
    stepA snap start rfl
    (fun a b _ ha => (obsKSO_stepA a b i').trans ha)

theorem obsKSO_phaseB (snap : List NodeId) (start : Sys × List NodeId) (i' : NodeId) :
    obsKSO (phaseB snap start).1 i' = obsKSO start.1 i' := by
  unfold phaseB
  exact foldl_inv
    (P := fun acc : Sys × List NodeId => obsKSO acc.1 i' = obsKSO start.1 i')
    stepB snap start rfl
    (fun a b _ ha => (obsKSO_stepB a b i').trans ha)

theorem obsKSO_enqueue (s : Sys) (pr : List NodeId) (i' : NodeId) :
    obsKSO (enqueueDependents s pr) i' = obsKSO s i' := by
  unfold obsKSO getN
  rw [(enqueue_frame s pr).1]

theorem obsKSO_wave (s : Sys) (pr : List NodeId) (i' : NodeId) :
    obsKSO (wave s pr).1 i' = obsKSO s i' := by
  unfold wave
  rw [obsKSO_enqueue, obsKSO_phaseB, obsKSO_phaseA]
  rfl

theorem obsKSO_flushLoop :
    ∀ (fuel : Nat) (s : Sys) (pr : List NodeId) (i' : NodeId),
      obsKSO (flushLoop fuel s pr).1 i' = obsKSO s i' := by
  intro fuel
  induction fuel with
  | zero => intro s pr i'; rfl
  | succ f ih =>
    intro s pr i'
    show obsKSO (if s.pending.isEmpty then (s, pr) else
      flushLoop f (wave s pr).1 (wave s pr).2).1 i' = _
    by_cases hp : s.pending.isEmpty
    · rw [if_pos hp]
    · rw [if_neg hp]
      rw [ih _ _ i']
      exact obsKSO_wave s pr i'

theorem plainVal_phaseA (snap : List NodeId) (start : Sys × List NodeId) (i' : NodeId)
    (hk : kindOf start.1 i' = some NodeKind.plain) :
    valueOf (phaseA snap start).1 i' = valueOf start.1 i' := by
  unfold phaseA
  have := foldl_inv
    (P := fun acc : Sys × List NodeId =>
      kindOf acc.1 i' = some NodeKind.plain ∧ valueOf acc.1 i' = valueOf start.1 i')
    stepA snap start ⟨hk, rfl⟩
    (fun a b _ ha => ⟨by rw [kindOf_of_KSO (obsKSO_stepA a b i')]; exact ha.1,
      by rw [plainVal_stepA a b i' ha.1]; exact ha.2⟩)
  exact this.2

theorem plainVal_phaseB (snap : List NodeId) (start : Sys × List NodeId) (i' : NodeId) :
    valueOf (phaseB snap start).1 i' = valueOf start.1 i' := by
  unfold phaseB
  exact foldl_inv
    (P := fun acc : Sys × List NodeId => valueOf acc.1 i' = valueOf start.1 i')
    stepB snap start rfl
    (fun a b _ ha => (plainVal_stepB a b i').trans ha)

theorem valueOf_enqueue (s : Sys) (pr : List NodeId) (i' : NodeId) :
    valueOf (enqueueDependents s pr) i' = valueOf s i' := by
  unfold valueOf getN
  rw [(enqueue_frame s pr).1]

theorem plainVal_wave (s : Sys) (pr : List NodeId) (i' : NodeId)
    (hk : kindOf s i' = some NodeKind.plain) :
    valueOf (wave s pr).1 i' = valueOf s i' := by
  unfold wave
  have hk' : kindOf (({ s with pending := [] } : Sys), pr).1 i' = some NodeKind.plain := hk
  rw [valueOf_enqueue, plainVal_phaseB, plainVal_phaseA _ _ i' hk']
  rfl

theorem plainVal_flushLoop :
    ∀ (fuel : Nat) (s : Sys) (pr : List NodeId) (i' : NodeId),
      kindOf s i' = some NodeKind.plain →
        valueOf (flushLoop fuel s pr).1 i' = valueOf s i' := by
  intro fuel
  induction fuel with
  | zero => intro s pr i' _; rfl
  | succ f ih =>
    intro s pr i' hk
    show valueOf (if s.pending.isEmpty then (s, pr) else
      flushLoop f (wave s pr).1 (wave s pr).2).1 i' = _
    by_cases hp : s.pending.isEmpty
    · rw [if_pos hp]
    · rw [if_neg hp]
      have hk' : kindOf (wave s pr).1 i' = some NodeKind.plain := by
        rw [kindOf_of_KSO (obsKSO_wave s pr i')]
        exact hk
      rw [ih _ _ i' hk']
      exact plainVal_wave s pr i' hk

theorem heapExtends_stepA (acc : Sys × List NodeId) (j : NodeId) :
    heapExtends acc.1 (stepA acc j).1 := by
  unfold stepA
  by_cases h1 : j ∈ acc.2
  · rw [if_pos h1]; exact heapExtends_refl _
  · rw [if_neg h1]
    by_cases h2 : hasRecompute acc.1 j
    · rw [if_pos h2]
      show heapExtends acc.1 (notifyAll (recomputeOp acc.1 j) j)
      obtain ⟨t, ht⟩ := (tame_recomputeOp acc.1 j).2.2.2.1
      exact ⟨t, by rw [heap_notifyAll]; exact ht⟩
    · rw [if_neg h2]; exact heapExtends_refl _

theorem heapExtends_stepB (acc : Sys × List NodeId) (j : NodeId) :
    heapExtends acc.1 (stepB acc j).1 := by
  unfold stepB
  by_cases h1 : j ∈ acc.2
  · rw [if_pos h1]; exact heapExtends_refl _
  · rw [if_neg h1]
    by_cases h2 : hasRecompute acc.1 j
    · rw [if_pos h2]; exact heapExtends_refl _
    · rw [if_neg h2]
      show heapExtends acc.1 (notifyAll acc.1 j)
      exact ⟨[], by rw [heap_notifyAll, List.append_nil]⟩

theorem heapExtends_wave (s : Sys) (pr : List NodeId) :
    heapExtends s (wave s pr).1 := by
  unfold wave
  have hA : heapExtends ({ s with pending := [] } : Sys)
      (phaseA s.pending ({ s with pending := [] }, pr)).1 := by
    unfold phaseA
    exact foldl_inv
      (P := fun acc : Sys × List NodeId => heapExtends { s with pending := [] } acc.1)
      stepA s.pending _ (heapExtends_refl _)
      (fun a b _ ha => heapExtends_trans ha (heapExtends_stepA a b))
  have hB : heapExtends ({ s with pending := [] } : Sys)
      (phaseB s.pending (phaseA s.pending ({ s with pending := [] }, pr))).1 := by
    unfold phaseB
    exact foldl_inv
      (P := fun acc : Sys × List NodeId => heapExtends { s with pending := [] } acc.1)
      stepB s.pending _ hA
      (fun a b _ ha => heapExtends_trans ha (heapExtends_stepB a b))
  set out := phaseB s.pending (phaseA s.pending ({ s with pending := [] }, pr)) with hout
  obtain ⟨t, ht⟩ := hB
  exact ⟨t, by rw [(enqueue_frame out.1 out.2).2.2]; exact ht⟩

theorem heapExtends_flushLoop :
    ∀ (fuel : Nat) (s : Sys) (pr : List NodeId),
      heapExtends s (flushLoop fuel s pr).1 := by
  intro fuel
  induction fuel with
  | zero => intro s pr; exact heapExtends_refl s
  | succ f ih =>
    intro s pr
    show heapExtends s (if s.pending.isEmpty then (s, pr) else
      flushLoop f (wave s pr).1 (wave s pr).2).1
    by_cases hp : s.pending.isEmpty
    · rw [if_pos hp]; exact heapExtends_refl s
    · rw [if_neg hp]
      exact heapExtends_trans (heapExtends_wave s pr) (ih _ _)

theorem hasRecompute_phaseA (snap : List NodeId) (start : Sys × List NodeId) (j : NodeId) :
    hasRecompute (phaseA snap start).1 j = hasRecompute start.1 j :=
  hasRecompute_of_KSO (obsKSO_phaseA snap start j)

theorem snapshotA :
    ∀ (snap : List NodeId) (start : Sys × List NodeId) (j : NodeId), j ∈ snap →
      j ∈ (phaseA snap start).2 ∨ hasRecompute (phaseA snap start).1 j = false := by
  intro snap
  induction snap with
  | nil => intro start j hj; exact absurd hj (List.not_mem_nil j)
  | cons j0 t ih =>
    intro start j hj
    have hphase : phaseA (j0 :: t) start = phaseA t (stepA start j0) := rfl
    rcases List.mem_cons.mp hj with hj | hj
    · subst hj
      by_cases h1 : j ∈ start.2
      · left
        rw [hphase]
        exact pr_phaseA_mono t _ j (pr_stepA_mono start j j h1)
      · by_cases h2 : hasRecompute start.1 j
        · left
          rw [hphase]
          refine pr_phaseA_mono t _ j ?_
          unfold stepA
          rw [if_neg h1, if_pos h2]
          exact List.mem_append_right _ (by simp)
        · right
          rw [hphase, hasRecompute_phaseA]
          show hasRecompute (stepA start j).1 j = false
          unfold stepA
          rw [if_neg h1, if_neg h2]
          exact (Bool.not_eq_true _) ▸ h2
    · rw [hphase]
      exact ih (stepA start j0) j hj

theorem snapshotB :
    ∀ (snap : List NodeId) (start : Sys × List NodeId) (j : NodeId), j ∈ snap →
      (j ∈ start.2 ∨ hasRecompute start.1 j = false) → j ∈ (phaseB snap start).2 := by
  intro snap
  induction snap with
  | nil => intro start j hj _; exact absurd hj (List.not_mem_nil j)
  | cons j0 t ih =>
    intro start j hj hyp
    have hphase : phaseB (j0 :: t) start = phaseB t (stepB start j0) := rfl
    rcases List.mem_cons.mp hj with hj | hj
    · subst hj
      rcases hyp with hin | hrec
      · rw [hphase]
        exact pr_phaseB_mono t _ j (pr_stepB_mono start j j hin)
      · by_cases h1 : j ∈ start.2
        · rw [hphase]
          exact pr_phaseB_mono t _ j (pr_stepB_mono start j j h1)
        · rw [hphase]
          refine pr_phaseB_mono t _ j ?_
          unfold stepB
          rw [if_neg h1, if_neg (by rw [hrec]; exact Bool.false_ne_true)]
          exact List.mem_append_right _ (by simp)
    · rw [hphase]
      refine ih (stepB start j0) j hj ?_
      rcases hyp with hin | hrec
      · exact Or.inl (pr_stepB_mono start j0 j hin)
      · right
        rw [hasRecompute_of_KSO (obsKSO_stepB start j0 j)]
        exact hrec

/-- Every node of the snapshot is processed by the end of the wave. -/
theorem wave_processes (s : Sys) (pr : List NodeId) (j : NodeId) (hj : j ∈ s.pending) :
    j ∈ (wave s pr).2 := by
  unfold wave
  rcases snapshotA s.pending ({ s with pending := [] }, pr) j hj with h | h
  · exact pr_phaseB_mono _ _ j h
  · exact snapshotB s.pending _ j hj (Or.inr h)

/-! Counting subscriber calls in a log. -/

theorem callCount_append (l1 l2 : List Note) (i : NodeId) (sb : Nat) :
    callCount (l1 ++ l2) i sb = callCount l1 i sb + callCount l2 i sb := by
  unfold callCount
  rw [List.filter_append, List.length_append]

theorem callCount_via_notesFrom (t : List Note) (i : NodeId) (sb : Nat) :
    callCount t i sb = callCount (notesFrom t i) i sb := by
  induction t with
  | nil => rfl
  | cons e r ih =>
    unfold callCount notesFrom at ih ⊢
    cases hn : (e.node == i) <;> cases hs : (e.sub == sb) <;>
      simp [List.filter_cons, hn, hs] <;> simpa [List.filter_cons, hn, hs] using ih

theorem callCount_batch (i : NodeId) (L : List Nat) (v : JVal) (sb : Nat) :
    callCount (noteBatch i L v) i sb = (L.filter (fun x => x == sb)).length := by
  induction L with
  | nil => rfl
  | cons a r ih =>
    cases hs : (a == sb) <;>
      simp [callCount, noteBatch, List.filter_cons, hs] <;>
      simpa [callCount, noteBatch, List.filter_cons, hs] using ih

theorem filter_beq_nil {r : List Nat} {sb : Nat} (h : sb ∉ r) :
    r.filter (fun x => x == sb) = [] := by
  induction r with
  | nil => rfl
  | cons a t ih =>
    have ha : (a == sb) = false := by
      apply beq_eq_false_iff_ne.mpr
      intro hc
      exact h (hc ▸ List.mem_cons_self a t)
    rw [List.filter_cons, ha, ih (fun hc => h (List.mem_cons_of_mem a hc))]
    rfl

theorem filter_beq_count {L : List Nat} (h : L.Nodup) (sb : Nat) :
    (L.filter (fun x => x == sb)).length = if sb ∈ L then 1 else 0 := by
  induction L with
  | nil => rfl
  | cons a r ih =>
    rw [List.nodup_cons] at h
    by_cases ha : a = sb
    · subst ha
      rw [List.filter_cons, filter_beq_nil h.1, if_pos (by simp),
        if_pos (List.mem_cons_self a r)]
      rfl
    · have hb : (a == sb) = false := beq_eq_false_iff_ne.mpr ha
      rw [List.filter_cons, hb, if_neg Bool.false_ne_true, ih h.2]
      by_cases hm : sb ∈ r
      · rw [if_pos hm, if_pos (List.mem_cons_of_mem a hm)]
      · rw [if_neg hm, if_neg (by
          intro hc
          rcases List.mem_cons.mp hc with hc | hc
          · exact ha hc.symm
          · exact hm hc)]

/-- C5: within one flush every node is processed at most once. In general:
over a whole flush, a node whose subscriber list is duplicate-free calls any
given subscriber at most one more time than the log already recorded before
the flush. In the concrete diamond (plain root 0, computed nodes 1 and 2
each reading the root, computed node 3 reading both, subscriber 100 on
node 3), a single write to the root makes the flush call node 3's
subscriber exactly once — not once per path: the log grows from one call
(the immediate call made at subscribe time) to exactly two. -/
theorem flush_at_most_once (s : Sys) (fuel : Nat) (i : NodeId) (sb : Nat)
    (hnd : (subsOf s i).Nodup) :
    callCount (processPendingStates fuel s).log i sb ≤ callCount s.log i sb + 1 ∧
    (callCount sysDFl.log 3 100 = callCount sysDSet.log 3 100 + 1 ∧
      callCount sysDSet.log 3 100 = 1) := by
  constructor
  · have hInv0 : noteInv i (subsOf s i) s.log ({ s with isProcessing := false }, []) :=
      ⟨rfl, [], (List.append_nil s.log).symm, Or.inl ⟨List.not_mem_nil i, rfl⟩⟩
    obtain ⟨hsubs, t, hlog, hbr⟩ :=
      noteInv_flushLoop i (subsOf s i) s.log fuel { s with isProcessing := false } [] hInv0
    show callCount (flushLoop fuel { s with isProcessing := false } []).1.log i sb ≤ _
    rw [hlog, callCount_append]
    rcases hbr with ⟨_, hnil⟩ | ⟨_, v, hbatch, _⟩
    · rw [callCount_via_notesFrom t i sb, hnil]
      exact Nat.add_le_add_left (Nat.zero_le 1) _
    · rw [callCount_via_notesFrom t i sb, hbatch, callCount_batch, filter_beq_count hnd]
      by_cases hm : sb ∈ subsOf s i
      · rw [if_pos hm]
      · rw [if_neg hm]
        exact Nat.add_le_add_left (Nat.zero_le 1) _
  · exact ⟨by decide, by decide⟩

/-- Witness for C5 at the diamond fixture: node 3's subscriber list is
duplicate-free and the flush adds at most one call. -/
theorem flush_at_most_once_witness :
    (subsOf sysDSet 3).Nodup ∧
    callCount (processPendingStates 10 sysDSet).log 3 100
      ≤ callCount sysDSet.log 3 100 + 1 :=
  ⟨by decide, (flush_at_most_once sysDSet 10 3 100 (by decide)).1⟩

/-- C4: for a plain node, set with a value reference-identical to the stored
one is a complete no-op — the whole engine state is unchanged, so there is
no value change, no pending mark and no notification. Set with a distinct
value stores a fresh clone of it, and a flush with fuel left appends exactly
one batch of notes from the node: one call per entry of its subscriber list,
in order, carrying the stored clone; with a duplicate-free subscriber list
each subscriber is called exactly once, and the clone's object content after
the flush still equals the content of the written value (deep equality). -/
theorem plain_set_noop_and_notify (s : Sys) (i : NodeId) (n : Node) (v : JVal)
    (fuel : Nat) (hg : getN s i = some n) (hk : n.kind = NodeKind.plain) :
    (n.value = v → plainSet s i v = s) ∧
    (n.value ≠ v → 1 ≤ fuel →
      ∃ t, (processPendingStates fuel (plainSet s i v)).log = s.log ++ t ∧
        notesFrom t i = noteBatch i n.subscribers (cloneVal s v).2 ∧
        (n.subscribers.Nodup → ∀ sb ∈ n.subscribers, callCount t i sb = 1) ∧
        contentOf (processPendingStates fuel (plainSet s i v)) (cloneVal s v).2
          = contentOf s v) := by
  constructor
  · intro hvv
    simp only [plainSet, hg, if_pos hvv]
  · intro hne hfuel
    obtain ⟨f, rfl⟩ : ∃ f, fuel = f + 1 := ⟨fuel - 1, by omega⟩
    have heq : plainSet s i v
        = storeMark (cloneVal s v).1 i { n with value := (cloneVal s v).2 } := by
      simp only [plainSet, hg, if_neg hne]
    have hbase : getN (cloneVal s v).1 i = some n := by
      rw [getN_cloneVal]
      exact hg
    have hgs1 : getN (plainSet s i v) i = some { n with value := (cloneVal s v).2 } := by
      rw [heq]
      exact getN_storeMark_self _ i _ hbase
    generalize hS : plainSet s i v = S at hgs1 heq ⊢
    have hsubs2 : subsOf ({ S with isProcessing := false } : Sys) i
        = n.subscribers := by
      show subsOf S i = n.subscribers
      unfold subsOf
      rw [hgs1]
      rfl
    have hk2 : kindOf ({ S with isProcessing := false } : Sys) i
        = some NodeKind.plain := by
      show kindOf S i = some NodeKind.plain
      unfold kindOf
      rw [hgs1]
      show some n.kind = some NodeKind.plain
      rw [hk]
    have hv2 : valueOf ({ S with isProcessing := false } : Sys) i
        = some (cloneVal s v).2 := by
      show valueOf S i = some (cloneVal s v).2
      unfold valueOf
      rw [hgs1]
      rfl
    have hlog2 : ({ S with isProcessing := false } : Sys).log = s.log := by
      show S.log = s.log
      rw [heq, log_storeMark, cloneVal_log]
    have hiP : i ∈ S.pending := by
      rw [heq]
      exact mem_pending_storeMark _ _ _
    have hInv0 : noteInv i n.subscribers s.log
        (({ S with isProcessing := false } : Sys), []) :=
      ⟨hsubs2, [], by rw [List.append_nil]; exact hlog2,
        Or.inl ⟨List.not_mem_nil i, rfl⟩⟩
    obtain ⟨hsubsF, t, hlogF, hbr⟩ :=
      noteInv_flushLoop i n.subscribers s.log (f + 1)
        { S with isProcessing := false } [] hInv0
    have hpne : S.pending.isEmpty = false := by
      cases hp : S.pending with
      | nil => exact absurd (hp ▸ hiP) (List.not_mem_nil i)
      | cons a r => rfl
    have hiFin : i ∈ (flushLoop (f + 1) { S with isProcessing := false } []).2 := by
      show i ∈ (if ({ S with isProcessing := false } : Sys).pending.isEmpty
          then (({ S with isProcessing := false } : Sys), ([] : List NodeId))
          else flushLoop f (wave { S with isProcessing := false } []).1
            (wave { S with isProcessing := false } []).2).2
      rw [if_neg (by
        intro hc
        have hc2 : S.pending.isEmpty = true := hc
        rw [hpne] at hc2
        exact Bool.false_ne_true hc2)]
      exact pr_flushLoop_mono f _ _ i
        (wave_processes { S with isProcessing := false } [] i hiP)
    rcases hbr with ⟨hni, _⟩ | ⟨_, w, hbatch, hplain⟩
    · exact absurd hiFin hni
    · have hkF : kindOf (flushLoop (f + 1) { S with isProcessing := false } []).1 i
          = some NodeKind.plain := by
        rw [kindOf_of_KSO (obsKSO_flushLoop (f + 1) { S with isProcessing := false } [] i)]
        exact hk2
      have hw1 := hplain hkF
      have hw2 : valueOf (flushLoop (f + 1) { S with isProcessing := false } []).1 i
          = some (cloneVal s v).2 := by
        rw [plainVal_flushLoop (f + 1) _ [] i hk2]
        exact hv2
      have hweq : w = (cloneVal s v).2 := Option.some.inj (hw1.symm.trans hw2)
      refine ⟨t, hlogF, ?_, ?_, ?_⟩
      · rw [hbatch, hweq]
      · intro hnd sb hsb
        rw [callCount_via_notesFrom, hbatch, callCount_batch, filter_beq_count hnd,
          if_pos hsb]
      · have hext := heapExtends_flushLoop (f + 1) { S with isProcessing := false } []
        cases v with
        | undef => rfl
        | prim m => rfl
        | ref a =>
          have hS2heap : ({ S with isProcessing := false } : Sys).heap
              = s.heap ++ [heapAt s a] := by
            show S.heap = s.heap ++ [heapAt s a]
            rw [heq, heap_storeMark]
            rfl
          have hlt : s.heap.length
              < ({ S with isProcessing := false } : Sys).heap.length := by
            rw [hS2heap, List.length_append, List.length_singleton]
            omega
          show heapAt (flushLoop (f + 1) { S with isProcessing := false } []).1
              s.heap.length = heapAt s a
          rw [heapAt_of_extends hext hlt]
          show (({ S with isProcessing := false } : Sys).heap[s.heap.length]?).getD []
            = heapAt s a
          rw [hS2heap, getElem?_concat_len]
          rfl

/-- Witness for C4 at the one-node fixture: node 0 is a plain node holding
the primitive 0 with subscriber 7; setting the same primitive is a no-op
and setting 3 makes the flush emit exactly the one-note batch for
subscriber 7 carrying 3. -/
theorem plain_set_noop_and_notify_witness :
    plainSet sysNSub 0 (JVal.prim 0) = sysNSub ∧
    ∃ t, (processPendingStates 1 (plainSet sysNSub 0 (JVal.prim 3))).log
        = sysNSub.log ++ t ∧
      notesFrom t 0 = noteBatch 0 [7] (JVal.prim 3) ∧
      callCount t 0 7 = 1 := by
  have hg : getN sysNSub 0 = some
      { kind := NodeKind.plain, value := JVal.prim 0, subscribers := [7],
        dependents := [], dependencies := [], lastDeps := [],
        manualOverride := none, compute := CExp.ret JVal.undef } := rfl
  have h0 := plain_set_noop_and_notify sysNSub 0 _ (JVal.prim 0) 1 hg rfl
  have h3 := plain_set_noop_and_notify sysNSub 0 _ (JVal.prim 3) 1 hg rfl
  obtain ⟨t, ht1, ht2, ht3, _⟩ := h3.2 (by decide) (by decide)
  exact ⟨h0.1 rfl, t, ht1, ht2, ht3 (by decide) 7 (by decide)⟩

/-! Termination of the flush loop: structure of the processed list, validity
bounds, and the wave measure. -/

theorem nodup_bound_length {l : List Nat} (hnd : l.Nodup) {N : Nat}
    (hb : ∀ x ∈ l, x < N) : l.length ≤ N := by
  have h1 : l.toFinset ⊆ Finset.range N :=
    fun x hx => Finset.mem_range.mpr (hb x (List.mem_toFinset.mp hx))
  have h2 := Finset.card_le_card h1
  rw [List.toFinset_card_of_nodup hnd, Finset.card_range] at h2
  exact h2

theorem nodup_concat {l : List Nat} {j : Nat} (h : l.Nodup) (hj : j ∉ l) :
    (l ++ [j]).Nodup := by
  rw [List.nodup_append]
  refine ⟨h, List.nodup_singleton j, ?_⟩
  intro a ha hb
  rw [List.mem_singleton] at hb
  exact hj (hb ▸ ha)

theorem getN_congr_nodes {a s : Sys} (h : a.nodes = s.nodes) (i : NodeId) :
    getN a i = getN s i := by
  unfold getN
  rw [h]

theorem nodesLen_stepA (acc : Sys × List NodeId) (j : NodeId) :
    (stepA acc j).1.nodes.length = acc.1.nodes.length := by
  unfold stepA
  by_cases h1 : j ∈ acc.2
  · rw [if_pos h1]
  · rw [if_neg h1]
    by_cases h2 : hasRecompute acc.1 j
    · rw [if_pos h2]
      show (notifyAll (recomputeOp acc.1 j) j).nodes.length = _
      rw [nodes_notifyAll]
      exact (tame_recomputeOp acc.1 j).2.1
    · rw [if_neg h2]

theorem nodesLen_stepB (acc : Sys × List NodeId) (j : NodeId) :
    (stepB acc j).1.nodes.length = acc.1.nodes.length := by
  unfold stepB
  by_cases h1 : j ∈ acc.2
  · rw [if_pos h1]
  · rw [if_neg h1]
    by_cases h2 : hasRecompute acc.1 j
    · rw [if_pos h2]
    · rw [if_neg h2]
      show (notifyAll acc.1 j).nodes.length = _
      rw [nodes_notifyAll]

theorem pr_stepA_struct (acc : Sys × List NodeId) (j : NodeId) :
    (stepA acc j).2 = acc.2 ∨ ((stepA acc j).2 = acc.2 ++ [j] ∧ j ∉ acc.2) := by
  unfold stepA
  by_cases h1 : j ∈ acc.2
  · rw [if_pos h1]
    exact Or.inl rfl
  · rw [if_neg h1]
    by_cases h2 : hasRecompute acc.1 j
    · rw [if_pos h2]
      exact Or.inr ⟨rfl, h1⟩
    · rw [if_neg h2]
      exact Or.inl rfl

theorem pr_stepB_struct (acc : Sys × List NodeId) (j : NodeId) :
    (stepB acc j).2 = acc.2 ∨ ((stepB acc j).2 = acc.2 ++ [j] ∧ j ∉ acc.2) := by
  unfold stepB
  by_cases h1 : j ∈ acc.2
  · rw [if_pos h1]
    exact Or.inl rfl
  · rw [if_neg h1]
    by_cases h2 : hasRecompute acc.1 j
    · rw [if_pos h2]
      exact Or.inl rfl
    · rw [if_neg h2]
      exact Or.inr ⟨rfl, h1⟩

theorem pr_phaseA_ext (snap : List NodeId) :
    ∀ (start : Sys × List NodeId), ∃ e, (phaseA snap start).2 = start.2 ++ e := by
  induction snap with
  | nil => exact fun start => ⟨[], (List.append_nil _).symm⟩
  | cons j t ih =>
    intro start
    obtain ⟨e, he⟩ := ih (stepA start j)
    show ∃ e, (phaseA t (stepA start j)).2 = start.2 ++ e
    rcases pr_stepA_struct start j with h | ⟨h, _⟩
    · exact ⟨e, by rw [he, h]⟩
    · exact ⟨[j] ++ e, by rw [he, h, List.append_assoc]⟩

theorem pr_phaseB_ext (snap : List NodeId) :
    ∀ (start : Sys × List NodeId), ∃ e, (phaseB snap start).2 = start.2 ++ e := by
  induction snap with
  | nil => exact fun start => ⟨[], (List.append_nil _).symm⟩
  | cons j t ih =>
    intro start
    obtain ⟨e, he⟩ := ih (stepB start j)
    show ∃ e, (phaseB t (stepB start j)).2 = start.2 ++ e
    rcases pr_stepB_struct start j with h | ⟨h, _⟩
    · exact ⟨e, by rw [he, h]⟩
    · exact ⟨[j] ++ e, by rw [he, h, List.append_assoc]⟩

theorem pr_wave_ext (s : Sys) (pr : List NodeId) :
    ∃ e, (wave s pr).2 = pr ++ e := by
  obtain ⟨e1, h1⟩ := pr_phaseA_ext s.pending ({ s with pending := [] }, pr)
  obtain ⟨e2, h2⟩ :=
    pr_phaseB_ext s.pending (phaseA s.pending ({ s with pending := [] }, pr))
  refine ⟨e1 ++ e2, ?_⟩
  show (phaseB s.pending (phaseA s.pending ({ s with pending := [] }, pr))).2 = pr ++ (e1 ++ e2)
  rw [h2, h1, List.append_assoc]

theorem pr_phaseA_wf (N : Nat) (snap : List NodeId) (hs : ∀ j ∈ snap, j < N)
    (start : Sys × List NodeId) (h : start.2.Nodup ∧ ∀ x ∈ start.2, x < N) :
    (phaseA snap start).2.Nodup ∧ ∀ x ∈ (phaseA snap start).2, x < N := by
  unfold phaseA
  refine foldl_inv
    (P := fun acc : Sys × List NodeId => acc.2.Nodup ∧ ∀ x ∈ acc.2, x < N)
    stepA snap start h ?_
  intro a b hb ha
  rcases pr_stepA_struct a b with he | ⟨he, hnb⟩
  · exact ⟨by rw [he]; exact ha.1, fun x hx => ha.2 x (by rw [he] at hx; exact hx)⟩
  · refine ⟨by rw [he]; exact nodup_concat ha.1 hnb, fun x hx => ?_⟩
    rw [he] at hx
    rcases List.mem_append.mp hx with hx | hx
    · exact ha.2 x hx
    · rw [List.mem_singleton] at hx
      exact hx ▸ hs b hb

theorem pr_phaseB_wf (N : Nat) (snap : List NodeId) (hs : ∀ j ∈ snap, j < N)
    (start : Sys × List NodeId) (h : start.2.Nodup ∧ ∀ x ∈ start.2, x < N) :
    (phaseB snap start).2.Nodup ∧ ∀ x ∈ (phaseB snap start).2, x < N := by
  unfold phaseB
  refine foldl_inv
    (P := fun acc : Sys × List NodeId => acc.2.Nodup ∧ ∀ x ∈ acc.2, x < N)
    stepB snap start h ?_
  intro a b hb ha
  rcases pr_stepB_struct a b with he | ⟨he, hnb⟩
  · exact ⟨by rw [he]; exact ha.1, fun x hx => ha.2 x (by rw [he] at hx; exact hx)⟩
  · refine ⟨by rw [he]; exact nodup_concat ha.1 hnb, fun x hx => ?_⟩
    rw [he] at hx
    rcases List.mem_append.mp hx with hx | hx
    · exact ha.2 x hx
    · rw [List.mem_singleton] at hx
      exact hx ▸ hs b hb

theorem pending_stepA_sub (acc : Sys × List NodeId) (j : NodeId) (x : NodeId)
    (hx : x ∈ (stepA acc j).1.pending) : x ∈ acc.1.pending ∨ x = j := by
  unfold stepA at hx
  by_cases h1 : j ∈ acc.2
  · rw [if_pos h1] at hx
    exact Or.inl hx
  · rw [if_neg h1] at hx
    by_cases h2 : hasRecompute acc.1 j
    · rw [if_pos h2] at hx
      rw [pending_notifyAll] at hx
      rcases (tame_recomputeOp acc.1 j).2.2.1 with hpe | hpe
      · rw [hpe] at hx
        exact Or.inl hx
      · rw [hpe] at hx
        exact mem_setAdd.mp hx
    · rw [if_neg h2] at hx
      exact Or.inl hx

theorem pending_stepB (acc : Sys × List NodeId) (j : NodeId) :
    (stepB acc j).1.pending = acc.1.pending := by
  unfold stepB
  by_cases h1 : j ∈ acc.2
  · rw [if_pos h1]
  · rw [if_neg h1]
    by_cases h2 : hasRecompute acc.1 j
    · rw [if_pos h2]
    · rw [if_neg h2]
      show (notifyAll acc.1 j).pending = _
      rw [pending_notifyAll]

theorem pending_phaseA_bound (N : Nat) (snap : List NodeId) (hs : ∀ j ∈ snap, j < N)
    (start : Sys × List NodeId) (h0 : ∀ x ∈ start.1.pending, x < N) :
    ∀ x ∈ (phaseA snap start).1.pending, x < N := by
  unfold phaseA
  refine foldl_inv
    (P := fun acc : Sys × List NodeId => ∀ x ∈ acc.1.pending, x < N)
    stepA snap start h0 ?_
  intro a b hb ha x hx
  rcases pending_stepA_sub a b x hx with h | h
  · exact ha x h
  · exact h ▸ hs b hb

theorem pending_phaseB_eq (snap : List NodeId) (start : Sys × List NodeId) :
    (phaseB snap start).1.pending = start.1.pending := by
  unfold phaseB
  refine foldl_inv
    (P := fun acc : Sys × List NodeId => acc.1.pending = start.1.pending)
    stepB snap start rfl ?_
  intro a b _ ha
  rw [pending_stepB a b]
  exact ha

theorem deps_stepA_sub (acc : Sys × List NodeId) (j : NodeId) (k d : NodeId)
    (hd : d ∈ dependentsOf (stepA acc j).1 k) :
    d ∈ dependentsOf acc.1 k ∨ d = j := by
  unfold stepA at hd
  by_cases h1 : j ∈ acc.2
  · rw [if_pos h1] at hd
    exact Or.inl hd
  · rw [if_neg h1] at hd
    by_cases h2 : hasRecompute acc.1 j
    · rw [if_pos h2] at hd
      have he : dependentsOf (notifyAll (recomputeOp acc.1 j) j) k
          = dependentsOf (recomputeOp acc.1 j) k := by
        unfold dependentsOf
        rw [getN_congr_nodes (nodes_notifyAll (recomputeOp acc.1 j) j) k]
      rw [he] at hd
      exact (tame_recomputeOp acc.1 j).2.2.2.2.2.2 k d hd
    · rw [if_neg h2] at hd
      exact Or.inl hd

theorem deps_stepB_eq (acc : Sys × List NodeId) (j k : NodeId) :
    dependentsOf (stepB acc j).1 k = dependentsOf acc.1 k := by
  unfold stepB
  by_cases h1 : j ∈ acc.2
  · rw [if_pos h1]
  · rw [if_neg h1]
    by_cases h2 : hasRecompute acc.1 j
    · rw [if_pos h2]
    · rw [if_neg h2]
      show dependentsOf (notifyAll acc.1 j) k = _
      unfold dependentsOf
      rw [getN_congr_nodes (nodes_notifyAll acc.1 j) k]

theorem deps_phaseA_bound (N : Nat) (snap : List NodeId) (hs : ∀ j ∈ snap, j < N)
    (start : Sys × List NodeId) (h0 : ∀ k, ∀ d ∈ dependentsOf start.1 k, d < N) :
    ∀ k, ∀ d ∈ dependentsOf (phaseA snap start).1 k, d < N := by
  unfold phaseA
  refine foldl_inv
    (P := fun acc : Sys × List NodeId => ∀ k, ∀ d ∈ dependentsOf acc.1 k, d < N)
    stepA snap start h0 ?_
  intro a b hb ha k d hd
  rcases deps_stepA_sub a b k d hd with h | h
  · exact ha k d h
  · exact h ▸ hs b hb

theorem deps_phaseB_eq (snap : List NodeId) (start : Sys × List NodeId) (k : NodeId) :
    dependentsOf (phaseB snap start).1 k = dependentsOf start.1 k := by
  unfold phaseB
  refine foldl_inv
    (P := fun acc : Sys × List NodeId => ∀ q, dependentsOf acc.1 q = dependentsOf start.1 q)
    stepB snap start (fun q => rfl) ?_ k
  intro a b _ ha q
  rw [deps_stepB_eq a b q]
  exact ha q

theorem mem_pending_enqueue (s : Sys) (pr : List NodeId) (x : NodeId)
    (hx : x ∈ (enqueueDependents s pr).pending) :
    x ∈ s.pending ∨ (x ∉ pr ∧ ∃ p, x ∈ dependentsOf s p) := by
  unfold enqueueDependents at hx
  have H := foldl_inv
    (P := fun acc : Sys => acc.nodes = s.nodes ∧
      ∀ y ∈ acc.pending, y ∈ s.pending ∨ (y ∉ pr ∧ ∃ q, y ∈ dependentsOf s q))
    (fun acc p =>
      match getN acc p with
      | none => acc
      | some n =>
        n.dependents.foldl
          (fun acc2 d => if d ∈ pr then acc2
            else { acc2 with pending := setAdd acc2.pending d }) acc)
    pr s ⟨rfl, fun y hy => Or.inl hy⟩ ?_
  · exact H.2 x hx
  · intro a p _ ha
    show ((match getN a p with
        | none => a
        | some n =>
          n.dependents.foldl
            (fun acc2 d => if d ∈ pr then acc2
              else { acc2 with pending := setAdd acc2.pending d }) a) : Sys).nodes
          = s.nodes ∧
      ∀ y ∈ ((match getN a p with
        | none => a
        | some n =>
          n.dependents.foldl
            (fun acc2 d => if d ∈ pr then acc2
              else { acc2 with pending := setAdd acc2.pending d }) a) : Sys).pending,
        y ∈ s.pending ∨ (y ∉ pr ∧ ∃ q, y ∈ dependentsOf s q)
    cases hg : getN a p with
    | none => exact ha
    | some n =>
      have hdp : n.dependents = dependentsOf s p := by
        unfold dependentsOf
        rw [← getN_congr_nodes ha.1 p, hg]
        rfl
      refine foldl_inv
        (P := fun acc2 : Sys => acc2.nodes = s.nodes ∧
          ∀ y ∈ acc2.pending, y ∈ s.pending ∨ (y ∉ pr ∧ ∃ q, y ∈ dependentsOf s q))
        _ n.dependents a ha ?_
      intro y d hd hy
      by_cases hdpr : d ∈ pr
      · show (if d ∈ pr then y else { y with pending := setAdd y.pending d }).nodes
            = s.nodes ∧
          ∀ z ∈ (if d ∈ pr then y
            else { y with pending := setAdd y.pending d }).pending,
            z ∈ s.pending ∨ (z ∉ pr ∧ ∃ q, z ∈ dependentsOf s q)
        rw [if_pos hdpr]
        exact hy
      · show (if d ∈ pr then y else { y with pending := setAdd y.pending d }).nodes
            = s.nodes ∧
          ∀ z ∈ (if d ∈ pr then y
            else { y with pending := setAdd y.pending d }).pending,
            z ∈ s.pending ∨ (z ∉ pr ∧ ∃ q, z ∈ dependentsOf s q)
        rw [if_neg hdpr]
        refine ⟨hy.1, fun z hz => ?_⟩
        rcases mem_setAdd.mp hz with hz | hz
        · exact hy.2 z hz
        · exact Or.inr ⟨hz ▸ hdpr, p, hz ▸ (hdp ▸ hd)⟩

theorem phaseA_skip (snap : List NodeId) :
    ∀ (start : Sys × List NodeId), (∀ j ∈ snap, j ∈ start.2) →
      phaseA snap start = start := by
  induction snap with
  | nil => exact fun start _ => rfl
  | cons j t ih =>
    intro start hall
    have h1 : stepA start j = start := by
      unfold stepA
      rw [if_pos (hall j (List.mem_cons_self j t))]
    show phaseA t (stepA start j) = start
    rw [h1]
    exact ih start (fun x hx => hall x (List.mem_cons_of_mem j hx))

theorem phaseB_skip (snap : List NodeId) :
    ∀ (start : Sys × List NodeId), (∀ j ∈ snap, j ∈ start.2) →
      phaseB snap start = start := by
  induction snap with
  | nil => exact fun start _ => rfl
  | cons j t ih =>
    intro start hall
    have h1 : stepB start j = start := by
      unfold stepB
      rw [if_pos (hall j (List.mem_cons_self j t))]
    show phaseB t (stepB start j) = start
    rw [h1]
    exact ih start (fun x hx => hall x (List.mem_cons_of_mem j hx))

theorem wave_wf (s : Sys) (pr : List NodeId) (N : Nat)
    (hnd : pr.Nodup) (hprb : ∀ x ∈ pr, x < N)
    (hpend : ∀ x ∈ s.pending, x < N)
    (hdeps : ∀ k, ∀ d ∈ dependentsOf s k, d < N) :
    (wave s pr).2.Nodup ∧ (∀ x ∈ (wave s pr).2, x < N) ∧
    (∀ x ∈ (wave s pr).1.pending, x < N) ∧
    (∀ k, ∀ d ∈ dependentsOf (wave s pr).1 k, d < N) := by
  have hA := pr_phaseA_wf N s.pending hpend ({ s with pending := [] }, pr) ⟨hnd, hprb⟩
  have hB := pr_phaseB_wf N s.pending hpend
    (phaseA s.pending ({ s with pending := [] }, pr)) hA
  have hdepsA := deps_phaseA_bound N s.pending hpend ({ s with pending := [] }, pr)
    (fun k d hd => hdeps k d hd)
  have hdepsB : ∀ k, ∀ d ∈ dependentsOf
      (phaseB s.pending (phaseA s.pending ({ s with pending := [] }, pr))).1 k, d < N := by
    intro k d hd
    rw [deps_phaseB_eq] at hd
    exact hdepsA k d hd
  have hpendA := pending_phaseA_bound N s.pending hpend ({ s with pending := [] }, pr)
    (fun x hx => absurd hx (List.not_mem_nil x))
  have hpendB : ∀ x ∈
      (phaseB s.pending (phaseA s.pending ({ s with pending := [] }, pr))).1.pending,
      x < N := by
    intro x hx
    rw [pending_phaseB_eq] at hx
    exact hpendA x hx
  refine ⟨hB.1, hB.2, ?_, ?_⟩
  · intro x hx
    have hx2 : x ∈ (enqueueDependents
        (phaseB s.pending (phaseA s.pending ({ s with pending := [] }, pr))).1
        (phaseB s.pending (phaseA s.pending ({ s with pending := [] }, pr))).2).pending := hx
    rcases mem_pending_enqueue _ _ x hx2 with h | ⟨_, q, hq⟩
    · exact hpendB x h
    · exact hdepsB q x hq
  · intro k d hd
    have hd2 : d ∈ dependentsOf (enqueueDependents
        (phaseB s.pending (phaseA s.pending ({ s with pending := [] }, pr))).1
        (phaseB s.pending (phaseA s.pending ({ s with pending := [] }, pr))).2) k := hd
    have he : dependentsOf (enqueueDependents
        (phaseB s.pending (phaseA s.pending ({ s with pending := [] }, pr))).1
        (phaseB s.pending (phaseA s.pending ({ s with pending := [] }, pr))).2) k
        = dependentsOf
          (phaseB s.pending (phaseA s.pending ({ s with pending := [] }, pr))).1 k := by
      unfold dependentsOf
      rw [getN_congr_nodes (enqueue_frame _ _).1 k]
    rw [he] at hd2
    exact hdepsB k d hd2

/-- A wave whose snapshot holds an unprocessed node strictly grows the
processed list. -/
theorem wave_grows (s : Sys) (pr : List NodeId) (j : NodeId)
    (hj : j ∈ s.pending) (hnj : j ∉ pr) :
    pr.length + 1 ≤ (wave s pr).2.length := by
  obtain ⟨e, he⟩ := pr_wave_ext s pr
  have hjw : j ∈ (wave s pr).2 := wave_processes s pr j hj
  rw [he] at hjw
  rcases List.mem_append.mp hjw with h | h
  · exact absurd h hnj
  · cases e with
    | nil => exact absurd h (List.not_mem_nil j)
    | cons a t =>
      rw [he, List.length_append, List.length_cons]
      omega

/-- A wave whose snapshot is wholly processed changes nothing except the
pending set, which it refills with unprocessed dependents only. -/
theorem wave_stalled (s : Sys) (pr : List NodeId)
    (hall : ∀ j ∈ s.pending, j ∈ pr) :
    (wave s pr).2 = pr ∧ ∀ x ∈ (wave s pr).1.pending, x ∉ pr := by
  have hA : phaseA s.pending ({ s with pending := [] }, pr)
      = ({ s with pending := [] }, pr) :=
    phaseA_skip s.pending _ hall
  have hB : phaseB s.pending ({ s with pending := [] }, pr)
      = ({ s with pending := [] }, pr) :=
    phaseB_skip s.pending _ hall
  constructor
  · show (phaseB s.pending (phaseA s.pending ({ s with pending := [] }, pr))).2 = pr
    rw [hA, hB]
  · intro x hx
    have hx2 : x ∈ (enqueueDependents
        (phaseB s.pending (phaseA s.pending ({ s with pending := [] }, pr))).1
        (phaseB s.pending (phaseA s.pending ({ s with pending := [] }, pr))).2).pending := hx
    rw [hA, hB] at hx2
    rcases mem_pending_enqueue _ _ x hx2 with h | ⟨hnp, _⟩
    · exact absurd h (List.not_mem_nil x)
    · exact hnp

theorem isEmpty_eq_nil {l : List NodeId} (h : l.isEmpty = true) : l = [] := by
  cases l with
  | nil => rfl
  | cons a t => exact Bool.noConfusion h

theorem flushLoop_of_empty (fuel : Nat) (s : Sys) (pr : List NodeId)
    (h : s.pending = []) : flushLoop fuel s pr = (s, pr) := by
  cases fuel with
  | zero => rfl
  | succ f =>
    show (if s.pending.isEmpty then (s, pr) else
      flushLoop f (wave s pr).1 (wave s pr).2) = (s, pr)
    rw [h]
    rfl

theorem flushLoop_empties :
    ∀ (fuel : Nat) (s : Sys) (pr : List NodeId) (N : Nat),
      pr.Nodup → (∀ x ∈ pr, x < N) →
      (∀ x ∈ s.pending, x < N) → (∀ k, ∀ d ∈ dependentsOf s k, d < N) →
      flushMeasure N s pr ≤ fuel →
      (flushLoop fuel s pr).1.pending = [] := by
  intro fuel
  induction fuel with
  | zero =>
    intro s pr N hnd hprb hpend hdeps hm
    have hple : pr.length ≤ N := nodup_bound_length hnd hprb
    unfold flushMeasure at hm
    by_cases hi : ∀ x ∈ s.pending, x ∈ pr
    · rw [if_pos hi] at hm
      exact absurd hm (by omega)
    · rw [if_neg hi] at hm
      exact absurd hm (by omega)
  | succ f ih =>
    intro s pr N hnd hprb hpend hdeps hm
    show (if s.pending.isEmpty then (s, pr) else
      flushLoop f (wave s pr).1 (wave s pr).2).1.pending = []
    by_cases hp : s.pending.isEmpty
    · rw [if_pos hp]
      exact isEmpty_eq_nil hp
    · rw [if_neg hp]
      obtain ⟨hnd2, hprb2, hpend2, hdeps2⟩ := wave_wf s pr N hnd hprb hpend hdeps
      cases hpn : (wave s pr).1.pending with
      | nil =>
        rw [flushLoop_of_empty f (wave s pr).1 (wave s pr).2 hpn]
        exact hpn
      | cons a t =>
        apply ih (wave s pr).1 (wave s pr).2 N hnd2 hprb2 hpend2 hdeps2
        by_cases hall : ∀ j ∈ s.pending, j ∈ pr
        · obtain ⟨hpreq, hout⟩ := wave_stalled s pr hall
          have hind2 : ¬(∀ x ∈ (wave s pr).1.pending, x ∈ (wave s pr).2) := by
            intro hc
            have ha1 : a ∈ (wave s pr).1.pending := by
              rw [hpn]
              exact List.mem_cons_self a t
            have hc2 := hc a ha1
            rw [hpreq] at hc2
            exact (hout a ha1) hc2
          unfold flushMeasure at hm ⊢
          rw [if_pos hall] at hm
          rw [if_neg hind2, hpreq]
          omega
        · have hex : ∃ j ∈ s.pending, j ∉ pr := by
            push_neg at hall
            exact hall
          obtain ⟨j, hj, hnj⟩ := hex
          have hgrow := wave_grows s pr j hj hnj
          have hple2 : (wave s pr).2.length ≤ N := nodup_bound_length hnd2 hprb2
          unfold flushMeasure at hm ⊢
          rw [if_neg hall] at hm
          by_cases hi2 : ∀ x ∈ (wave s pr).1.pending, x ∈ (wave s pr).2
          · rw [if_pos hi2]
            omega
          · rw [if_neg hi2]
            omega

/-- C9: one invocation of the flush terminates on every finite node graph,
cyclic dependency graphs included, with a number of waves linear in the node
count: when every pending identifier and every dependent identifier is a
real node, a fuel of twice the node count plus three empties the pending
set — each wave either processes a node not yet in the processed set (the
processed set is duplicate-free and bounded by the node count) or processes
nothing, in which case it refills pending with unprocessed dependents only
and the next wave either progresses or finds pending empty and exits. -/
theorem flush_terminates (s : Sys)
    (hpend : ∀ x ∈ s.pending, x < s.nodes.length)
    (hdeps : ∀ k, k < s.nodes.length →
      ∀ d ∈ dependentsOf s k, d < s.nodes.length) :
    (processPendingStates (2 * s.nodes.length + 3) s).pending = [] := by
  have hdeps2 : ∀ k, ∀ d ∈ dependentsOf s k, d < s.nodes.length := by
    intro k d hd
    by_cases hk : k < s.nodes.length
    · exact hdeps k hk d hd
    · unfold dependentsOf getN at hd
      rw [List.getElem?_eq_none (Nat.le_of_not_lt hk)] at hd
      exact absurd hd (List.not_mem_nil d)
  show (flushLoop (2 * s.nodes.length + 3)
    { s with isProcessing := false } []).1.pending = []
  apply flushLoop_empties (2 * s.nodes.length + 3) { s with isProcessing := false } []
    s.nodes.length List.nodup_nil (fun x hx => absurd hx (List.not_mem_nil x))
    hpend hdeps2
  unfold flushMeasure
  by_cases hi : ∀ x ∈ ({ s with isProcessing := false } : Sys).pending,
      x ∈ ([] : List NodeId)
  · rw [if_pos hi]
    simp only [List.length_nil]
    omega
  · rw [if_neg hi]
    simp only [List.length_nil]
    omega

/-- Witness for C9 at the diamond fixture after the root write: four nodes,
fuel eleven, pending drained. -/
theorem flush_terminates_witness :
    (∀ x ∈ sysDSet.pending, x < sysDSet.nodes.length) ∧
    (processPendingStates (2 * sysDSet.nodes.length + 3) sysDSet).pending = [] :=
  ⟨by decide, flush_terminates sysDSet (by decide) (by decide)⟩

/-! Permanence of the hybrid manual override. -/

theorem hasOverride_mk {s s2 : Sys} {i : NodeId} {k : Key} {v : Int}
    (h : HasOverride s i k v)
    (hget : ∀ n, getN s i = some n → ∃ m, getN s2 i = some m ∧
      m.kind = n.kind ∧ m.value = n.value ∧ m.manualOverride = n.manualOverride)
    (hext : heapExtends s s2) : HasOverride s2 i k v := by
  obtain ⟨n, hg, hk, ⟨ov, hov, hlk⟩, ⟨a, hval, hlt, hheap⟩⟩ := h
  obtain ⟨m, hg2, hk2, hv2, ho2⟩ := hget n hg
  obtain ⟨t, ht⟩ := hext
  refine ⟨m, hg2, by rw [hk2, hk], ⟨ov, by rw [ho2, hov], hlk⟩,
    ⟨a, by rw [hv2, hval], ?_, ?_⟩⟩
  · rw [ht, List.length_append]
    exact Nat.lt_of_lt_of_le hlt (Nat.le_add_right _ _)
  · rw [heapAt_of_extends ⟨t, ht⟩ hlt]
    exact hheap

theorem hasOverride_transport {s s2 : Sys} {i : NodeId} {k : Key} {v : Int}
    (hg : getN s2 i = getN s i) (hext : heapExtends s s2)
    (h : HasOverride s i k v) : HasOverride s2 i k v :=
  hasOverride_mk h (fun n hn => ⟨n, by rw [hg, hn], rfl, rfl, rfl⟩) hext

theorem hasOverride_of_solid {s s2 : Sys} {i : NodeId} {k : Key} {v : Int}
    (hsol : obsSolid s2 i = obsSolid s i) (hext : heapExtends s s2)
    (h : HasOverride s i k v) : HasOverride s2 i k v := by
  refine hasOverride_mk h (fun n hn => ?_) hext
  unfold obsSolid at hsol
  rw [hn] at hsol
  cases hg2 : getN s2 i with
  | none =>
    rw [hg2] at hsol
    exact Option.noConfusion hsol
  | some m =>
    rw [hg2] at hsol
    have hs := Option.some.inj hsol
    unfold nodeSolid at hs
    exact ⟨m, rfl, congrArg (fun t => t.1) hs, congrArg (fun t => t.2.1) hs,
      congrArg (fun t => t.2.2.1) hs⟩

theorem hasOverride_of_core {s s2 : Sys} {i : NodeId} {k : Key} {v : Int}
    (hcore : nodeCore s2 i = nodeCore s i) (hext : heapExtends s s2)
    (h : HasOverride s i k v) : HasOverride s2 i k v := by
  refine hasOverride_mk h (fun n hn => ?_) hext
  obtain ⟨m, hm, hc⟩ := core_step hn hcore
  unfold coreOf at hc
  exact ⟨m, hm, congrArg (fun t => t.1) hc, congrArg (fun t => t.2.1) hc,
    congrArg (fun t => t.2.2.1) hc⟩

theorem hasOverride_getOp (s : Sys) (cc : Option NodeId) (i2 : NodeId) {i : NodeId}
    {k : Key} {v : Int} (h : HasOverride s i k v) :
    HasOverride (getOp s cc i2).1 i k v :=
  hasOverride_of_core (nodeCore_getOp s cc i2 i) (heapExtends_getOp s cc i2) h

theorem hasOverride_subscribeOp (s : Sys) (j : NodeId) (sb : Nat) {i : NodeId}
    {k : Key} {v : Int} (h : HasOverride s i k v) :
    HasOverride (subscribeOp s j sb) i k v := by
  refine hasOverride_mk h (fun n hn => ?_) ?_
  · unfold subscribeOp
    cases hg : getN s j with
    | none => exact ⟨n, hn, rfl, rfl, rfl⟩
    | some m =>
      by_cases hij : i = j
      · subst hij
        have heq : getN (setN s i { m with subscribers := setAdd m.subscribers sb }) i
            = some { m with subscribers := setAdd m.subscribers sb } := by
          unfold setN
          rw [getN_updN_self, hg]
          rfl
        have hnm : n = m := by
          rw [hn] at hg
          exact Option.some.inj hg
        refine ⟨{ m with subscribers := setAdd m.subscribers sb }, heq, ?_, ?_, ?_⟩
        · rw [hnm]
        · rw [hnm]
        · rw [hnm]
      · have heq : getN (setN s j { m with subscribers := setAdd m.subscribers sb }) i
            = getN s i := by
          unfold setN
          exact getN_updN_ne s j i _ hij
        exact ⟨n, heq.trans hn, rfl, rfl, rfl⟩
  · refine ⟨[], ?_⟩
    rw [List.append_nil]
    unfold subscribeOp
    cases hg : getN s j <;> rfl

theorem hasOverride_plainSet_ne (s : Sys) (j : NodeId) (w : JVal) {i : NodeId}
    {k : Key} {v : Int} (hji : j ≠ i) (h : HasOverride s i k v) :
    HasOverride (plainSet s j w) i k v := by
  unfold plainSet
  cases hg : getN s j with
  | none => exact h
  | some m =>
    show HasOverride (if m.value = w then s
      else storeMark (cloneVal s w).1 j { m with value := (cloneVal s w).2 }) i k v
    by_cases hvv : m.value = w
    · rw [if_pos hvv]
      exact h
    · rw [if_neg hvv]
      refine hasOverride_transport ?_ ?_ h
      · rw [getN_storeMark_ne _ j _ i (Ne.symm hji), getN_cloneVal]
      · exact heapExtends_trans (cloneVal_heapExtends s w) (heapExtends_storeMark _ _ _)

theorem hasOverride_hybridSet_ne (s : Sys) (j : NodeId) (p : Obj) {i : NodeId}
    {k : Key} {v : Int} (hji : j ≠ i) (h : HasOverride s i k v) :
    HasOverride (hybridSet s j p) i k v := by
  unfold hybridSet
  cases hg : getN s j with
  | none => exact h
  | some m =>
    show HasOverride
      (storeMark (allocObj (cloneVal s m.value).1
          (mergeFields (contentOf (cloneVal s m.value).1 (cloneVal s m.value).2)
            (mergeFields (m.manualOverride.getD []) p))) j
        { m with
          manualOverride := some (mergeFields (m.manualOverride.getD []) p)
          value := JVal.ref (cloneVal s m.value).1.heap.length }) i k v
    refine hasOverride_transport ?_ ?_ h
    · rw [getN_storeMark_ne _ j _ i (Ne.symm hji), getN_allocObj, getN_cloneVal]
    · exact heapExtends_trans (cloneVal_heapExtends s m.value)
        (heapExtends_trans (allocObj_heapExtends _ _) (heapExtends_storeMark _ _ _))

theorem hasOverride_hybridSet_self (s : Sys) (i : NodeId) (p : Obj) (n : Node)
    (hg : getN s i = some n) (hkd : n.kind = NodeKind.hybrid) {k : Key} {w : Int}
    (hm : lookupKey (mergeFields (n.manualOverride.getD []) p) k = some w) :
    HasOverride (hybridSet s i p) i k w := by
  have heq : hybridSet s i p
      = storeMark (allocObj (cloneVal s n.value).1
          (mergeFields (contentOf (cloneVal s n.value).1 (cloneVal s n.value).2)
            (mergeFields (n.manualOverride.getD []) p))) i
        { n with
          manualOverride := some (mergeFields (n.manualOverride.getD []) p)
          value := JVal.ref (cloneVal s n.value).1.heap.length } := by
    simp only [hybridSet, hg]
  have hbase : getN (allocObj (cloneVal s n.value).1
      (mergeFields (contentOf (cloneVal s n.value).1 (cloneVal s n.value).2)
        (mergeFields (n.manualOverride.getD []) p))) i = some n := by
    rw [getN_allocObj, getN_cloneVal]
    exact hg
  have hgfin := getN_storeMark_self _ i
    { n with
      manualOverride := some (mergeFields (n.manualOverride.getD []) p)
      value := JVal.ref (cloneVal s n.value).1.heap.length } hbase
  refine ⟨{ n with
      manualOverride := some (mergeFields (n.manualOverride.getD []) p)
      value := JVal.ref (cloneVal s n.value).1.heap.length },
    by rw [heq]; exact hgfin, ?_, ⟨mergeFields (n.manualOverride.getD []) p, rfl, hm⟩,
    ⟨(cloneVal s n.value).1.heap.length, rfl, ?_, ?_⟩⟩
  · show n.kind = NodeKind.hybrid
    exact hkd
  · rw [heq, heap_storeMark]
    show (cloneVal s n.value).1.heap.length
      < ((cloneVal s n.value).1.heap
          ++ [mergeFields (contentOf (cloneVal s n.value).1 (cloneVal s n.value).2)
            (mergeFields (n.manualOverride.getD []) p)]).length
    rw [List.length_append, List.length_singleton]
    omega
  · rw [heq, heapAt_storeMark, heapAt_allocObj_last, lookupKey_mergeFields, hm]

theorem hasOverride_recomputeH_self (s : Sys) (i : NodeId) {k : Key} {v : Int}
    (h : HasOverride s i k v) : HasOverride (recomputeH s i) i k v := by
  obtain ⟨n, hg, hk, ⟨ov, hov, hlk⟩, _⟩ := h
  obtain ⟨n2, hn2, hcore⟩ := core_step hg (nodeCore_computePass s i n.compute i)
  have hov2 : n2.manualOverride = n.manualOverride := by
    have := congrArg (fun t => t.2.2.1) hcore
    simpa [coreOf] using this
  have hkind2 : n2.kind = n.kind := by
    have := congrArg (fun t => t.1) hcore
    simpa [coreOf] using this
  simp only [recomputeH, hg, hn2, Option.getD_some]
  set P := computePass s i n.compute with hP
  set n3 : Node := if n2.lastDeps = n2.dependencies then n2
    else { n2 with lastDeps := n2.dependencies } with hn3
  have hov3 : n3.manualOverride = some ov := by
    rw [hn3]
    split <;> simp [hov2, hov]
  have hkind3 : n3.kind = n.kind := by
    rw [hn3]
    split <;> simpa using hkind2
  simp only [hov3]
  have hbase : getN (allocObj (cloneVal P.1 P.2).1
      (mergeFields (contentOf (cloneVal P.1 P.2).1 (cloneVal P.1 P.2).2) ov)) i
      = some n2 := by
    rw [getN_allocObj, getN_cloneVal]
    exact hn2
  have hgfin := getN_storeMark_self _ i
    { n3 with
      value := JVal.ref (cloneVal P.1 P.2).1.heap.length
      manualOverride := some ov } hbase
  refine ⟨{ n3 with
      value := JVal.ref (cloneVal P.1 P.2).1.heap.length
      manualOverride := some ov },
    hgfin, ?_, ⟨ov, rfl, hlk⟩, ⟨(cloneVal P.1 P.2).1.heap.length, rfl, ?_, ?_⟩⟩
  · show n3.kind = NodeKind.hybrid
    rw [hkind3, hk]
  · rw [heap_storeMark]
    show (cloneVal P.1 P.2).1.heap.length
      < ((cloneVal P.1 P.2).1.heap
          ++ [mergeFields (contentOf (cloneVal P.1 P.2).1 (cloneVal P.1 P.2).2) ov]).length
    rw [List.length_append, List.length_singleton]
    omega
  · rw [heapAt_storeMark, heapAt_allocObj_last, lookupKey_mergeFields, hlk]

theorem hasOverride_recomputeOp (s : Sys) (j : NodeId) {i : NodeId} {k : Key} {v : Int}
    (h : HasOverride s i k v) : HasOverride (recomputeOp s j) i k v := by
  by_cases hji : j = i
  · subst hji
    obtain ⟨n, hg, hk, hov, hval⟩ := h
    have h2 : HasOverride s j k v := ⟨n, hg, hk, hov, hval⟩
    unfold recomputeOp
    rw [hg]
    show HasOverride (match n.kind with
      | NodeKind.computed => recomputeC s j
      | NodeKind.hybrid => recomputeH s j
      | NodeKind.plain => s) j k v
    rw [hk]
    exact hasOverride_recomputeH_self s j h2
  · exact hasOverride_of_solid
      ((tame_recomputeOp s j).2.2.2.2.2.1 i (fun hc => hji hc.symm))
      (tame_recomputeOp s j).2.2.2.1 h

theorem hasOverride_notifyAll (s : Sys) (j : NodeId) {i : NodeId} {k : Key} {v : Int}
    (h : HasOverride s i k v) : HasOverride (notifyAll s j) i k v :=
  hasOverride_transport (getN_notifyAll s j i)
    ⟨[], by rw [heap_notifyAll, List.append_nil]⟩ h

theorem hasOverride_stepA (acc : Sys × List NodeId) (j : NodeId) {i : NodeId} {k : Key}
    {v : Int} (h : HasOverride acc.1 i k v) : HasOverride (stepA acc j).1 i k v := by
  unfold stepA
  by_cases h1 : j ∈ acc.2
  · rw [if_pos h1]
    exact h
  · rw [if_neg h1]
    by_cases h2 : hasRecompute acc.1 j
    · rw [if_pos h2]
      show HasOverride (notifyAll (recomputeOp acc.1 j) j) i k v
      exact hasOverride_notifyAll _ j (hasOverride_recomputeOp acc.1 j h)
    · rw [if_neg h2]
      exact h

theorem hasOverride_stepB (acc : Sys × List NodeId) (j : NodeId) {i : NodeId} {k : Key}
    {v : Int} (h : HasOverride acc.1 i k v) : HasOverride (stepB acc j).1 i k v := by
  unfold stepB
  by_cases h1 : j ∈ acc.2
  · rw [if_pos h1]
    exact h
  · rw [if_neg h1]
    by_cases h2 : hasRecompute acc.1 j
    · rw [if_pos h2]
      exact h
    · rw [if_neg h2]
      show HasOverride (notifyAll acc.1 j) i k v
      exact hasOverride_notifyAll _ j h

theorem hasOverride_enqueue (s : Sys) (pr : List NodeId) {i : NodeId} {k : Key}
    {v : Int} (h : HasOverride s i k v) : HasOverride (enqueueDependents s pr) i k v :=
  hasOverride_transport (getN_congr_nodes (enqueue_frame s pr).1 i)
    ⟨[], by rw [(enqueue_frame s pr).2.2, List.append_nil]⟩ h

theorem hasOverride_wave (s : Sys) (pr : List NodeId) {i : NodeId} {k : Key} {v : Int}
    (h : HasOverride s i k v) : HasOverride (wave s pr).1 i k v := by
  show HasOverride (enqueueDependents
    (phaseB s.pending (phaseA s.pending ({ s with pending := [] }, pr))).1
    (phaseB s.pending (phaseA s.pending ({ s with pending := [] }, pr))).2) i k v
  apply hasOverride_enqueue
  have hA : HasOverride (phaseA s.pending ({ s with pending := [] }, pr)).1 i k v := by
    unfold phaseA
    exact foldl_inv (P := fun acc : Sys × List NodeId => HasOverride acc.1 i k v)
      stepA s.pending _ h (fun a b _ ha => hasOverride_stepA a b ha)
  unfold phaseB
  exact foldl_inv (P := fun acc : Sys × List NodeId => HasOverride acc.1 i k v)
    stepB s.pending _ hA (fun a b _ ha => hasOverride_stepB a b ha)

theorem hasOverride_flushLoop (i : NodeId) (k : Key) (v : Int) :
    ∀ (fuel : Nat) (s : Sys) (pr : List NodeId), HasOverride s i k v →
      HasOverride (flushLoop fuel s pr).1 i k v := by
  intro fuel
  induction fuel with
  | zero => exact fun s pr h => h
  | succ f ih =>
    intro s pr h
    show HasOverride (if s.pending.isEmpty then (s, pr) else
      flushLoop f (wave s pr).1 (wave s pr).2).1 i k v
    by_cases hp : s.pending.isEmpty
    · rw [if_pos hp]
      exact h
    · rw [if_neg hp]
      exact ih _ _ (hasOverride_wave s pr h)

/-- C10: the hybrid manual override is permanent. A set(patch) whose patch
specifies field k installs the override for k; from then on get() returns a
value whose field k is the override value, and every operation — dependency-
capturing get, subscribe, recompute of any node (the hybrid reapplies the
override on top of the fresh base), set on any other node, a further patch
on this node that leaves k unspecified, and a whole flush — preserves it;
a further patch that does specify k moves the override to the latest value,
so the raw computed base for k is never observable again. -/
theorem hybrid_override_permanence (s : Sys) (i : NodeId) (k : Key) (v : Int) :
    (∀ n p, getN s i = some n → n.kind = NodeKind.hybrid → lookupKey p k = some v →
      HasOverride (hybridSet s i p) i k v) ∧
    (HasOverride s i k v → lookupKey (obsContent s i) k = some v) ∧
    (HasOverride s i k v →
      (∀ c i2, HasOverride (getOp s c i2).1 i k v) ∧
      (∀ j sb, HasOverride (subscribeOp s j sb) i k v) ∧
      (∀ j, HasOverride (recomputeOp s j) i k v) ∧
      (∀ j a, j ≠ i → HasOverride (setOp s j a).1 i k v) ∧
      (∀ p, lookupKey p k = none → HasOverride (hybridSet s i p) i k v) ∧
      (∀ p w, lookupKey p k = some w → HasOverride (hybridSet s i p) i k w) ∧
      (∀ fuel, HasOverride (processPendingStates fuel s) i k v)) := by
  refine ⟨?_, ?_, ?_⟩
  · intro n p hg hkd hp
    refine hasOverride_hybridSet_self s i p n hg hkd ?_
    rw [lookupKey_mergeFields, hp]
  · intro h
    obtain ⟨n, hg, _, _, ⟨a, hval, _, hheap⟩⟩ := h
    rw [obsContent_eq hg, hval]
    exact hheap
  · intro h
    refine ⟨fun c i2 => hasOverride_getOp s c i2 h,
      fun j sb => hasOverride_subscribeOp s j sb h,
      fun j => hasOverride_recomputeOp s j h,
      ?_, ?_, ?_, ?_⟩
    · intro j a hji
      unfold setOp
      cases hg : getN s j with
      | none => exact h
      | some m =>
        obtain ⟨mkind, mval, msub, mdep, mdepc, mld, mov, mcomp⟩ := m
        cases mkind with
        | plain =>
          cases a with
          | val w => exact hasOverride_plainSet_ne s j w hji h
          | patch p => exact h
        | computed => cases a <;> exact h
        | hybrid =>
          cases a with
          | val w => exact h
          | patch p => exact hasOverride_hybridSet_ne s j p hji h
    · intro p hpnone
      obtain ⟨n, hg, hkd, ⟨ov, hov, hlk⟩, _⟩ := h
      refine hasOverride_hybridSet_self s i p n hg hkd ?_
      rw [lookupKey_mergeFields, hpnone]
      show lookupKey (n.manualOverride.getD []) k = some v
      rw [hov]
      exact hlk
    · intro p w hp
      obtain ⟨n, hg, hkd, _, _⟩ := h
      refine hasOverride_hybridSet_self s i p n hg hkd ?_
      rw [lookupKey_mergeFields, hp]
    · intro fuel
      show HasOverride (flushLoop fuel { s with isProcessing := false } []).1 i k v
      exact hasOverride_flushLoop i k v fuel { s with isProcessing := false } [] h

/-- Witness for C10 at the hybrid fixture: set({y:5}) installs the override
for key 1, get() shows 5 at key 1, and it survives a whole flush. -/
theorem hybrid_override_permanence_witness :
    HasOverride sysHSet 0 1 5 ∧
    lookupKey (obsContent sysHSet 0) 1 = some 5 ∧
    HasOverride (processPendingStates 3 sysHSet) 0 1 5 := by
  have h0 : HasOverride sysHSet 0 1 5 :=
    (hybrid_override_permanence sysH.1 0 1 5).1
      { kind := NodeKind.hybrid, value := .ref 2, subscribers := [], dependents := [],
        dependencies := [], lastDeps := [], manualOverride := none,
        compute := .lit [(0, 1), (1, 2)] } [(1, 5)] rfl rfl rfl
  exact ⟨h0, (hybrid_override_permanence sysHSet 0 1 5).2.1 h0,
    ((hybrid_override_permanence sysHSet 0 1 5).2.2 h0).2.2.2.2.2.2 3⟩

/-! Edge symmetry of the dependency graph over reachable states. -/

theorem setRemove_idem (l : List Nat) (x : Nat) :
    setRemove (setRemove l x) x = setRemove l x := by
  unfold setRemove
  induction l with
  | nil => rfl
  | cons a t ih =>
    by_cases ha : a = x
    · simp [List.filter_cons, ha, ih]
    · simp [List.filter_cons, ha, ih]

theorem depcs_of_none {s : Sys} {x : NodeId} (h : getN s x = none) :
    dependenciesOf s x = [] := by
  unfold dependenciesOf
  rw [h]
  rfl

theorem deps_of_none {s : Sys} {x : NodeId} (h : getN s x = none) :
    dependentsOf s x = [] := by
  unfold dependentsOf
  rw [h]
  rfl

theorem getN_ge {s : Sys} {x : NodeId} (h : s.nodes.length ≤ x) : getN s x = none := by
  unfold getN
  exact List.getElem?_eq_none h

theorem addDependencyOp_nonplain (n : Node) (d : NodeId)
    (h : n.kind ≠ NodeKind.plain) :
    addDependencyOp n d = { n with dependencies := setAdd n.dependencies d } := by
  unfold addDependencyOp
  cases hk : n.kind with
  | plain => exact absurd hk h
  | computed => rfl
  | hybrid => rfl

theorem kind_addDependencyOp (n : Node) (d : NodeId) :
    (addDependencyOp n d).kind = n.kind := by
  unfold addDependencyOp
  cases hk : n.kind <;> rfl

theorem kindOf_updN (s : Sys) (i : NodeId) (f : Node → Node)
    (hf : ∀ n, (f n).kind = n.kind) (x : NodeId) :
    kindOf (updN s i f) x = kindOf s x := by
  unfold kindOf
  by_cases hx : x = i
  · subst hx
    rw [getN_updN_self]
    cases hg : getN s x with
    | none => rfl
    | some m =>
      show some (f m).kind = some m.kind
      rw [hf m]
  · rw [getN_updN_ne s i x f hx]

theorem capDepcs_c (s : Sys) (c i : NodeId) (nc : Node)
    (hgc : getN s c = some nc) (hkc : nc.kind ≠ NodeKind.plain) (hci : c ≠ i) :
    dependenciesOf (captureDep s c i) c = setAdd (dependenciesOf s c) i := by
  unfold captureDep dependenciesOf
  rw [getN_updN_ne _ i c _ hci, getN_updN_self, hgc]
  show (addDependencyOp nc i).dependencies = setAdd nc.dependencies i
  rw [addDependencyOp_nonplain nc i hkc]

theorem capDepcs_ne (s : Sys) (c i x : NodeId) (hx : x ≠ c) :
    dependenciesOf (captureDep s c i) x = dependenciesOf s x := by
  unfold captureDep dependenciesOf
  by_cases hxi : x = i
  · subst hxi
    rw [getN_updN_self, getN_updN_ne s c x _ hx]
    cases hg : getN s x with
    | none => rfl
    | some m => rfl
  · rw [getN_updN_ne _ i x _ hxi, getN_updN_ne s c x _ hx]

theorem capDeps_i (s : Sys) (c i : NodeId) (ni : Node)
    (hgi : getN s i = some ni) (hci : c ≠ i) :
    dependentsOf (captureDep s c i) i = setAdd (dependentsOf s i) c := by
  unfold captureDep dependentsOf
  rw [getN_updN_self, getN_updN_ne s c i _ (Ne.symm hci), hgi]
  rfl

theorem capDeps_ne (s : Sys) (c i x : NodeId) (nc : Node)
    (hgc : getN s c = some nc) (hkc : nc.kind ≠ NodeKind.plain) (hx : x ≠ i) :
    dependentsOf (captureDep s c i) x = dependentsOf s x := by
  unfold captureDep dependentsOf
  rw [getN_updN_ne _ i x _ hx]
  by_cases hxc : x = c
  · subst hxc
    rw [getN_updN_self, hgc]
    show (addDependencyOp nc i).dependents = nc.dependents
    rw [addDependencyOp_nonplain nc i hkc]
  · rw [getN_updN_ne s c x _ hxc]

theorem capKind (s : Sys) (c i x : NodeId) :
    kindOf (captureDep s c i) x = kindOf s x := by
  show kindOf (updN (updN s c fun n => addDependencyOp n i) i fun n =>
      { n with dependents := setAdd n.dependents c }) x = kindOf s x
  rw [kindOf_updN _ i (fun n => { n with dependents := setAdd n.dependents c })
    (fun n => rfl) x]
  rw [kindOf_updN s c (fun n => addDependencyOp n i)
    (fun n => kind_addDependencyOp n i) x]

theorem capLen (s : Sys) (c i : NodeId) :
    (captureDep s c i).nodes.length = s.nodes.length := by
  unfold captureDep
  rw [updN_nodes_length, updN_nodes_length]

theorem graphWF_captureDep (s : Sys) (c i : NodeId) (nc ni : Node)
    (hgc : getN s c = some nc) (hkc : nc.kind ≠ NodeKind.plain)
    (hgi : getN s i = some ni) (hci : c ≠ i) (h : GraphWF s) :
    GraphWF (captureDep s c i) := by
  obtain ⟨hE, hP, hD, hV1, hV2⟩ := h
  refine ⟨?_, ?_, ?_, ?_, ?_⟩
  · intro a b
    by_cases hbc : b = c
    · subst hbc
      rw [capDepcs_c s b i nc hgc hkc hci]
      by_cases hai : a = i
      · subst hai
        rw [capDeps_i s b a ni hgi hci]
        constructor
        · intro _
          exact mem_setAdd.mpr (Or.inr rfl)
        · intro _
          exact mem_setAdd.mpr (Or.inr rfl)
      · rw [capDeps_ne s b i a nc hgc hkc hai]
        constructor
        · intro hm
          rcases mem_setAdd.mp hm with hm | hm
          · exact (hE a b).mp hm
          · exact absurd hm hai
        · intro hm
          exact mem_setAdd.mpr (Or.inl ((hE a b).mpr hm))
    · rw [capDepcs_ne s c i b hbc]
      by_cases hai : a = i
      · subst hai
        rw [capDeps_i s c a ni hgi hci]
        constructor
        · intro hm
          exact mem_setAdd.mpr (Or.inl ((hE a b).mp hm))
        · intro hm
          rcases mem_setAdd.mp hm with hm | hm
          · exact (hE a b).mpr hm
          · exact absurd hm hbc
      · rw [capDeps_ne s c i a nc hgc hkc hai]
        exact hE a b
  · intro j hj
    rw [capKind s c i j] at hj
    have hjc : j ≠ c := by
      intro he
      subst he
      unfold kindOf at hj
      rw [hgc] at hj
      exact hkc (Option.some.inj hj)
    rw [capDepcs_ne s c i j hjc]
    exact hP j hj
  · intro j d hd
    rw [capKind s c i d]
    by_cases hji : j = i
    · subst hji
      rw [capDeps_i s c j ni hgi hci] at hd
      rcases mem_setAdd.mp hd with hd | hd
      · exact hD j d hd
      · subst hd
        intro hc2
        unfold kindOf at hc2
        rw [hgc] at hc2
        exact hkc (Option.some.inj hc2)
    · rw [capDeps_ne s c i j nc hgc hkc hji] at hd
      exact hD j d hd
  · intro j d hd
    rw [capLen s c i]
    by_cases hji : j = i
    · subst hji
      rw [capDeps_i s c j ni hgi hci] at hd
      rcases mem_setAdd.mp hd with hd | hd
      · exact hV1 j d hd
      · exact hd ▸ getN_some_lt hgc
    · rw [capDeps_ne s c i j nc hgc hkc hji] at hd
      exact hV1 j d hd
  · intro j d hd
    rw [capLen s c i]
    by_cases hjc : j = c
    · subst hjc
      rw [capDepcs_c s j i nc hgc hkc hci] at hd
      rcases mem_setAdd.mp hd with hd | hd
      · exact hV2 j d hd
      · exact hd ▸ getN_some_lt hgi
    · rw [capDepcs_ne s c i j hjc] at hd
      exact hV2 j d hd

theorem tdDeps_upd (s : Sys) (d i x : NodeId) :
    dependentsOf (updN s d (fun m => { m with dependents := setRemove m.dependents i })) x
      = if x = d then setRemove (dependentsOf s x) i else dependentsOf s x := by
  by_cases hx : x = d
  · subst hx
    rw [if_pos rfl]
    unfold dependentsOf
    rw [getN_updN_self]
    cases hg : getN s x with
    | none => rfl
    | some m => rfl
  · rw [if_neg hx]
    unfold dependentsOf
    rw [getN_updN_ne s d x _ hx]

theorem tdDepcs_upd (s : Sys) (d i x : NodeId) :
    dependenciesOf (updN s d (fun m => { m with dependents := setRemove m.dependents i })) x
      = dependenciesOf s x := by
  unfold dependenciesOf
  by_cases hx : x = d
  · subst hx
    rw [getN_updN_self]
    cases hg : getN s x with
    | none => rfl
    | some m => rfl
  · rw [getN_updN_ne s d x _ hx]

theorem depcs_updN_ne (s : Sys) (i x : NodeId) (f : Node → Node) (hx : x ≠ i) :
    dependenciesOf (updN s i f) x = dependenciesOf s x := by
  unfold dependenciesOf
  rw [getN_updN_ne s i x f hx]

theorem deps_updN_keep (s : Sys) (i x : NodeId) (f : Node → Node)
    (hf : ∀ m, (f m).dependents = m.dependents) :
    dependentsOf (updN s i f) x = dependentsOf s x := by
  unfold dependentsOf
  by_cases hx : x = i
  · subst hx
    rw [getN_updN_self]
    cases hg : getN s x with
    | none => rfl
    | some m =>
      show ((f m).dependents : List NodeId) = m.dependents
      exact hf m
  · rw [getN_updN_ne s i x f hx]

theorem tdDeps_fold (i : NodeId) :
    ∀ (l : List NodeId) (s : Sys) (x : NodeId),
      dependentsOf (l.foldl (fun acc d => updN acc d
          (fun m => { m with dependents := setRemove m.dependents i })) s) x
        = if x ∈ l then setRemove (dependentsOf s x) i else dependentsOf s x := by
  intro l
  induction l with
  | nil =>
    intro s x
    rw [if_neg (List.not_mem_nil x)]
    rfl
  | cons d t ih =>
    intro s x
    show dependentsOf (t.foldl (fun acc d => updN acc d
        (fun m => { m with dependents := setRemove m.dependents i }))
        (updN s d (fun m => { m with dependents := setRemove m.dependents i }))) x
      = if x ∈ d :: t then setRemove (dependentsOf s x) i else dependentsOf s x
    rw [ih (updN s d (fun m => { m with dependents := setRemove m.dependents i })) x,
      tdDeps_upd s d i x]
    by_cases hxd : x = d <;> by_cases hxt : x ∈ t
    · rw [if_pos hxt, if_pos hxd, if_pos (List.mem_cons.mpr (Or.inl hxd)),
        setRemove_idem]
    · rw [if_neg hxt, if_pos hxd, if_pos (List.mem_cons.mpr (Or.inl hxd))]
    · rw [if_pos hxt, if_neg hxd, if_pos (List.mem_cons_of_mem d hxt)]
    · rw [if_neg hxt, if_neg hxd, if_neg (by
        intro hc
        rcases List.mem_cons.mp hc with hc | hc
        · exact hxd hc
        · exact hxt hc)]

theorem tdRest_fold (i : NodeId) (l : List NodeId) (s : Sys) :
    (∀ x, dependenciesOf (l.foldl (fun acc d => updN acc d
        (fun m => { m with dependents := setRemove m.dependents i })) s) x
      = dependenciesOf s x) ∧
    (∀ x, kindOf (l.foldl (fun acc d => updN acc d
        (fun m => { m with dependents := setRemove m.dependents i })) s) x
      = kindOf s x) ∧
    (l.foldl (fun acc d => updN acc d
        (fun m => { m with dependents := setRemove m.dependents i })) s).nodes.length
      = s.nodes.length := by
  refine foldl_inv (P := fun acc : Sys =>
      (∀ x, dependenciesOf acc x = dependenciesOf s x) ∧
      (∀ x, kindOf acc x = kindOf s x) ∧ acc.nodes.length = s.nodes.length)
    _ l s ⟨fun x => rfl, fun x => rfl, rfl⟩ ?_
  intro a b _ ha
  show (∀ x, dependenciesOf (updN a b
      (fun m => { m with dependents := setRemove m.dependents i })) x
      = dependenciesOf s x) ∧
    (∀ x, kindOf (updN a b
      (fun m => { m with dependents := setRemove m.dependents i })) x = kindOf s x) ∧
    (updN a b (fun m => { m with dependents := setRemove m.dependents i })).nodes.length
      = s.nodes.length
  refine ⟨fun x => ?_, fun x => ?_, ?_⟩
  · rw [tdDepcs_upd a b i x]
    exact ha.1 x
  · rw [kindOf_updN a b (fun m => { m with dependents := setRemove m.dependents i })
      (fun m => rfl) x]
    exact ha.2.1 x
  · rw [updN_nodes_length]
    exact ha.2.2

theorem graph_teardownDeps (s : Sys) (i : NodeId) (n : Node) (hgi : getN s i = some n) :
    (∀ x, dependenciesOf (teardownDeps s i) x
      = if x = i then [] else dependenciesOf s x) ∧
    (∀ x, dependentsOf (teardownDeps s i) x
      = if x ∈ n.dependencies then setRemove (dependentsOf s x) i
        else dependentsOf s x) ∧
    (∀ x, kindOf (teardownDeps s i) x = kindOf s x) ∧
    (teardownDeps s i).nodes.length = s.nodes.length := by
  have hshape : teardownDeps s i
      = updN (n.dependencies.foldl (fun acc d => updN acc d
          (fun m => { m with dependents := setRemove m.dependents i })) s) i
        (fun m => { m with dependencies := [] }) := by
    unfold teardownDeps
    rw [hgi]
  obtain ⟨hdc, hkd, hlen⟩ := tdRest_fold i n.dependencies s
  refine ⟨?_, ?_, ?_, ?_⟩
  · intro x
    rw [hshape]
    by_cases hx : x = i
    · rw [if_pos hx, hx]
      unfold dependenciesOf
      rw [getN_updN_self]
      cases hg2 : getN (n.dependencies.foldl (fun acc d => updN acc d
          (fun m => { m with dependents := setRemove m.dependents i })) s) i with
      | none => rfl
      | some m => rfl
    · rw [if_neg hx, depcs_updN_ne _ i x
        (fun m => { m with dependencies := ([] : List NodeId) }) hx]
      exact hdc x
  · intro x
    rw [hshape, deps_updN_keep _ i x
      (fun m => { m with dependencies := ([] : List NodeId) }) (fun m => rfl)]
    exact tdDeps_fold i n.dependencies s x
  · intro x
    rw [hshape, kindOf_updN _ i
      (fun m => { m with dependencies := ([] : List NodeId) }) (fun m => rfl) x]
    exact hkd x
  · rw [hshape, updN_nodes_length]
    exact hlen

theorem graphWF_teardownDeps (s : Sys) (i : NodeId) (h : GraphWF s) :
    GraphWF (teardownDeps s i) := by
  cases hgi : getN s i with
  | none =>
    have he : teardownDeps s i = s := by
      unfold teardownDeps
      rw [hgi]
    rw [he]
    exact h
  | some n =>
    obtain ⟨hdc, hdeps, hkd, hlen⟩ := graph_teardownDeps s i n hgi
    obtain ⟨hE, hP, hD, hV1, hV2⟩ := h
    have hnd : n.dependencies = dependenciesOf s i := by
      unfold dependenciesOf
      rw [hgi]
      rfl
    rw [hnd] at hdeps
    refine ⟨?_, ?_, ?_, ?_, ?_⟩
    · intro a b
      rw [hdc b, hdeps a]
      by_cases hbi : b = i
      · rw [if_pos hbi]
        constructor
        · intro hm
          exact absurd hm (List.not_mem_nil a)
        · intro hm
          by_cases ham : a ∈ dependenciesOf s i
          · rw [if_pos ham] at hm
            rw [hbi] at hm
            exact absurd rfl (mem_setRemove.mp hm).2
          · rw [if_neg ham] at hm
            rw [hbi] at hm
            exact absurd ((hE a i).mpr hm) ham
      · rw [if_neg hbi]
        by_cases ham : a ∈ dependenciesOf s i
        · rw [if_pos ham]
          constructor
          · intro hm
            exact mem_setRemove.mpr ⟨(hE a b).mp hm, hbi⟩
          · intro hm
            exact (hE a b).mpr (mem_setRemove.mp hm).1
        · rw [if_neg ham]
          exact hE a b
    · intro j hj
      rw [hkd j] at hj
      rw [hdc j]
      by_cases hji : j = i
      · rw [if_pos hji]
      · rw [if_neg hji]
        exact hP j hj
    · intro j d hd
      rw [hkd d]
      rw [hdeps j] at hd
      by_cases hjm : j ∈ dependenciesOf s i
      · rw [if_pos hjm] at hd
        exact hD j d (mem_setRemove.mp hd).1
      · rw [if_neg hjm] at hd
        exact hD j d hd
    · intro j d hd
      rw [hlen]
      rw [hdeps j] at hd
      by_cases hjm : j ∈ dependenciesOf s i
      · rw [if_pos hjm] at hd
        exact hV1 j d (mem_setRemove.mp hd).1
      · rw [if_neg hjm] at hd
        exact hV1 j d hd
    · intro j d hd
      rw [hlen]
      rw [hdc j] at hd
      by_cases hji : j = i
      · rw [if_pos hji] at hd
        exact absurd hd (List.not_mem_nil d)
      · rw [if_neg hji] at hd
        exact hV2 j d hd

theorem ncKind_of_core {s t : Sys} {c : NodeId} (hcore : nodeCore t c = nodeCore s c)
    (h : ∃ nc, getN s c = some nc ∧ nc.kind ≠ NodeKind.plain) :
    ∃ m, getN t c = some m ∧ m.kind ≠ NodeKind.plain := by
  obtain ⟨nc, hg, hk⟩ := h
  obtain ⟨m, hm, hco⟩ := core_step hg hcore
  have hmk : m.kind = nc.kind := congrArg (fun t2 => t2.1) hco
  exact ⟨m, hm, by rw [hmk]; exact hk⟩

theorem graphWF_getOp (s : Sys) (cc : Option NodeId) (i : NodeId)
    (hcc : ∀ c, cc = some c → ∃ nc, getN s c = some nc ∧ nc.kind ≠ NodeKind.plain)
    (h : GraphWF s) : GraphWF (getOp s cc i).1 := by
  unfold getOp
  cases hgi : getN s i with
  | none => exact h
  | some n =>
    cases cc with
    | none => exact h
    | some c =>
      obtain ⟨nc, hgc, hkc⟩ := hcc c rfl
      by_cases hcap : n.kind = NodeKind.plain ∨ c ≠ i
      · simp only [if_pos hcap]
        have hci : c ≠ i := by
          rcases hcap with hpl | hne
          · intro he
            rw [he, hgi] at hgc
            have hnn : n = nc := Option.some.inj hgc
            rw [← hnn] at hkc
            exact hkc hpl
          · exact hne
        exact graphWF_captureDep s c i nc n hgc hkc hgi hci h
      · simp only [if_neg hcap]
        exact h

theorem graphWF_runCExp (cc : NodeId) (e : CExp) :
    ∀ s : Sys, (∃ nc, getN s cc = some nc ∧ nc.kind ≠ NodeKind.plain) → GraphWF s →
      GraphWF (runCExp s cc e).1 := by
  induction e with
  | ret v => exact fun s _ h => h
  | lit o => exact fun s _ h => h
  | read i k ih =>
    intro s hc h
    show GraphWF (runCExp (getOp s (some cc) i).1 cc (k (getOp s (some cc) i).2)).1
    refine ih (getOp s (some cc) i).2 (getOp s (some cc) i).1 ?_ ?_
    · exact ncKind_of_core (nodeCore_getOp s (some cc) i cc) hc
    · refine graphWF_getOp s (some cc) i ?_ h
      intro c hce
      exact (Option.some.inj hce) ▸ hc

theorem graphWF_computePass (s : Sys) (i : NodeId) (c : CExp)
    (hki : ∃ n, getN s i = some n ∧ n.kind ≠ NodeKind.plain)
    (h : GraphWF s) : GraphWF (computePass s i c).1 := by
  unfold computePass
  refine graphWF_runCExp i c (teardownDeps s i) ?_ (graphWF_teardownDeps s i h)
  exact ncKind_of_core (nodeCore_teardownDeps s i i) hki

theorem graphWF_of_graphEq {s2 t : Sys}
    (hdc : ∀ x, dependenciesOf t x = dependenciesOf s2 x)
    (hdp : ∀ x, dependentsOf t x = dependentsOf s2 x)
    (hk : ∀ x, kindOf t x = kindOf s2 x)
    (hl : t.nodes.length = s2.nodes.length)
    (h : GraphWF s2) : GraphWF t := by
  obtain ⟨hE, hP, hD, hV1, hV2⟩ := h
  refine ⟨fun a b => ?_, fun j hj => ?_, fun j d hd => ?_, fun j d hd => ?_,
    fun j d hd => ?_⟩
  · rw [hdc b, hdp a]
    exact hE a b
  · rw [hk j] at hj
    rw [hdc j]
    exact hP j hj
  · rw [hdp j] at hd
    rw [hk d]
    exact hD j d hd
  · rw [hdp j] at hd
    rw [hl]
    exact hV1 j d hd
  · rw [hdc j] at hd
    rw [hl]
    exact hV2 j d hd

theorem graphWF_congr_nodes {s2 t : Sys} (hn : t.nodes = s2.nodes) (h : GraphWF s2) :
    GraphWF t := by
  refine graphWF_of_graphEq ?_ ?_ ?_ ?_ h
  · intro x
    unfold dependenciesOf
    rw [getN_congr_nodes hn x]
  · intro x
    unfold dependentsOf
    rw [getN_congr_nodes hn x]
  · intro x
    unfold kindOf
    rw [getN_congr_nodes hn x]
  · rw [hn]

theorem graphWF_setN_same {s2 X : Sys} {i : NodeId} {n m : Node}
    (hnodes : X.nodes = s2.nodes) (hg : getN s2 i = some n)
    (hk : m.kind = n.kind) (hdc : m.dependencies = n.dependencies)
    (hdp : m.dependents = n.dependents) (h : GraphWF s2) :
    GraphWF (setN X i m) := by
  have hgX : getN X i = some n := by
    rw [getN_congr_nodes hnodes i]
    exact hg
  refine graphWF_of_graphEq ?_ ?_ ?_ ?_ h
  · intro x
    by_cases hx : x = i
    · rw [hx]
      unfold setN dependenciesOf
      rw [getN_updN_self, hgX, hg]
      show m.dependencies = n.dependencies
      exact hdc
    · unfold setN
      rw [depcs_updN_ne X i x _ hx]
      unfold dependenciesOf
      rw [getN_congr_nodes hnodes x]
  · intro x
    by_cases hx : x = i
    · rw [hx]
      unfold setN dependentsOf
      rw [getN_updN_self, hgX, hg]
      show m.dependents = n.dependents
      exact hdp
    · unfold setN dependentsOf
      rw [getN_updN_ne X i x _ hx, getN_congr_nodes hnodes x]
  · intro x
    by_cases hx : x = i
    · rw [hx]
      unfold setN kindOf
      rw [getN_updN_self, hgX, hg]
      show some m.kind = some n.kind
      rw [hk]
    · unfold setN kindOf
      rw [getN_updN_ne X i x _ hx, getN_congr_nodes hnodes x]
  · show (updN X i (fun _ => m)).nodes.length = s2.nodes.length
    rw [updN_nodes_length, hnodes]

theorem graphWF_storeMark_same {s2 X : Sys} {i : NodeId} {n m : Node}
    (hnodes : X.nodes = s2.nodes) (hg : getN s2 i = some n)
    (hk : m.kind = n.kind) (hdc : m.dependencies = n.dependencies)
    (hdp : m.dependents = n.dependents) (h : GraphWF s2) :
    GraphWF (storeMark X i m) := by
  refine graphWF_congr_nodes ?_ (graphWF_setN_same hnodes hg hk hdc hdp h)
  show (storeMark X i m).nodes = (setN X i m).nodes
  unfold storeMark
  rw [schedule_nodes]

theorem allocObj_nodes (s : Sys) (o : Obj) : (allocObj s o).nodes = s.nodes := rfl

theorem cloneVal_nodes (s : Sys) (v : JVal) : (cloneVal s v).1.nodes = s.nodes := by
  cases v <;> rfl

theorem graphWF_recomputeC (s : Sys) (i : NodeId) (n0 : Node)
    (hg : getN s i = some n0) (hk : n0.kind ≠ NodeKind.plain) (h : GraphWF s) :
    GraphWF (recomputeC s i) := by
  obtain ⟨n2, hn2, hcore⟩ := core_step hg (nodeCore_computePass s i n0.compute i)
  have hWF2 : GraphWF (computePass s i n0.compute).1 :=
    graphWF_computePass s i n0.compute ⟨n0, hg, hk⟩ h
  simp only [recomputeC, hg, hn2, Option.getD_some]
  by_cases hgate : n2.lastDeps = n2.dependencies
  · simp only [if_pos hgate]
    by_cases hveq : n2.value = (computePass s i n0.compute).2
    · simp only [if_pos hveq]
      exact graphWF_setN_same rfl hn2 rfl rfl rfl hWF2
    · simp only [if_neg hveq]
      exact graphWF_storeMark_same (cloneVal_nodes _ _) hn2 rfl rfl rfl hWF2
  · simp only [if_neg hgate]
    by_cases hveq : (cloneVal (computePass s i n0.compute).1
        (computePass s i n0.compute).2).2 = (computePass s i n0.compute).2
    · simp only [if_pos hveq]
      exact graphWF_setN_same (cloneVal_nodes _ _) hn2 rfl rfl rfl hWF2
    · simp only [if_neg hveq]
      exact graphWF_storeMark_same
        (by rw [cloneVal_nodes, cloneVal_nodes]) hn2 rfl rfl rfl hWF2

theorem graphWF_recomputeH (s : Sys) (i : NodeId) (n0 : Node)
    (hg : getN s i = some n0) (hk : n0.kind ≠ NodeKind.plain) (h : GraphWF s) :
    GraphWF (recomputeH s i) := by
  obtain ⟨n2, hn2, hcore⟩ := core_step hg (nodeCore_computePass s i n0.compute i)
  have hWF2 : GraphWF (computePass s i n0.compute).1 :=
    graphWF_computePass s i n0.compute ⟨n0, hg, hk⟩ h
  simp only [recomputeH, hg, hn2, Option.getD_some]
  by_cases hgate : n2.lastDeps = n2.dependencies
  · simp only [if_pos hgate]
    cases hov : n2.manualOverride with
    | none =>
      simp only [hov]
      exact graphWF_storeMark_same (cloneVal_nodes _ _) hn2 rfl rfl rfl hWF2
    | some ov =>
      simp only [hov]
      exact graphWF_storeMark_same
        (by rw [allocObj_nodes, cloneVal_nodes]) hn2 rfl rfl rfl hWF2
  · simp only [if_neg hgate]
    cases hov : n2.manualOverride with
    | none =>
      simp only [hov]
      exact graphWF_storeMark_same (cloneVal_nodes _ _) hn2 rfl rfl rfl hWF2
    | some ov =>
      simp only [hov]
      exact graphWF_storeMark_same
        (by rw [allocObj_nodes, cloneVal_nodes]) hn2 rfl rfl rfl hWF2

theorem graphWF_recomputeOp (s : Sys) (j : NodeId) (h : GraphWF s) :
    GraphWF (recomputeOp s j) := by
  unfold recomputeOp
  cases hg : getN s j with
  | none => exact h
  | some n =>
    cases hk : n.kind with
    | plain =>
      simp only [hk]
      exact h
    | computed =>
      simp only [hk]
      exact graphWF_recomputeC s j n hg
        (by rw [hk]; intro hc; exact NodeKind.noConfusion hc) h
    | hybrid =>
      simp only [hk]
      exact graphWF_recomputeH s j n hg
        (by rw [hk]; intro hc; exact NodeKind.noConfusion hc) h

theorem depcs_updN_keep (s : Sys) (i x : NodeId) (f : Node → Node)
    (hf : ∀ m, (f m).dependencies = m.dependencies) :
    dependenciesOf (updN s i f) x = dependenciesOf s x := by
  unfold dependenciesOf
  by_cases hx : x = i
  · subst hx
    rw [getN_updN_self]
    cases hg : getN s x with
    | none => rfl
    | some m =>
      show ((f m).dependencies : List NodeId) = m.dependencies
      exact hf m
  · rw [getN_updN_ne s i x f hx]

theorem graphWF_notifyAll2 (s : Sys) (j : NodeId) (h : GraphWF s) :
    GraphWF (notifyAll s j) :=
  graphWF_congr_nodes (nodes_notifyAll s j) h

theorem graphWF_plainSet (s : Sys) (j : NodeId) (w : JVal) (h : GraphWF s) :
    GraphWF (plainSet s j w) := by
  unfold plainSet
  cases hg : getN s j with
  | none => exact h
  | some m =>
    show GraphWF (if m.value = w then s
      else storeMark (cloneVal s w).1 j { m with value := (cloneVal s w).2 })
    by_cases hvv : m.value = w
    · rw [if_pos hvv]
      exact h
    · rw [if_neg hvv]
      exact graphWF_storeMark_same (cloneVal_nodes s w) hg rfl rfl rfl h

theorem graphWF_hybridSet (s : Sys) (j : NodeId) (p : Obj) (h : GraphWF s) :
    GraphWF (hybridSet s j p) := by
  unfold hybridSet
  cases hg : getN s j with
  | none => exact h
  | some m =>
    show GraphWF (storeMark (allocObj (cloneVal s m.value).1
        (mergeFields (contentOf (cloneVal s m.value).1 (cloneVal s m.value).2)
          (mergeFields (m.manualOverride.getD []) p))) j
      { m with
        manualOverride := some (mergeFields (m.manualOverride.getD []) p)
        value := JVal.ref (cloneVal s m.value).1.heap.length })
    exact graphWF_storeMark_same (by rw [allocObj_nodes, cloneVal_nodes]) hg
      rfl rfl rfl h

theorem graphWF_setOp (s : Sys) (i : NodeId) (a : SetArg) (h : GraphWF s) :
    GraphWF (setOp s i a).1 := by
  unfold setOp
  cases hg : getN s i with
  | none => exact h
  | some m =>
    obtain ⟨mkind, mval, msub, mdep, mdepc, mld, mov, mcomp⟩ := m
    cases mkind with
    | plain =>
      cases a with
      | val w => exact graphWF_plainSet s i w h
      | patch p => exact h
    | computed => cases a <;> exact h
    | hybrid =>
      cases a with
      | val w => exact h
      | patch p => exact graphWF_hybridSet s i p h

theorem graphWF_subscribeOp (s : Sys) (i : NodeId) (sb : Nat) (h : GraphWF s) :
    GraphWF (subscribeOp s i sb) := by
  unfold subscribeOp
  cases hg : getN s i with
  | none => exact h
  | some n =>
    exact graphWF_congr_nodes rfl (graphWF_setN_same rfl hg rfl rfl rfl h)

theorem graphWF_disposeOp_empty (s : Sys) (i : NodeId) (n : Node)
    (hg : getN s i = some n) (hemp : n.dependents = []) (h : GraphWF s) :
    GraphWF (disposeOp s i) := by
  simp only [disposeOp, hg, hemp, List.foldl_nil]
  have hs1 : GraphWF (setN s i
      { n with subscribers := [], dependents := ([] : List NodeId) }) :=
    graphWF_setN_same rfl hg rfl rfl hemp.symm h
  have hg1 : getN (setN s i
      { n with subscribers := [], dependents := ([] : List NodeId) }) i
      = some { n with subscribers := [], dependents := ([] : List NodeId) } := by
    unfold setN
    rw [getN_updN_self, hg]
    rfl
  refine graphWF_of_graphEq ?_ ?_ ?_ ?_ hs1
  · intro x
    exact depcs_updN_keep _ i x (fun m => { m with dependents := ([] : List NodeId) })
      (fun m => rfl)
  · intro x
    by_cases hx : x = i
    · rw [hx]
      unfold dependentsOf
      rw [getN_updN_self, hg1]
      rfl
    · unfold dependentsOf
      rw [getN_updN_ne _ i x _ hx]
  · intro x
    exact kindOf_updN _ i (fun m => { m with dependents := ([] : List NodeId) })
      (fun m => rfl) x
  · exact updN_nodes_length _ i _

theorem graphWF_cond_ite {b : Bool} {t e : Sys}
    (ht : b = true → GraphWF t) (he : GraphWF e) :
    GraphWF (if b = true then t else e) := by
  by_cases hb : b = true
  · rw [if_pos hb]
    exact ht hb
  · rw [if_neg hb]
    exact he

theorem graphWF_unsubscribeOp (s : Sys) (i : NodeId) (sb : Nat) (h : GraphWF s) :
    GraphWF (unsubscribeOp s i sb) := by
  cases hg : getN s i with
  | none =>
    have he : unsubscribeOp s i sb = s := by
      unfold unsubscribeOp
      rw [hg]
    rw [he]
    exact h
  | some n =>
    simp only [unsubscribeOp, hg]
    have hs1 : GraphWF (setN s i { n with subscribers := setRemove n.subscribers sb }) :=
      graphWF_setN_same rfl hg rfl rfl rfl h
    have hg1 : getN (setN s i { n with subscribers := setRemove n.subscribers sb }) i
        = some { n with subscribers := setRemove n.subscribers sb } := by
      unfold setN
      rw [getN_updN_self, hg]
      rfl
    refine graphWF_cond_ite ?_ hs1
    intro hgone
    refine graphWF_disposeOp_empty _ i
      { n with subscribers := setRemove n.subscribers sb } hg1 ?_ hs1
    show n.dependents = []
    cases hk : n.kind with
    | plain =>
      simp only [hk, Bool.and_eq_true] at hgone
      exact isEmpty_eq_nil hgone.2
    | computed =>
      simp only [hk, Bool.and_eq_true] at hgone
      exact isEmpty_eq_nil hgone.2
    | hybrid =>
      simp only [hk, Bool.and_eq_true] at hgone
      exact isEmpty_eq_nil hgone.2

theorem graphWF_stepA (acc : Sys × List NodeId) (j : NodeId) (h : GraphWF acc.1) :
    GraphWF (stepA acc j).1 := by
  unfold stepA
  by_cases h1 : j ∈ acc.2
  · rw [if_pos h1]
    exact h
  · rw [if_neg h1]
    by_cases h2 : hasRecompute acc.1 j
    · rw [if_pos h2]
      show GraphWF (notifyAll (recomputeOp acc.1 j) j)
      exact graphWF_notifyAll2 _ j (graphWF_recomputeOp acc.1 j h)
    · rw [if_neg h2]
      exact h

theorem graphWF_stepB (acc : Sys × List NodeId) (j : NodeId) (h : GraphWF acc.1) :
    GraphWF (stepB acc j).1 := by
  unfold stepB
  by_cases h1 : j ∈ acc.2
  · rw [if_pos h1]
    exact h
  · rw [if_neg h1]
    by_cases h2 : hasRecompute acc.1 j
    · rw [if_pos h2]
      exact h
    · rw [if_neg h2]
      show GraphWF (notifyAll acc.1 j)
      exact graphWF_notifyAll2 _ j h

theorem graphWF_wave (s : Sys) (pr : List NodeId) (h : GraphWF s) :
    GraphWF (wave s pr).1 := by
  show GraphWF (enqueueDependents
    (phaseB s.pending (phaseA s.pending ({ s with pending := [] }, pr))).1
    (phaseB s.pending (phaseA s.pending ({ s with pending := [] }, pr))).2)
  refine graphWF_congr_nodes (enqueue_frame _ _).1 ?_
  have hA : GraphWF (phaseA s.pending ({ s with pending := [] }, pr)).1 := by
    unfold phaseA
    exact foldl_inv (P := fun acc : Sys × List NodeId => GraphWF acc.1)
      stepA s.pending _ h (fun a b _ ha => graphWF_stepA a b ha)
  unfold phaseB
  exact foldl_inv (P := fun acc : Sys × List NodeId => GraphWF acc.1)
    stepB s.pending _ hA (fun a b _ ha => graphWF_stepB a b ha)

theorem graphWF_flushLoop :
    ∀ (fuel : Nat) (s : Sys) (pr : List NodeId), GraphWF s →
      GraphWF (flushLoop fuel s pr).1 := by
  intro fuel
  induction fuel with
  | zero => exact fun s pr h => h
  | succ f ih =>
    intro s pr h
    show GraphWF (if s.pending.isEmpty then (s, pr) else
      flushLoop f (wave s pr).1 (wave s pr).2).1
    by_cases hp : s.pending.isEmpty
    · rw [if_pos hp]
      exact h
    · rw [if_neg hp]
      exact ih _ _ (graphWF_wave s pr h)

theorem graphWF_processPendingStates (fuel : Nat) (s : Sys) (h : GraphWF s) :
    GraphWF (processPendingStates fuel s) := by
  show GraphWF (flushLoop fuel { s with isProcessing := false } []).1
  exact graphWF_flushLoop fuel { s with isProcessing := false } [] h

theorem graphWF_append (s : Sys) (node : Node)
    (hdc : node.dependencies = []) (hdp : node.dependents = [])
    (h : GraphWF s) : GraphWF { s with nodes := s.nodes ++ [node] } := by
  obtain ⟨hE, hP, hD, hV1, hV2⟩ := h
  have hlt : ∀ x, x < s.nodes.length →
      getN ({ s with nodes := s.nodes ++ [node] } : Sys) x = getN s x := by
    intro x hx
    show (s.nodes ++ [node])[x]? = s.nodes[x]?
    rw [List.getElem?_append, if_pos hx]
  have hself : getN ({ s with nodes := s.nodes ++ [node] } : Sys) s.nodes.length
      = some node := by
    show (s.nodes ++ [node])[s.nodes.length]? = some node
    exact getElem?_concat_len s.nodes node
  have hgt : ∀ x, s.nodes.length < x →
      getN ({ s with nodes := s.nodes ++ [node] } : Sys) x = none := by
    intro x hx
    show (s.nodes ++ [node])[x]? = none
    apply List.getElem?_eq_none
    rw [List.length_append, List.length_singleton]
    exact hx
  have hdcx : ∀ x, dependenciesOf ({ s with nodes := s.nodes ++ [node] } : Sys) x
      = if x < s.nodes.length then dependenciesOf s x else [] := by
    intro x
    rcases Nat.lt_trichotomy x s.nodes.length with hx | hx | hx
    · rw [if_pos hx]
      unfold dependenciesOf
      rw [hlt x hx]
    · rw [if_neg (show ¬x < s.nodes.length by rw [hx]; exact Nat.lt_irrefl _)]
      unfold dependenciesOf
      rw [hx, hself]
      show node.dependencies = []
      exact hdc
    · rw [if_neg (Nat.not_lt.mpr (Nat.le_of_lt hx))]
      unfold dependenciesOf
      rw [hgt x hx]
      rfl
  have hdpx : ∀ x, dependentsOf ({ s with nodes := s.nodes ++ [node] } : Sys) x
      = if x < s.nodes.length then dependentsOf s x else [] := by
    intro x
    rcases Nat.lt_trichotomy x s.nodes.length with hx | hx | hx
    · rw [if_pos hx]
      unfold dependentsOf
      rw [hlt x hx]
    · rw [if_neg (show ¬x < s.nodes.length by rw [hx]; exact Nat.lt_irrefl _)]
      unfold dependentsOf
      rw [hx, hself]
      show node.dependents = []
      exact hdp
    · rw [if_neg (Nat.not_lt.mpr (Nat.le_of_lt hx))]
      unfold dependentsOf
      rw [hgt x hx]
      rfl
  have hkx : ∀ x, x < s.nodes.length →
      kindOf ({ s with nodes := s.nodes ++ [node] } : Sys) x = kindOf s x := by
    intro x hx
    unfold kindOf
    rw [hlt x hx]
  have hlen : ({ s with nodes := s.nodes ++ [node] } : Sys).nodes.length
      = s.nodes.length + 1 := by
    show (s.nodes ++ [node]).length = s.nodes.length + 1
    rw [List.length_append, List.length_singleton]
  refine ⟨?_, ?_, ?_, ?_, ?_⟩
  · intro a b
    rw [hdcx b, hdpx a]
    by_cases hb : b < s.nodes.length <;> by_cases ha : a < s.nodes.length
    · rw [if_pos hb, if_pos ha]
      exact hE a b
    · rw [if_pos hb, if_neg ha]
      constructor
      · intro hm
        exact absurd (hV2 b a hm) ha
      · intro hm
        exact absurd hm (List.not_mem_nil b)
    · rw [if_neg hb, if_pos ha]
      constructor
      · intro hm
        exact absurd hm (List.not_mem_nil a)
      · intro hm
        exact absurd (hV1 a b hm) hb
    · rw [if_neg hb, if_neg ha]
      constructor
      · intro hm
        exact absurd hm (List.not_mem_nil a)
      · intro hm
        exact absurd hm (List.not_mem_nil b)
  · intro j hj
    rw [hdcx j]
    by_cases hjl : j < s.nodes.length
    · rw [if_pos hjl]
      rw [hkx j hjl] at hj
      exact hP j hj
    · rw [if_neg hjl]
  · intro j d hd
    rw [hdpx j] at hd
    by_cases hjl : j < s.nodes.length
    · rw [if_pos hjl] at hd
      have hdl : d < s.nodes.length := hV1 j d hd
      rw [hkx d hdl]
      exact hD j d hd
    · rw [if_neg hjl] at hd
      exact absurd hd (List.not_mem_nil d)
  · intro j d hd
    rw [hlen]
    rw [hdpx j] at hd
    by_cases hjl : j < s.nodes.length
    · rw [if_pos hjl] at hd
      exact Nat.lt_succ_of_lt (hV1 j d hd)
    · rw [if_neg hjl] at hd
      exact absurd hd (List.not_mem_nil d)
  · intro j d hd
    rw [hlen]
    rw [hdcx j] at hd
    by_cases hjl : j < s.nodes.length
    · rw [if_pos hjl] at hd
      exact Nat.lt_succ_of_lt (hV2 j d hd)
    · rw [if_neg hjl] at hd
      exact absurd hd (List.not_mem_nil d)

theorem graphWF_createStateOp (s : Sys) (v : JVal) (h : GraphWF s) :
    GraphWF (createStateOp s v).1 := by
  show GraphWF { (cloneVal s v).1 with
    nodes := (cloneVal s v).1.nodes ++
      [{ kind := NodeKind.plain, value := (cloneVal s v).2, subscribers := [],
         dependents := [], dependencies := [], lastDeps := [], manualOverride := none,
         compute := CExp.ret JVal.undef }] }
  exact graphWF_append _ _ rfl rfl (graphWF_congr_nodes (cloneVal_nodes s v) h)

theorem graphWF_createComputedOp (s : Sys) (c : CExp) (h : GraphWF s) :
    GraphWF (createComputedOp s c).1 := by
  show GraphWF (recomputeC { s with nodes := s.nodes ++
    [{ kind := NodeKind.computed, value := JVal.undef, subscribers := [],
       dependents := [], dependencies := [], lastDeps := [], manualOverride := none,
       compute := c }] } s.nodes.length)
  refine graphWF_recomputeC _ s.nodes.length
    { kind := NodeKind.computed, value := JVal.undef, subscribers := [],
      dependents := [], dependencies := [], lastDeps := [], manualOverride := none,
      compute := c } ?_ ?_ ?_
  · show (s.nodes ++ [_])[s.nodes.length]? = some _
    exact getElem?_concat_len s.nodes _
  · intro hc
    exact NodeKind.noConfusion hc
  · exact graphWF_append s _ rfl rfl h

theorem graphWF_createHybridOp (s : Sys) (c : CExp) (o : Obj) (h : GraphWF s) :
    GraphWF (createHybridOp s c o).1 := by
  refine graphWF_recomputeH _ s.nodes.length
    { kind := NodeKind.hybrid, value := JVal.ref s.heap.length, subscribers := [],
      dependents := [], dependencies := [], lastDeps := [], manualOverride := none,
      compute := c } ?_ ?_ ?_
  · show (s.nodes ++ [_])[s.nodes.length]? = some _
    exact getElem?_concat_len s.nodes _
  · intro hc
    exact NodeKind.noConfusion hc
  · exact graphWF_append { s with heap := s.heap ++ [o] } _ rfl rfl h

theorem graphWF_init : GraphWF initSys := by
  have hnone : ∀ x, getN initSys x = none := fun x => getN_ge (Nat.zero_le x)
  refine ⟨fun a b => ?_, fun j hj => ?_, fun j d hd => ?_, fun j d hd => ?_,
    fun j d hd => ?_⟩
  · rw [depcs_of_none (hnone b), deps_of_none (hnone a)]
    constructor
    · intro hm
      exact absurd hm (List.not_mem_nil a)
    · intro hm
      exact absurd hm (List.not_mem_nil b)
  · exact depcs_of_none (hnone j)
  · rw [deps_of_none (hnone j)] at hd
    exact absurd hd (List.not_mem_nil d)
  · rw [deps_of_none (hnone j)] at hd
    exact absurd hd (List.not_mem_nil d)
  · rw [depcs_of_none (hnone j)] at hd
    exact absurd hd (List.not_mem_nil d)

theorem graphWF_reachable {s : Sys} (h : Reachable s) : GraphWF s := by
  induction h with
  | init => exact graphWF_init
  | createState s v _ ih => exact graphWF_createStateOp s v ih
  | createComputed s c _ ih => exact graphWF_createComputedOp s c ih
  | createHybrid s c o _ ih => exact graphWF_createHybridOp s c o ih
  | get s i _ ih => exact graphWF_getOp s none i (fun c hc => Option.noConfusion hc) ih
  | set s i a _ ih => exact graphWF_setOp s i a ih
  | subscribe s i sb _ ih => exact graphWF_subscribeOp s i sb ih
  | unsubscribe s i sb _ ih => exact graphWF_unsubscribeOp s i sb ih
  | flush s fuel _ ih => exact graphWF_processPendingStates fuel s ih

/-- C3: edge symmetry is an invariant of every state reachable through the
public API: a node is among the dependencies of another exactly when the
latter is among its dependents.  Dependency capture during get under an
active computation adds both directions together, the edge teardown opening
recompute removes both directions together, and dispose only runs once the
node has no dependents left, so every reachable graph is symmetric. -/
theorem edge_symmetry_invariant (s : Sys) (h : Reachable s) : EdgeSym s :=
  (graphWF_reachable h).1

/-- Witness for C3 at the diamond fixture: after the three computed nodes
are created over the plain root, the edge between nodes 1 and 3 exists in
both directions and symmetry holds. -/
theorem edge_symmetry_invariant_witness :
    (1 ∈ dependenciesOf sysD3.1 3 ↔ 3 ∈ dependentsOf sysD3.1 1) ∧
    1 ∈ dependenciesOf sysD3.1 3 ∧ 3 ∈ dependentsOf sysD3.1 1 := by
  have hr : Reachable sysD3.1 :=
    Reachable.createComputed sysD2.1 cexpD3
      (Reachable.createComputed sysD1.1 cexpD2
        (Reachable.createComputed sysD0.1 cexpD1
          (Reachable.createState initSys (JVal.prim 1) Reachable.init)))
  exact ⟨edge_symmetry_invariant sysD3.1 hr 1 3, by decide, by decide⟩

end Kraai
